import Mathlib

/-!
# Verification of the ART load-store elimination / alias analysis subsystem

The repository's Load-Store Elimination (LSE) subsystem operates on an
SSA-form control-flow graph.  The implementation files
(`load_store_analysis.h/.cc`, `load_store_elimination.cc`) are not part of
the provided sources; only their unit tests are.  Following the project
specification (spec.md §3, §4) we model the data structures and the
algorithms here and verify the specified properties against the model,
cross-checking every concrete scenario against the expectations recorded in
`load_store_analysis_test.cc` and `load_store_elimination_test.cc`.
-/

namespace ArtLSE

/-! ## Heap-location index expressions and the may-alias relation

Modelled from the spec (§4.1): an array index expression handled precisely
by the collector is a constant, a bare variable, or `var ± constant`; any
other (non-affine) index must alias everything on the same base.  Overlap of
the covered element ranges `[a, a+len_a)` and `[b, b+len_b)` is judged with
wraparound-aware 32-bit arithmetic. -/

/-- Number of values of a 32-bit machine word. -/
def W32 : Nat := 4294967296

theorem W32_eq : W32 = 4294967296 := rfl

/-- Reduce an integer constant (an `HIntConstant` value) to its unsigned
32-bit residue. -/
def u32 (x : Int) : Nat := (x % (4294967296 : Int)).toNat

theorem u32_lt (x : Int) : u32 x < W32 := by
  have h : (0:Int) < 4294967296 := by norm_num
  have := Int.emod_nonneg x (by norm_num : (4294967296:Int) ≠ 0)
  have hlt := Int.emod_lt_of_pos x h
  unfold u32 W32
  omega

/-- An array-index expression as collected by the heap location collector:
a constant, a bare variable `i`, `i + c`, `i - c`, or an arbitrary
non-affine expression (identified by an opaque tag). -/
inductive IdxExpr where
  | const (c : Int)
  | var (v : Nat)
  | addC (v : Nat) (c : Int)
  | subC (v : Nat) (c : Int)
  | unk (u : Nat)
deriving DecidableEq, Repr

/-- Evaluate an index expression to a concrete 32-bit element index, given a
valuation `σ` of the variables and `τ` of the opaque expressions.
Subtraction of `c` is addition of the 32-bit negation of `c`. -/
def evalIdx (σ τ : Nat → Nat) : IdxExpr → Nat
  | .const c => u32 c
  | .var v => σ v % W32
  | .addC v c => (σ v + u32 c) % W32
  | .subC v c => (σ v + u32 (-c)) % W32
  | .unk u => τ u % W32

/-- Normalise an analyzable index expression to (optional base variable,
32-bit constant offset); `none` for non-affine expressions. -/
def normIdx : IdxExpr → Option (Option Nat × Nat)
  | .const c => some (none, u32 c)
  | .var v => some (some v, 0)
  | .addC v c => some (some v, u32 c)
  | .subC v c => some (some v, u32 (-c))
  | .unk _ => none

/-- Do the element ranges `[o1, o1+l1)` and `[o2, o2+l2)` overlap on the
circle of 32-bit indices?  Both offsets are expected to be `< W32`. -/
def circleOverlap (o1 l1 o2 l2 : Nat) : Bool :=
  decide ((o2 + W32 - o1) % W32 < l1) || decide ((o1 + W32 - o2) % W32 < l2)

/-- May two array accesses on the same base, with index expressions
`i1`/`i2` and vector lengths `l1`/`l2`, denote overlapping element ranges?
Conservative: `true` whenever the pair is not analyzable. -/
def idxMayAlias (i1 : IdxExpr) (l1 : Nat) (i2 : IdxExpr) (l2 : Nat) : Bool :=
  match normIdx i1, normIdx i2 with
  | some (b1, o1), some (b2, o2) =>
      if b1 = b2 then circleOverlap o1 l1 o2 l2 else true
  | _, _ => true

theorem normIdx_offset_lt {i : IdxExpr} {b : Option Nat} {o : Nat}
    (h : normIdx i = some (b, o)) : o < W32 := by
  cases i <;> simp [normIdx] at h
  · exact h.2 ▸ u32_lt _
  · have := h.2
    subst this
    simp [W32]
  · exact h.2 ▸ u32_lt _
  · exact h.2 ▸ u32_lt _

/-- Value of the (optional) base variable of a normalised index. -/
def baseVal (σ : Nat → Nat) : Option Nat → Nat
  | none => 0
  | some v => σ v

/-- The evaluation of an analyzable index is its base-variable value plus its
constant offset, mod `2^32`. -/
theorem evalIdx_norm (σ τ : Nat → Nat) {i : IdxExpr} {b : Option Nat} {o : Nat}
    (h : normIdx i = some (b, o)) :
    evalIdx σ τ i = (baseVal σ b + o) % W32 := by
  have hW : 0 < W32 := by simp [W32]
  cases i <;> simp [normIdx] at h
  · obtain ⟨hb, ho⟩ := h
    subst hb; subst ho
    simp [evalIdx, baseVal]
    exact (Nat.mod_eq_of_lt (u32_lt _)).symm
  · obtain ⟨hb, ho⟩ := h
    rw [← hb, ← ho]
    simp [evalIdx, baseVal]
  · obtain ⟨hb, ho⟩ := h
    rw [← hb, ← ho]
    simp [evalIdx, baseVal]
  · obtain ⟨hb, ho⟩ := h
    rw [← hb, ← ho]
    simp [evalIdx, baseVal]

/-- Core arithmetic fact: if the circle-overlap test fails then no element
covered by the first access coincides with an element covered by the second,
for any common base value `b`. -/
theorem circleOverlap_disjoint {o1 l1 o2 l2 : Nat} (b k1 k2 : Nat)
    (ho1 : o1 < W32) (ho2 : o2 < W32) (hl1 : l1 ≤ W32) (hl2 : l2 ≤ W32)
    (hk1 : k1 < l1) (hk2 : k2 < l2)
    (hc : circleOverlap o1 l1 o2 l2 = false) :
    ((b + o1) % W32 + k1) % W32 ≠ ((b + o2) % W32 + k2) % W32 := by
  simp only [circleOverlap, Bool.or_eq_false_iff, decide_eq_false_iff_not, Nat.not_lt] at hc
  obtain ⟨hc1, hc2⟩ := hc
  simp only [W32] at *
  omega

/-- Base references: method parameters (externally supplied) or the results
of `new`-like allocation instructions, identified by the allocating
instruction's id. -/
inductive Ref where
  | par (n : Nat)
  | alloc (i : Nat)
deriving DecidableEq, Repr

def Ref.isParam : Ref → Bool
  | .par _ => true
  | .alloc _ => false

/-- A heap location: `(base reference, index expression, vector length)`.
Scalar locations have length 1; object fields are modelled as constant
offsets.  (spec.md §3 "HeapLocation") -/
structure Loc where
  ref : Ref
  idx : IdxExpr
  len : Nat
deriving DecidableEq, Repr

/-- May two base references denote the same object?  A reference created by
an allocation instruction inside the method is distinct from every other
reference tracked in the method; two distinct parameters may always denote
the same object. -/
def refsMayAlias (r1 r2 : Ref) : Bool :=
  r1 = r2 || (r1.isParam && r2.isParam)

/-- The collector's `MayAlias` relation on heap locations. -/
def locMayAlias (l1 l2 : Loc) : Bool :=
  refsMayAlias l1.ref l2.ref && idxMayAlias l1.idx l1.len l2.idx l2.len

/-- If `idxMayAlias` answers `false`, the two accesses can never address a
common element, whatever the values of the index variables. -/
theorem idxMayAlias_sound {i1 i2 : IdxExpr} {l1 l2 : Nat}
    (hl1 : l1 ≤ W32) (hl2 : l2 ≤ W32)
    (h : idxMayAlias i1 l1 i2 l2 = false)
    (σ τ : Nat → Nat) {k1 k2 : Nat} (hk1 : k1 < l1) (hk2 : k2 < l2) :
    (evalIdx σ τ i1 + k1) % W32 ≠ (evalIdx σ τ i2 + k2) % W32 := by
  unfold idxMayAlias at h
  cases hn1 : normIdx i1 with
  | none => rw [hn1] at h; cases hn2 : normIdx i2 <;> rw [hn2] at h <;> simp at h
  | some p1 =>
    cases hn2 : normIdx i2 with
    | none => rw [hn1, hn2] at h; simp at h
    | some p2 =>
      rw [hn1, hn2] at h
      cases p1 with
      | mk b1 o1 =>
        cases p2 with
        | mk b2 o2 =>
          by_cases hb : b1 = b2
          · subst hb
            simp only [if_pos rfl] at h
            rw [evalIdx_norm σ τ hn1, evalIdx_norm σ τ hn2]
            exact circleOverlap_disjoint (baseVal σ b1) k1 k2 (normIdx_offset_lt hn1)
              (normIdx_offset_lt hn2) hl1 hl2 hk1 hk2 h
          · simp [hb] at h

/-- If two same-base accesses can address a common element for some values of
the index variables, `locMayAlias` answers `true` (no false negatives). -/
theorem locMayAlias_complete (r : Ref) {i1 i2 : IdxExpr} {l1 l2 : Nat}
    (hl1 : l1 ≤ W32) (hl2 : l2 ≤ W32)
    (hov : ∃ (σ τ : Nat → Nat) (k1 k2 : Nat), k1 < l1 ∧ k2 < l2 ∧
      (evalIdx σ τ i1 + k1) % W32 = (evalIdx σ τ i2 + k2) % W32) :
    locMayAlias ⟨r, i1, l1⟩ ⟨r, i2, l2⟩ = true := by
  obtain ⟨σ, τ, k1, k2, hk1, hk2, heq⟩ := hov
  unfold locMayAlias
  have hr : refsMayAlias r r = true := by
    unfold refsMayAlias; simp
  rw [hr]
  simp only [Bool.true_and]
  by_contra hfalse
  have hma : idxMayAlias i1 l1 i2 l2 = false := by
    cases h : idxMayAlias i1 l1 i2 l2
    · rfl
    · exact absurd h hfalse
  exact idxMayAlias_sound hl1 hl2 hma σ τ hk1 hk2 heq

/-- C3: `MayAlias` on two same-base array/vector accesses is exactly the
wraparound-aware range-overlap judgement (spec.md §4.1, Index aliasing
algorithm; `load_store_analysis_test.cc` ArrayIndexCalculationOverflowTest,
ArrayAliasingTest, ArrayIndexAliasingTest):
(1) whenever the covered element ranges can overlap for some execution,
`MayAlias` is `true`; (2) if `MayAlias` is `false` the ranges are disjoint in
every execution; and the concrete index pairs of the tests are judged as
specified: `i+0x80000000` vs `i-0x80000000`, `i+0x10` vs `i-0xFFFFFFF0`,
`i+0x7FFFFFFF` vs `i-0x80000001` may alias, constants `0` and `8` at vector
length 4 do not, and a length-2 access at `i+6` does not alias a length-4
access at `i`. -/
theorem mayAlias_wraparound_spec :
    (∀ (r : Ref) (i1 i2 : IdxExpr) (l1 l2 : Nat), l1 ≤ W32 → l2 ≤ W32 →
      (∃ (σ τ : Nat → Nat) (k1 k2 : Nat), k1 < l1 ∧ k2 < l2 ∧
        (evalIdx σ τ i1 + k1) % W32 = (evalIdx σ τ i2 + k2) % W32) →
      locMayAlias ⟨r, i1, l1⟩ ⟨r, i2, l2⟩ = true) ∧
    (∀ (r : Ref) (i1 i2 : IdxExpr) (l1 l2 : Nat), l1 ≤ W32 → l2 ≤ W32 →
      locMayAlias ⟨r, i1, l1⟩ ⟨r, i2, l2⟩ = false →
      ∀ (σ τ : Nat → Nat) (k1 k2 : Nat), k1 < l1 → k2 < l2 →
        (evalIdx σ τ i1 + k1) % W32 ≠ (evalIdx σ τ i2 + k2) % W32) ∧
    (locMayAlias ⟨Ref.par 0, .addC 0 0x80000000, 1⟩ ⟨Ref.par 0, .subC 0 0x80000000, 1⟩ = true) ∧
    (locMayAlias ⟨Ref.par 0, .addC 0 0x10, 1⟩ ⟨Ref.par 0, .subC 0 0xFFFFFFF0, 1⟩ = true) ∧
    (locMayAlias ⟨Ref.par 0, .addC 0 0x7FFFFFFF, 1⟩ ⟨Ref.par 0, .subC 0 0x80000001, 1⟩ = true) ∧
    (locMayAlias ⟨Ref.par 0, .const 0, 4⟩ ⟨Ref.par 0, .const 8, 4⟩ = false) ∧
    (locMayAlias ⟨Ref.par 0, .addC 0 6, 2⟩ ⟨Ref.par 0, .var 0, 4⟩ = false) := by
  refine ⟨?_, ?_, by decide, by decide, by decide, by decide, by decide⟩
  · intro r i1 i2 l1 l2 hl1 hl2 hov
    exact locMayAlias_complete r hl1 hl2 hov
  · intro r i1 i2 l1 l2 hl1 hl2 hma σ τ k1 k2 hk1 hk2
    unfold locMayAlias at hma
    rcases Bool.and_eq_false_iff.mp hma with hr | hi
    · exfalso
      unfold refsMayAlias at hr
      simp at hr
    · exact idxMayAlias_sound hl1 hl2 hi σ τ hk1 hk2

/-- Witness for `mayAlias_wraparound_spec`: instantiate both quantified
conjuncts at concrete inputs.  Accesses at constant indices 3 and 3 overlap,
so part (1) forces `MayAlias = true`; `MayAlias` at constants 0 and 8 is
`false`, so part (2) separates the evaluated addresses `0` and `8`. -/
theorem mayAlias_wraparound_spec_witness :
    (locMayAlias ⟨Ref.par 0, .const 3, 1⟩ ⟨Ref.par 0, .const 3, 1⟩ = true) ∧
    ((evalIdx (fun _ => 0) (fun _ => 0) (.const 0) + 0) % W32 ≠
      (evalIdx (fun _ => 0) (fun _ => 0) (.const 8) + 0) % W32) :=
  ⟨mayAlias_wraparound_spec.1 (Ref.par 0) (.const 3) (.const 3) 1 1
      (by decide) (by decide)
      ⟨fun _ => 0, fun _ => 0, 0, 0, by decide, by decide, rfl⟩,
    mayAlias_wraparound_spec.2.1 (Ref.par 0) (.const 0) (.const 8) 4 4
      (by decide) (by decide) (by decide)
      (fun _ => 0) (fun _ => 0) 0 0 (by decide) (by decide)⟩

/-! ## The SSA block language

Modelled from the spec (§3, §4.3, §6): the instruction kinds the LSE engine
distinguishes — allocation, constructor fence, scalar/vector array-or-field
get and set, opaque call, and return — represented as a tagged variant with
exactly the capability interface the algorithm needs (§9, Design notes).
Instructions are listed with explicit SSA ids. -/

/-- A value operand: an integer constant, a method parameter's value, or the
result of an earlier instruction (SSA register). -/
inductive Val where
  | cst (c : Int)
  | par (n : Nat)
  | reg (i : Nat)
deriving DecidableEq, Repr

inductive Instr where
  | newArr
  | fence (a : Nat)
  | load (r : Ref) (idx : IdxExpr)
  | vload (r : Ref) (idx : IdxExpr) (len : Nat)
  | store (r : Ref) (idx : IdxExpr) (v : Val)
  | vstore (r : Ref) (idx : IdxExpr) (len : Nat) (v : Val)
  | call (args : List Ref)
  | retV (v : Val)
  | retRef (r : Ref)
deriving DecidableEq, Repr

/-- A straight-line program: instructions tagged with their SSA ids. -/
abbrev Program := List (Nat × Instr)

/-- Number of result elements an instruction defines (1 for scalar loads and
calls, the vector length for vector loads, none for the rest). -/
def defLen : Instr → Option Nat
  | .load _ _ => some 1
  | .vload _ _ len => some len
  | .call _ => some 1
  | _ => none

def isAccess : Instr → Bool
  | .load _ _ => true
  | .vload _ _ _ => true
  | .store _ _ _ => true
  | .vstore _ _ _ _ => true
  | _ => false

def loadsRef (r : Ref) : Instr → Bool
  | .load r' _ => r' = r
  | .vload r' _ _ => r' = r
  | _ => false

/-- All references passed to opaque calls anywhere in the method
(spec §4.2: passing a reference to an opaque call marks it escaped). -/
def escapedRefs (p : Program) : List Ref :=
  p.foldr (fun pr acc => match pr.2 with | .call args => args ++ acc | _ => acc) []

/-- All references returned to the caller (spec §4.2: a singleton that is
returned is `singleton_and_non_removable`). -/
def returnedRefs (p : Program) : List Ref :=
  p.foldr (fun pr acc => match pr.2 with | .retRef r => r :: acc | _ => acc) []

/-- Is a reference visible to an opaque call (hence invalidated/clobbered by
it)?  Parameters always are; an allocation only if it escapes. -/
def clobberedRef (E : List Ref) (r : Ref) : Bool :=
  r.isParam || decide (r ∈ E)

/-! ## The LSE value-tracking engine (spec §4.3)

One heap-value table keyed by heap location, holding `Unknown`, the type
default (valid for locations of a fresh allocation), or a known value. -/

inductive TVal where
  | unknown
  | dflt
  | known (v : Val)
deriving DecidableEq, Repr

/-- Engine state: the heap-value table, the substitution mapping eliminated
load ids to their replacement values, and the list of removed instruction
ids. -/
structure EState where
  t : Loc → TVal
  σ : Nat → Option Val
  removed : List Nat

def initES : EState := ⟨fun _ => .unknown, fun _ => none, []⟩

/-- Apply the engine's substitution to an operand. -/
def applySub (σ : Nat → Option Val) : Val → Val
  | .reg i => match σ i with
              | some w => w
              | none => .reg i
  | v => v

/-- Heap-value table update for a store: set the stored location to the
stored value and invalidate every other may-aliasing location (spec §4.3,
Store rule). -/
def invalSet (t : Loc → TVal) (loc : Loc) (v : Val) : Loc → TVal :=
  fun l => if l = loc then .known v
           else if locMayAlias l loc then .unknown else t l

/-- Heap-value table update for an opaque call: invalidate every location
whose base is visible outside the method (spec §4.3, Escape instruction
rule). -/
def invalCall (E : List Ref) (t : Loc → TVal) : Loc → TVal :=
  fun l => if clobberedRef E l.ref then .unknown else t l

/-- Heap-value table update for a fresh allocation: every location of the
new reference holds the type default (spec §4.3/4.4). -/
def allocDflt (i : Nat) (t : Loc → TVal) : Loc → TVal :=
  fun l => if l.ref = Ref.alloc i then .dflt else t l

/-- One engine step (spec §4.3, per-instruction rules).  `E` is the set of
escaped references, computed for the whole method by the load-store
analysis before the engine runs.
- a load of a location with a known value is removed, its uses replaced;
- a scalar load of a location holding the default is removed and replaced
  by the zero constant; a vector load never is (spec §4.4) — it is kept;
- a retained load records itself as the location's known value;
- a store of the location's current value (or of zero into a location still
  holding the default) is removed as a no-op write; otherwise the store
  invalidates all may-aliasing locations and records the stored value;
- an opaque call invalidates every externally-visible location. -/
def estep (E : List Ref) (s : EState) : Nat × Instr → EState
  | (id, .newArr) => { s with t := allocDflt id s.t }
  | (_, .fence _) => s
  | (id, .load r idx) =>
      let loc : Loc := ⟨r, idx, 1⟩
      match s.t loc with
      | .known v =>
          { s with removed := s.removed ++ [id],
                   σ := fun j => if j = id then some v else s.σ j }
      | .dflt =>
          { s with removed := s.removed ++ [id],
                   σ := fun j => if j = id then some (.cst 0) else s.σ j }
      | .unknown =>
          { s with t := fun l => if l = loc then .known (.reg id) else s.t l }
  | (id, .vload r idx len) =>
      let loc : Loc := ⟨r, idx, len⟩
      match s.t loc with
      | .known v =>
          { s with removed := s.removed ++ [id],
                   σ := fun j => if j = id then some v else s.σ j }
      | _ =>
          { s with t := fun l => if l = loc then .known (.reg id) else s.t l }
  | (id, .store r idx v) =>
      let v' := applySub s.σ v
      let loc : Loc := ⟨r, idx, 1⟩
      if s.t loc = .known v' ∨ (s.t loc = .dflt ∧ v' = .cst 0)
      then { s with removed := s.removed ++ [id] }
      else { s with t := invalSet s.t loc v' }
  | (id, .vstore r idx len v) =>
      let v' := applySub s.σ v
      let loc : Loc := ⟨r, idx, len⟩
      if s.t loc = .known v' ∨ (s.t loc = .dflt ∧ v' = .cst 0)
      then { s with removed := s.removed ++ [id] }
      else { s with t := invalSet s.t loc v' }
  | (_, .call _) => { s with t := invalCall E s.t }
  | (_, .retV _) => s
  | (_, .retRef _) => s

/-- Run the value-tracking engine over a whole block. -/
def elimState (p : Program) : EState :=
  p.foldl (estep (escapedRefs p)) initES

/-- Is the allocation made at instruction `i` removable?  It must exist,
never escape, never be returned, and every load from it must have been
eliminated (spec §4.3, Singleton allocation removal). -/
def removableAlloc (p : Program) (i : Nat) : Bool :=
  decide ((i, Instr.newArr) ∈ p) &&
  !(decide (Ref.alloc i ∈ escapedRefs p)) &&
  !(decide (Ref.alloc i ∈ returnedRefs p)) &&
  p.all (fun pr => !(loadsRef (Ref.alloc i) pr.2) || decide (pr.1 ∈ (elimState p).removed))

/-- The final removal mask: an instruction is removed either by the
value-tracking engine or by the singleton-allocation sweep (which deletes a
removable allocation, its constructor fences, and all remaining accesses to
it). -/
def maskOf (p : Program) (id : Nat) (ins : Instr) : Bool :=
  decide (id ∈ (elimState p).removed) ||
  (match ins with
   | .newArr => removableAlloc p id
   | .fence a => removableAlloc p a
   | .load r _ | .vload r _ _ | .store r _ _ | .vstore r _ _ _ =>
       match r with
       | .alloc i => removableAlloc p i
       | .par _ => false
   | _ => false)

/-- Apply a value substitution to an instruction's operands. -/
def mapVals (f : Val → Val) : Instr → Instr
  | .store r idx v => .store r idx (f v)
  | .vstore r idx len v => .vstore r idx len (f v)
  | .retV v => .retV (f v)
  | ins => ins

/-- The whole LSE pass: remove the masked instructions and redirect the uses
of eliminated loads to their replacement values. -/
def lsePass (p : Program) : Program :=
  p.filterMap (fun pr =>
    if maskOf p pr.1 pr.2 then none
    else some (pr.1, mapVals (applySub (elimState p).σ) pr.2))

/-! ## Engine fold lemmas -/

theorem estep_removed (E : List Ref) (s : EState) (id : Nat) (ins : Instr) :
    (estep E s (id, ins)).removed = s.removed ∨
    ((estep E s (id, ins)).removed = s.removed ++ [id] ∧ isAccess ins = true) := by
  cases ins with
  | newArr => left; rfl
  | fence a => left; rfl
  | load r idx =>
      cases h : s.t ⟨r, idx, 1⟩ <;> simp [estep, h, isAccess]
  | vload r idx len =>
      cases h : s.t ⟨r, idx, len⟩ <;> simp [estep, h, isAccess]
  | store r idx v =>
      by_cases h : s.t ⟨r, idx, 1⟩ = .known (applySub s.σ v) ∨
        (s.t ⟨r, idx, 1⟩ = .dflt ∧ applySub s.σ v = .cst 0)
      · right; simp [estep, h, isAccess]
      · left; simp [estep, h]
  | vstore r idx len v =>
      by_cases h : s.t ⟨r, idx, len⟩ = .known (applySub s.σ v) ∨
        (s.t ⟨r, idx, len⟩ = .dflt ∧ applySub s.σ v = .cst 0)
      · right; simp [estep, h, isAccess]
      · left; simp [estep, h]
  | call args => left; rfl
  | retV v => left; rfl
  | retRef r => left; rfl

theorem estep_sigma (E : List Ref) (s : EState) (id : Nat) (ins : Instr)
    (j : Nat) (hj : j ≠ id) : (estep E s (id, ins)).σ j = s.σ j := by
  cases ins with
  | newArr => rfl
  | fence a => rfl
  | load r idx =>
      cases h : s.t ⟨r, idx, 1⟩ <;> simp [estep, h, hj]
  | vload r idx len =>
      cases h : s.t ⟨r, idx, len⟩ <;> simp [estep, h, hj]
  | store r idx v =>
      by_cases h : s.t ⟨r, idx, 1⟩ = .known (applySub s.σ v) ∨
        (s.t ⟨r, idx, 1⟩ = .dflt ∧ applySub s.σ v = .cst 0)
      · simp [estep, h]
      · simp [estep, h]
  | vstore r idx len v =>
      by_cases h : s.t ⟨r, idx, len⟩ = .known (applySub s.σ v) ∨
        (s.t ⟨r, idx, len⟩ = .dflt ∧ applySub s.σ v = .cst 0)
      · simp [estep, h]
      · simp [estep, h]
  | call args => rfl
  | retV v => rfl
  | retRef r => rfl

/-- Along the engine fold, removed ids only accumulate, and every id added
comes from an access instruction of the processed list. -/
theorem foldl_estep_removed (E : List Ref) (l : List (Nat × Instr)) (s : EState) :
    ∃ tail, (l.foldl (estep E) s).removed = s.removed ++ tail ∧
      ∀ j ∈ tail, ∃ ins, (j, ins) ∈ l ∧ isAccess ins = true := by
  induction l generalizing s with
  | nil => exact ⟨[], by simp, by simp⟩
  | cons pr tl ih =>
      obtain ⟨tail, htail, hmem⟩ := ih (estep E s pr)
      rcases estep_removed E s pr.1 pr.2 with h | ⟨h, hacc⟩
      · refine ⟨tail, ?_, ?_⟩
        · simpa [h] using htail
        · intro j hj
          obtain ⟨ins, hins, haccins⟩ := hmem j hj
          exact ⟨ins, List.mem_cons_of_mem _ hins, haccins⟩
      · refine ⟨pr.1 :: tail, ?_, ?_⟩
        · simpa [h] using htail
        · intro j hj
          rcases List.mem_cons.mp hj with hj | hj
          · subst hj
            exact ⟨pr.2, List.mem_cons_self _ _, hacc⟩
          · obtain ⟨ins, hins, haccins⟩ := hmem j hj
            exact ⟨ins, List.mem_cons_of_mem _ hins, haccins⟩

/-- The substitution entry of an id not named by the remaining instructions
is unchanged by the rest of the fold. -/
theorem foldl_estep_sigma (E : List Ref) (l : List (Nat × Instr)) (s : EState)
    (j : Nat) (hj : ∀ pr ∈ l, pr.1 ≠ j) :
    (l.foldl (estep E) s).σ j = s.σ j := by
  induction l generalizing s with
  | nil => rfl
  | cons pr tl ih =>
      have h1 : (estep E s pr).σ j = s.σ j := by
        have := hj pr (List.mem_cons_self _ _)
        exact estep_sigma E s pr.1 pr.2 j (Ne.symm this)
      rw [List.foldl_cons, ih (estep E s pr) (fun q hq => hj q (List.mem_cons_of_mem _ hq)), h1]

/-! ## Concrete scenarios from the test suite -/

/-- The parameter array `a` used by the block scenarios. -/
def arrA : Ref := Ref.par 0

/-- The single-block scenario of spec §8 and
`load_store_elimination_test.cc` ArrayGetSetElimination:
`store a[1]=1; x=a[1]; y=a[2]; store a[1]=1; store a[i]=3; store a[1]=1`. -/
def blockC4 : Program :=
  [ (0, .store arrA (.const 1) (.cst 1)),
    (1, .load arrA (.const 1)),
    (2, .load arrA (.const 2)),
    (3, .store arrA (.const 1) (.cst 1)),
    (4, .store arrA (.var 0) (.cst 3)),
    (5, .store arrA (.const 1) (.cst 1)) ]

/-- C4: on the single-block sequence
`store a[1]=1; load a[1]; load a[2]; store a[1]=1; store a[i]=3; store a[1]=1`
the pass eliminates exactly the first load (replacing it by the known value
1) and the first repeated store, and retains the second load and the final
store (the may-aliasing `a[i]` store invalidated location `a[1]`)
(`load_store_elimination_test.cc` ArrayGetSetElimination, SameHeapValue1;
spec §8 Scenario). -/
theorem blockC4_eliminations :
    (elimState blockC4).removed = [1, 3] ∧
    (elimState blockC4).σ 1 = some (.cst 1) ∧
    lsePass blockC4 =
      [ (0, .store arrA (.const 1) (.cst 1)),
        (2, .load arrA (.const 2)),
        (4, .store arrA (.var 0) (.cst 3)),
        (5, .store arrA (.const 1) (.cst 1)) ] := by
  refine ⟨by decide, by decide, by decide⟩

/-- The scenario of `load_store_elimination_test.cc` VLoadAndLoadDefaultValue:
a fresh array `A`, a vector load and a scalar load of its unwritten slot 0,
whose results are stored into the parameter array. -/
def blockC2 : Program :=
  [ (0, .newArr),
    (1, .vload (Ref.alloc 0) (.const 0) 4),
    (2, .load (Ref.alloc 0) (.const 0)),
    (3, .vstore arrA (.const 0) 4 (.reg 1)),
    (4, .store arrA (.const 0) (.reg 2)) ]

/-- C2: default-value asymmetry (spec §4.4).  In general: a scalar load of a
location still holding the fresh-allocation default is eliminated and its
uses are replaced by the type's zero value, while a vector load of a
location holding the default is never removed; and in the concrete graph of
VLoadAndLoadDefaultValue holding both a scalar and a vector load of the same
unwritten slot, the scalar load is removed (replaced by zero) and the vector
load is kept. -/
theorem defaultValue_asymmetry :
    (∀ (p done rest : Program) (id : Nat) (r : Ref) (idx : IdxExpr),
      p = done ++ (id, .load r idx) :: rest →
      (∀ pr ∈ rest, pr.1 ≠ id) →
      (done.foldl (estep (escapedRefs p)) initES).t ⟨r, idx, 1⟩ = .dflt →
      id ∈ (elimState p).removed ∧ (elimState p).σ id = some (.cst 0)) ∧
    (∀ (p done rest : Program) (id : Nat) (r : Ref) (idx : IdxExpr) (len : Nat),
      p = done ++ (id, .vload r idx len) :: rest →
      (∀ pr ∈ done, pr.1 ≠ id) → (∀ pr ∈ rest, pr.1 ≠ id) →
      (done.foldl (estep (escapedRefs p)) initES).t ⟨r, idx, len⟩ = .dflt →
      id ∉ (elimState p).removed) ∧
    ((elimState blockC2).removed = [2] ∧
     (elimState blockC2).σ 2 = some (.cst 0) ∧
     lsePass blockC2 =
       [ (0, .newArr),
         (1, .vload (Ref.alloc 0) (.const 0) 4),
         (3, .vstore arrA (.const 0) 4 (.reg 1)),
         (4, .store arrA (.const 0) (.cst 0)) ]) := by
  refine ⟨?_, ?_, by decide, by decide, by decide⟩
  · intro p done rest id r idx hp hrest ht
    subst hp
    set E := escapedRefs (done ++ (id, Instr.load r idx) :: rest) with hE
    set s0 := done.foldl (estep E) initES with hs0
    have hsplit : elimState (done ++ (id, Instr.load r idx) :: rest) =
        rest.foldl (estep E) (estep E s0 (id, .load r idx)) := by
      rw [elimState, List.foldl_append, List.foldl_cons]
    have hstep : estep E s0 (id, .load r idx) =
        { s0 with removed := s0.removed ++ [id],
                  σ := fun j => if j = id then some (.cst 0) else s0.σ j } := by
      simp [estep, ht]
    constructor
    · obtain ⟨tail, htail, -⟩ := foldl_estep_removed E rest
        (estep E s0 (id, .load r idx))
      rw [hsplit, htail, hstep]
      simp
    · rw [hsplit, foldl_estep_sigma E rest _ id hrest, hstep]
      simp
  · intro p done rest id r idx len hp hdone hrest ht
    subst hp
    set E := escapedRefs (done ++ (id, Instr.vload r idx len) :: rest) with hE
    set s0 := done.foldl (estep E) initES with hs0
    have hsplit : elimState (done ++ (id, Instr.vload r idx len) :: rest) =
        rest.foldl (estep E) (estep E s0 (id, .vload r idx len)) := by
      rw [elimState, List.foldl_append, List.foldl_cons]
    have hstep : (estep E s0 (id, .vload r idx len)).removed = s0.removed := by
      simp [estep, ht]
    have hbefore : ∀ j ∈ s0.removed, j ≠ id := by
      obtain ⟨tail, htail, hmem⟩ := foldl_estep_removed E done initES
      intro j hj
      rw [hs0, htail] at hj
      simp [initES] at hj
      obtain ⟨ins, hins, -⟩ := hmem j hj
      exact hdone (j, ins) hins
    obtain ⟨tail, htail, hmem⟩ := foldl_estep_removed E rest (estep E s0 (id, .vload r idx len))
    intro habs
    rw [hsplit, htail, hstep] at habs
    rcases List.mem_append.mp habs with h | h
    · exact hbefore id h rfl
    · obtain ⟨ins, hins, -⟩ := hmem id h
      exact hrest (id, ins) hins rfl

/-- Witness for `defaultValue_asymmetry`: instantiate the two general parts
on the concrete VLoadAndLoadDefaultValue graph — the scalar load (id 2) is
removed with replacement 0, the vector load (id 1) is retained. -/
theorem defaultValue_asymmetry_witness :
    (2 ∈ (elimState blockC2).removed ∧ (elimState blockC2).σ 2 = some (.cst 0)) ∧
    1 ∉ (elimState blockC2).removed :=
  ⟨defaultValue_asymmetry.1 blockC2 (blockC2.take 2) (blockC2.drop 3) 2
      (Ref.alloc 0) (.const 0) (by decide) (by decide) (by decide),
    defaultValue_asymmetry.2.1 blockC2 (blockC2.take 1) (blockC2.drop 2) 1
      (Ref.alloc 0) (.const 0) 4 (by decide) (by decide) (by decide) (by decide)⟩

/-! ## Singleton allocation removal (spec §4.3) -/

def accessesRef (r : Ref) : Instr → Bool
  | .load r' _ => r' = r
  | .vload r' _ _ => r' = r
  | .store r' _ _ => r' = r
  | .vstore r' _ _ _ => r' = r
  | _ => false

/-- Is an index a constant already in canonical unsigned 32-bit form? -/
def canonIdx : IdxExpr → Bool
  | .const c => decide (0 ≤ c) && decide (c < 4294967296)
  | _ => false

/-- Every access this instruction makes to `alloc i` is a plain scalar
access at a canonical constant offset (the shape of object field slots). -/
def fieldAccessOK (i : Nat) : Instr → Bool
  | .load r idx => !(decide (r = Ref.alloc i)) || canonIdx idx
  | .vload r _ _ => !(decide (r = Ref.alloc i))
  | .store r idx _ => !(decide (r = Ref.alloc i)) || canonIdx idx
  | .vstore r _ _ _ => !(decide (r = Ref.alloc i))
  | _ => true

theorem u32_canon {c : Int} (h0 : 0 ≤ c) (h1 : c < 4294967296) :
    u32 c = c.toNat := by
  unfold u32
  rw [Int.emod_eq_of_lt h0 h1]

theorem const_noAlias {i : Nat} {c c' : Int}
    (h0 : 0 ≤ c) (h1 : c < 4294967296) (h0' : 0 ≤ c') (h1' : c' < 4294967296)
    (hne : c ≠ c') :
    locMayAlias ⟨Ref.alloc i, .const c, 1⟩ ⟨Ref.alloc i, .const c', 1⟩ = false := by
  have hcc : c.toNat ≠ c'.toNat := by omega
  have hb1 : c.toNat < 4294967296 := by omega
  have hb2 : c'.toNat < 4294967296 := by omega
  have e1 : ¬((c'.toNat + W32 - c.toNat) % W32 < 1) := by
    simp only [W32]; omega
  have e2 : ¬((c.toNat + W32 - c'.toNat) % W32 < 1) := by
    simp only [W32]; omega
  simp [locMayAlias, refsMayAlias, idxMayAlias, normIdx, circleOverlap,
    Ref.isParam, u32_canon h0 h1, u32_canon h0' h1', e1, e2]

/-- Table invariant for a non-escaping allocation whose accesses are all
scalar canonical-constant slots: no slot of it is ever `Unknown`. -/
def slotsTracked (i : Nat) (s : EState) : Prop :=
  ∀ c : Int, 0 ≤ c → c < 4294967296 →
    s.t ⟨Ref.alloc i, .const c, 1⟩ ≠ .unknown

theorem slotsTracked_step {i : Nat} {E : List Ref} {s : EState}
    (hs : slotsTracked i s) (id : Nat) (ins : Instr)
    (hok : fieldAccessOK i ins = true) (hesc : Ref.alloc i ∉ E) :
    slotsTracked i (estep E s (id, ins)) ∧
    (loadsRef (Ref.alloc i) ins = true → id ∈ (estep E s (id, ins)).removed) := by
  cases ins with
  | newArr =>
      refine ⟨?_, by simp [loadsRef]⟩
      intro c h0 h1
      simp only [estep, allocDflt]
      by_cases hri : Ref.alloc id = Ref.alloc i
      · simp [Loc.ref, hri]
      · have : (⟨Ref.alloc i, .const c, 1⟩ : Loc).ref ≠ Ref.alloc id := by
          simp [Loc.ref]
          intro hcon
          exact hri (by rw [hcon])
        simp only [Loc.ref] at this ⊢
        rw [if_neg this]
        exact hs c h0 h1
  | fence a => exact ⟨hs, by simp [loadsRef]⟩
  | load r idx =>
      constructor
      · intro c h0 h1
        cases ht : s.t ⟨r, idx, 1⟩ with
        | known v => simp [estep, ht]; exact hs c h0 h1
        | dflt => simp [estep, ht]; exact hs c h0 h1
        | unknown =>
            simp only [estep, ht]
            by_cases hl : (⟨Ref.alloc i, .const c, 1⟩ : Loc) = ⟨r, idx, 1⟩
            · simp [hl]
            · simp only [ne_eq]
              rw [if_neg hl]
              exact hs c h0 h1
      · intro hld
        simp only [loadsRef, decide_eq_true_eq] at hld
        subst hld
        simp only [fieldAccessOK, Bool.or_eq_true, Bool.not_eq_true',
          decide_eq_false_iff_not] at hok
        rcases hok with hok | hok
        · exact (hok trivial).elim
        · cases idx with
          | const c =>
              simp only [canonIdx, Bool.and_eq_true, decide_eq_true_eq] at hok
              have := hs c hok.1 hok.2
              cases ht : s.t ⟨Ref.alloc i, .const c, 1⟩ with
              | known v => simp [estep, ht]
              | dflt => simp [estep, ht]
              | unknown => exact absurd ht this
          | var v => simp [canonIdx] at hok
          | addC v c => simp [canonIdx] at hok
          | subC v c => simp [canonIdx] at hok
          | unk u => simp [canonIdx] at hok
  | vload r idx len =>
      constructor
      · intro c h0 h1
        cases ht : s.t ⟨r, idx, len⟩ with
        | known v => simp [estep, ht]; exact hs c h0 h1
        | dflt =>
            simp only [estep, ht]
            by_cases hl : (⟨Ref.alloc i, .const c, 1⟩ : Loc) = ⟨r, idx, len⟩
            · simp [hl]
            · simp only [ne_eq]; rw [if_neg hl]; exact hs c h0 h1
        | unknown =>
            simp only [estep, ht]
            by_cases hl : (⟨Ref.alloc i, .const c, 1⟩ : Loc) = ⟨r, idx, len⟩
            · simp [hl]
            · simp only [ne_eq]; rw [if_neg hl]; exact hs c h0 h1
      · intro hld
        simp only [loadsRef, decide_eq_true_eq] at hld
        subst hld
        simp [fieldAccessOK] at hok
  | store r idx v =>
      refine ⟨?_, by simp [loadsRef]⟩
      intro c h0 h1
      by_cases hrm : s.t ⟨r, idx, 1⟩ = .known (applySub s.σ v) ∨
        (s.t ⟨r, idx, 1⟩ = .dflt ∧ applySub s.σ v = .cst 0)
      · simp only [estep, if_pos hrm]
        exact hs c h0 h1
      · simp only [estep, if_neg hrm, invalSet]
        by_cases hl : (⟨Ref.alloc i, .const c, 1⟩ : Loc) = ⟨r, idx, 1⟩
        · simp [hl]
        · rw [if_neg hl]
          by_cases hma : locMayAlias ⟨Ref.alloc i, .const c, 1⟩ ⟨r, idx, 1⟩ = true
          · -- the store is to `alloc i` at a canonical constant, so a true
            -- may-alias forces the very same location, contradicting `hl`
            exfalso
            by_cases hri : r = Ref.alloc i
            · subst hri
              simp only [fieldAccessOK, Bool.or_eq_true, Bool.not_eq_true',
                decide_eq_false_iff_not] at hok
              rcases hok with hok | hok
              · exact hok trivial
              · cases idx with
                | const c' =>
                    simp only [canonIdx, Bool.and_eq_true, decide_eq_true_eq] at hok
                    by_cases hcc : c = c'
                    · exact hl (by rw [hcc])
                    · rw [const_noAlias h0 h1 hok.1 hok.2 hcc] at hma
                      exact Bool.false_ne_true hma
                | var v' => simp [canonIdx] at hok
                | addC v' c' => simp [canonIdx] at hok
                | subC v' c' => simp [canonIdx] at hok
                | unk u => simp [canonIdx] at hok
            · unfold locMayAlias refsMayAlias at hma
              simp only [Loc.ref, Bool.and_eq_true, Bool.or_eq_true,
                decide_eq_true_eq] at hma
              rcases hma.1 with hma1 | hma1
              · exact hri hma1.symm
              · simp [Ref.isParam] at hma1
          · rw [Bool.not_eq_true] at hma
            simp [hma]
            exact hs c h0 h1
  | vstore r idx len v =>
      refine ⟨?_, by simp [loadsRef]⟩
      intro c h0 h1
      simp only [fieldAccessOK, Bool.not_eq_true', decide_eq_false_iff_not] at hok
      by_cases hrm : s.t ⟨r, idx, len⟩ = .known (applySub s.σ v) ∨
        (s.t ⟨r, idx, len⟩ = .dflt ∧ applySub s.σ v = .cst 0)
      · simp only [estep, if_pos hrm]
        exact hs c h0 h1
      · simp only [estep, if_neg hrm, invalSet]
        have hl : (⟨Ref.alloc i, .const c, 1⟩ : Loc) ≠ ⟨r, idx, len⟩ := by
          intro hcon
          exact hok (congrArg Loc.ref hcon).symm
        rw [if_neg hl]
        have hma : locMayAlias ⟨Ref.alloc i, .const c, 1⟩ ⟨r, idx, len⟩ = false := by
          unfold locMayAlias refsMayAlias
          simp only [Loc.ref]
          have h1' : ¬(Ref.alloc i = r) := fun hcon => hok hcon.symm
          simp [h1', Ref.isParam]
        simp [hma]
        exact hs c h0 h1
  | call args =>
      refine ⟨?_, by simp [loadsRef]⟩
      intro c h0 h1
      simp only [estep, invalCall]
      have : clobberedRef E (Ref.alloc i) = false := by
        unfold clobberedRef
        simp [Ref.isParam, hesc]
      simp [this]
      exact hs c h0 h1
  | retV v => exact ⟨hs, by simp [loadsRef]⟩
  | retRef r => exact ⟨hs, by simp [loadsRef]⟩

theorem slotsTracked_fold {i : Nat} {E : List Ref} (l : List (Nat × Instr)) (s : EState)
    (hs : slotsTracked i s) (hok : ∀ pr ∈ l, fieldAccessOK i pr.2 = true)
    (hesc : Ref.alloc i ∉ E) :
    slotsTracked i (l.foldl (estep E) s) ∧
    ∀ pr ∈ l, loadsRef (Ref.alloc i) pr.2 = true →
      pr.1 ∈ (l.foldl (estep E) s).removed := by
  induction l generalizing s with
  | nil => exact ⟨hs, by simp⟩
  | cons pr tl ih =>
      obtain ⟨hstep, hrem⟩ :=
        slotsTracked_step hs pr.1 pr.2 (hok pr (List.mem_cons_self _ _)) hesc
      obtain ⟨hfold, hloads⟩ :=
        ih (estep E s pr) hstep (fun q hq => hok q (List.mem_cons_of_mem _ hq))
      refine ⟨hfold, ?_⟩
      intro q hq hld
      rcases List.mem_cons.mp hq with hq | hq
      · subst hq
        obtain ⟨tail, htail, -⟩ := foldl_estep_removed E tl (estep E s q)
        rw [List.foldl_cons, htail]
        exact List.mem_append_left _ (hrem hld)
      · exact hloads q hq hld

theorem loadsRef_accessesRef {r : Ref} {ins : Instr}
    (h : loadsRef r ins = true) : accessesRef r ins = true := by
  cases ins <;> simp [loadsRef, accessesRef] at h ⊢ <;> exact h

theorem mapVals_accessesRef (r : Ref) (f : Val → Val) (ins : Instr) :
    accessesRef r (mapVals f ins) = accessesRef r ins := by
  cases ins <;> rfl

theorem mapVals_eq_newArr {f : Val → Val} {ins : Instr}
    (h : mapVals f ins = Instr.newArr) : ins = Instr.newArr := by
  cases ins <;> simp [mapVals] at h <;> rfl

theorem mapVals_eq_fence {f : Val → Val} {ins : Instr} {a : Nat}
    (h : mapVals f ins = Instr.fence a) : ins = Instr.fence a := by
  cases ins <;> simp [mapVals] at h
  simp [h]

/-- C6: singleton allocation removal (spec §4.3/§8;
`load_store_elimination_test.cc` DefaultShadowClass).  If an allocation is
never passed to a call, never returned, is not accessed before it is made,
and all its accesses are plain scalar field slots, then every load from it
is folded (`removableAlloc` holds) and the transformed program contains
neither the allocation, nor any constructor fence for it, nor any access to
it. -/
theorem singleton_allocation_removal (pre post : Program) (i : Nat)
    (hpre : ∀ pr ∈ pre, accessesRef (Ref.alloc i) pr.2 = false)
    (hpost : ∀ pr ∈ post, fieldAccessOK i pr.2 = true)
    (hesc : Ref.alloc i ∉ escapedRefs (pre ++ (i, Instr.newArr) :: post))
    (hret : Ref.alloc i ∉ returnedRefs (pre ++ (i, Instr.newArr) :: post)) :
    removableAlloc (pre ++ (i, Instr.newArr) :: post) i = true ∧
    ∀ pr ∈ lsePass (pre ++ (i, Instr.newArr) :: post),
      accessesRef (Ref.alloc i) pr.2 = false ∧ pr ≠ (i, Instr.newArr) ∧
      ∀ a, pr.2 = Instr.fence a → a ≠ i := by
  set p := pre ++ (i, Instr.newArr) :: post with hp
  set E := escapedRefs p with hE
  have hmid : slotsTracked i (estep E (pre.foldl (estep E) initES) (i, Instr.newArr)) := by
    intro c h0 h1
    simp [estep, allocDflt]
  obtain ⟨-, hloads⟩ := slotsTracked_fold post _ hmid hpost hesc
  have helim : elimState p =
      post.foldl (estep E) (estep E (pre.foldl (estep E) initES) (i, Instr.newArr)) := by
    rw [elimState, hp, List.foldl_append, List.foldl_cons]
  have hrm : removableAlloc p i = true := by
    unfold removableAlloc
    rw [Bool.and_eq_true, Bool.and_eq_true, Bool.and_eq_true]
    refine ⟨⟨⟨?_, ?_⟩, ?_⟩, ?_⟩
    · simp [hp]
    · simp [hesc]
    · simp [hret]
    · rw [List.all_eq_true]
      intro pr hpr
      rw [hp] at hpr
      rcases List.mem_append.mp hpr with hpr | hpr
      · have := hpre pr hpr
        cases hld : loadsRef (Ref.alloc i) pr.2
        · simp [hld]
        · rw [loadsRef_accessesRef hld] at this
          cases this
      · rcases List.mem_cons.mp hpr with hpr | hpr
        · subst hpr
          simp [loadsRef]
        · have := hloads pr hpr
          cases hld : loadsRef (Ref.alloc i) pr.2
          · simp [hld]
          · rw [← helim] at this
            simp [hld, this hld]
  refine ⟨hrm, ?_⟩
  intro pr hpr
  obtain ⟨q, hq, hg⟩ := List.mem_filterMap.mp hpr
  by_cases hmask : maskOf p q.1 q.2 = true
  · rw [if_pos hmask] at hg
    cases hg
  · rw [if_neg hmask] at hg
    rw [Bool.not_eq_true] at hmask
    have hg' := Option.some.inj hg
    have hq2 : pr.2 = mapVals (applySub (elimState p).σ) q.2 := by
      rw [← hg']
    have hq1 : pr.1 = q.1 := by rw [← hg']
    refine ⟨?_, ?_, ?_⟩
    · rw [hq2, mapVals_accessesRef]
      cases hacc : accessesRef (Ref.alloc i) q.2
      · rfl
      · exfalso
        -- an access to the removable allocation is always masked
        have : maskOf p q.1 q.2 = true := by
          unfold maskOf
          cases hins : q.2 <;> rw [hins] at hacc <;>
            simp [accessesRef] at hacc <;>
            simp [hacc, hrm]
        rw [this] at hmask
        cases hmask
    · intro hcon
      have hins : q.2 = Instr.newArr := by
        rw [hcon] at hq2
        exact mapVals_eq_newArr hq2.symm
      have hq1' : q.1 = i := by
        rw [hcon] at hq1
        exact hq1.symm
      have : maskOf p q.1 q.2 = true := by
        unfold maskOf
        rw [hins, hq1']
        simp [hrm]
      rw [this] at hmask
      cases hmask
    · intro a ha hai
      subst hai
      have hins : q.2 = Instr.fence a := by
        rw [ha] at hq2
        exact mapVals_eq_fence hq2.symm
      have : maskOf p q.1 q.2 = true := by
        unfold maskOf
        rw [hins]
        simp [hrm]
      rw [this] at hmask
      cases hmask

/-- The DefaultShadowClass scenario: a fresh object, a constructor fence, a
field write at offset 32, a read of another field, returning the read
value. -/
def blockC6 : Program :=
  [ (0, .newArr),
    (1, .fence 0),
    (2, .store (Ref.alloc 0) (.const 32) (.cst 33)),
    (3, .load (Ref.alloc 0) (.const 0)),
    (4, .retV (.reg 3)) ]

/-- Witness for `singleton_allocation_removal` on the DefaultShadowClass
graph: the allocation is removable, and indeed the whole transformed program
is just the return of the folded default value. -/
theorem singleton_allocation_removal_witness :
    removableAlloc blockC6 0 = true ∧
    lsePass blockC6 = [(4, Instr.retV (Val.cst 0))] :=
  ⟨(singleton_allocation_removal [] (blockC6.drop 1) 0
      (by decide) (by decide) (by decide) (by decide)).1,
    by decide⟩

/-! ## Execution semantics of the block language

An object is either an externally supplied parameter object or the array
created by an allocation instruction.  Opaque calls are given meaning by an
oracle: the callee observes a snapshot of every externally-reachable cell
and rewrites exactly those cells; this captures "heap writes visible to
other threads or native code" (spec §8, Soundness). -/

abbrev Obj := Sum Nat Nat

/-- The environment a call runs in: the callee's return value and the cells
it writes are arbitrary functions of the call site and of the snapshot of
the externally reachable heap it can observe. -/
structure Oracle where
  retv : Nat → (Obj → Nat → Option Int) → Int
  heapv : Nat → (Obj → Nat → Option Int) → Obj → Nat → Int

/-- An execution context: parameter scalar values, index-variable and
opaque-index valuations, the mapping from parameter references to objects
(two parameters may denote the same object), and the call oracle. -/
structure Ctx where
  pv : Nat → Int
  σv : Nat → Nat
  τv : Nat → Nat
  πv : Nat → Nat
  orl : Oracle

def objOf (c : Ctx) : Ref → Obj
  | .par n => .inl (c.πv n)
  | .alloc i => .inr i

/-- Evaluate an operand to a vector of `len` elements. -/
def evalVec (c : Ctx) (env : Nat → List Int) (len : Nat) : Val → List Int
  | .cst k => List.replicate len k
  | .par n => List.replicate len (c.pv n)
  | .reg j => env j

/-- Evaluate an operand to a scalar. -/
def evalScalar (c : Ctx) (env : Nat → List Int) : Val → Int
  | .cst k => k
  | .par n => c.pv n
  | .reg j => (env j).headI

/-- Read `len` consecutive 32-bit-wrapped cells. -/
def readVec (h : Obj → Nat → Int) (o : Obj) (base len : Nat) : List Int :=
  (List.range len).map (fun k => h o ((base + k) % W32))

/-- Which written element does address `a` correspond to? -/
def writeHit (base len a : Nat) : Option Nat :=
  (List.range len).find? (fun k => (base + k) % W32 = a)

/-- Write `len` consecutive 32-bit-wrapped cells. -/
def writeVec (h : Obj → Nat → Int) (o : Obj) (base len : Nat) (vals : List Int) :
    Obj → Nat → Int :=
  fun o' a => if o' = o then
                match writeHit base len a with
                | some k => vals.getD k 0
                | none => h o' a
              else h o' a

/-- Is an object reachable by a callee (hence clobbered by an opaque
call)?  All parameter objects are; an allocation only once its reference
has been passed to a call. -/
def clobObj (esc : List Obj) : Obj → Bool
  | .inl _ => true
  | .inr i => esc.any (fun o => o = Sum.inr i)

/-- The part of the heap a callee can observe. -/
def snapshot (esc : List Obj) (h : Obj → Nat → Int) : Obj → Nat → Option Int :=
  fun o a => if clobObj esc o then some (h o a) else none

/-- Execution state: the heap, the SSA environment (each load/call id maps
to the list of values it produced), the objects escaped so far, the
sequence of call observations, and the return observations. -/
structure SState where
  heap : Obj → Nat → Int
  env : Nat → List Int
  esc : List Obj
  snaps : List (Nat × (Obj → Nat → Option Int))
  rval : Option Int
  robj : Option Obj

def envSet (env : Nat → List Int) (id : Nat) (xs : List Int) : Nat → List Int :=
  fun j => if j = id then xs else env j

/-- One execution step.  `mask` marks the instructions deleted by the pass
(always false for the reference run); `σ` is the pass's substitution
(empty for the reference run). -/
def sstep (c : Ctx) (mask : Nat → Instr → Bool) (σ : Nat → Option Val)
    (s : SState) : Nat × Instr → SState
  | (id, ins) =>
    if mask id ins then s else
    match ins with
    | .newArr =>
        { s with heap := fun o a => if o = Sum.inr id then 0 else s.heap o a }
    | .fence _ => s
    | .load r idx =>
        { s with env :=
            envSet s.env id (readVec s.heap (objOf c r) (evalIdx c.σv c.τv idx) 1) }
    | .vload r idx len =>
        { s with env :=
            envSet s.env id (readVec s.heap (objOf c r) (evalIdx c.σv c.τv idx) len) }
    | .store r idx v =>
        { s with heap :=
            (writeVec s.heap (objOf c r) (evalIdx c.σv c.τv idx) 1
              [evalScalar c s.env (applySub σ v)]) }
    | .vstore r idx len v =>
        { s with heap :=
            (writeVec s.heap (objOf c r) (evalIdx c.σv c.τv idx) len
              (evalVec c s.env len (applySub σ v))) }
    | .call args =>
        let esc' := s.esc ++ args.map (objOf c)
        let snap := snapshot esc' s.heap
        { heap := fun o a => if clobObj esc' o then c.orl.heapv id snap o a else s.heap o a,
          env := envSet s.env id [c.orl.retv id snap],
          esc := esc',
          snaps := s.snaps ++ [(id, snap)],
          rval := s.rval,
          robj := s.robj }
    | .retV v => { s with rval := some (evalScalar c s.env (applySub σ v)) }
    | .retRef r => { s with robj := some (objOf c r) }

def noMask : Nat → Instr → Bool := fun _ _ => false

def noSub : Nat → Option Val := fun _ => none

def initSS (h0 : Obj → Nat → Int) : SState :=
  ⟨h0, fun _ => [], [], [], none, none⟩

/-- Execute a program. -/
def exec (c : Ctx) (mask : Nat → Instr → Bool) (σ : Nat → Option Val)
    (p : Program) (s : SState) : SState :=
  p.foldl (sstep c mask σ) s

/-! ## Well-formed programs (SSA invariants, spec §6) -/

/-- An operand used at result width `ℓ` must name an earlier instruction
that defines a result of exactly that width. -/
def valOK (p : Program) (id ℓ : Nat) : Val → Bool
  | .reg j => decide (j < id) &&
      p.any (fun q => decide (q.1 = j) && decide (defLen q.2 = some ℓ))
  | _ => true

def instrOK (p : Program) : Nat × Instr → Bool
  | (id, .store _ _ v) => valOK p id 1 v
  | (id, .vstore _ _ len v) =>
      decide (0 < len) && decide (len ≤ W32) && valOK p id len v
  | (_, .vload _ _ len) => decide (0 < len) && decide (len ≤ W32)
  | (id, .retV v) => valOK p id 1 v
  | _ => true

/-- Structural well-formedness: strictly increasing SSA ids, and every
operand names an earlier definition of the right width. -/
def wfProgram (p : Program) : Bool :=
  decide (List.Chain' (· < ·) (p.map Prod.fst)) && p.all (instrOK p)

theorem wf_pairwise {p : Program} (h : wfProgram p = true) :
    List.Pairwise (· < ·) (p.map Prod.fst) := by
  unfold wfProgram at h
  rw [Bool.and_eq_true] at h
  exact List.chain'_iff_pairwise.mp (of_decide_eq_true h.1)

theorem wf_instrOK {p : Program} (h : wfProgram p = true) {q : Nat × Instr}
    (hq : q ∈ p) : instrOK p q = true := by
  unfold wfProgram at h
  rw [Bool.and_eq_true] at h
  exact List.all_eq_true.mp h.2 q hq

theorem wf_split {p done rest : Program} {id : Nat} {ins : Instr}
    (h : wfProgram p = true) (hp : p = done ++ (id, ins) :: rest) :
    (∀ q ∈ done, q.1 < id) ∧ (∀ q ∈ rest, id < q.1) := by
  have hpw := wf_pairwise h
  rw [hp, List.map_append, List.map_cons] at hpw
  rw [List.pairwise_append] at hpw
  obtain ⟨h1, h2, h3⟩ := hpw
  constructor
  · intro q hq
    exact h3 q.1 (List.mem_map_of_mem Prod.fst hq) id (by simp)
  · intro q hq
    have := List.pairwise_cons.mp h2
    exact this.1 q.1 (List.mem_map_of_mem Prod.fst hq)

theorem wf_nodup {p : Program} (h : wfProgram p = true) :
    (p.map Prod.fst).Nodup :=
  (wf_pairwise h).nodup

/-! ## Pointwise lemmas about the heap and environment operations -/

theorem evalIdx_lt (σ τ : Nat → Nat) (i : IdxExpr) : evalIdx σ τ i < W32 := by
  have hW : 0 < W32 := by simp [W32]
  cases i <;> simp [evalIdx]
  · exact u32_lt _
  · exact Nat.mod_lt _ hW
  · exact Nat.mod_lt _ hW
  · exact Nat.mod_lt _ hW
  · exact Nat.mod_lt _ hW

theorem readVec_length (h : Obj → Nat → Int) (o : Obj) (base len : Nat) :
    (readVec h o base len).length = len := by
  simp [readVec]

theorem readVec_getD (h : Obj → Nat → Int) (o : Obj) (base len k : Nat)
    (hk : k < len) :
    (readVec h o base len).getD k 0 = h o ((base + k) % W32) := by
  unfold readVec
  rw [List.getD_eq_getElem?_getD]
  rw [List.getElem?_map]
  simp [List.getElem?_range hk]

theorem writeHit_spec {base len a k : Nat} (h : writeHit base len a = some k) :
    k < len ∧ (base + k) % W32 = a := by
  unfold writeHit at h
  have h1 := List.find?_some h
  have h2 := List.mem_range.mp (List.mem_of_find?_eq_some h)
  exact ⟨h2, of_decide_eq_true h1⟩

theorem writeHit_none {base len a : Nat}
    (h : ∀ k, k < len → (base + k) % W32 ≠ a) : writeHit base len a = none := by
  unfold writeHit
  rw [List.find?_eq_none]
  intro k hk
  simp only [decide_eq_true_eq]
  exact h k (List.mem_range.mp hk)

theorem writeHit_hit {base len k : Nat} (hk : k < len) (hlen : len ≤ W32) :
    writeHit base len ((base + k) % W32) = some k := by
  have hsome : (writeHit base len ((base + k) % W32)).isSome := by
    unfold writeHit
    rw [List.find?_isSome]
    exact ⟨k, List.mem_range.mpr hk, by simp⟩
  obtain ⟨x, hx⟩ := Option.isSome_iff_exists.mp hsome
  obtain ⟨hx1, hx2⟩ := writeHit_spec hx
  have hxk : x = k := by
    have h1 : x < W32 := lt_of_lt_of_le hx1 hlen
    have h2 : k < W32 := lt_of_lt_of_le hk hlen
    simp only [W32] at *
    omega
  rw [hx, hxk]

theorem writeVec_other {h : Obj → Nat → Int} {o o' : Obj} {base len : Nat}
    {vals : List Int} {a : Nat} (ho : o' ≠ o) :
    writeVec h o base len vals o' a = h o' a := by
  simp [writeVec, ho]

theorem writeVec_miss {h : Obj → Nat → Int} {o o' : Obj} {base len : Nat}
    {vals : List Int} {a : Nat} (hm : writeHit base len a = none) :
    writeVec h o base len vals o' a = h o' a := by
  unfold writeVec
  by_cases ho : o' = o
  · simp [ho, hm]
  · simp [ho]

theorem readVec_writeVec_same {h : Obj → Nat → Int} {o : Obj} {base len : Nat}
    {vals : List Int} (hlen : len ≤ W32) (hv : vals.length = len) :
    readVec (writeVec h o base len vals) o base len = vals := by
  apply List.ext_getElem
  · simp [readVec_length, hv]
  · intro k hk1 hk2
    rw [readVec_length] at hk1
    unfold readVec
    rw [List.getElem_map, List.getElem_range]
    unfold writeVec
    rw [if_pos rfl, writeHit_hit hk1 hlen]
    simp [List.getD_eq_getElem?_getD, List.getElem?_eq_getElem hk2]

/-- Reading a range disjoint (under 32-bit wraparound) from the written
range is unaffected by the write. -/
theorem readVec_writeVec_disjoint {h : Obj → Nat → Int} {o o' : Obj}
    {b1 len1 b2 len2 : Nat} {vals : List Int}
    (hdis : o' ≠ o ∨ ∀ k1 k2, k1 < len1 → k2 < len2 →
      (b1 + k1) % W32 ≠ (b2 + k2) % W32) :
    readVec (writeVec h o b2 len2 vals) o' b1 len1 = readVec h o' b1 len1 := by
  unfold readVec
  apply List.map_congr_left
  intro k hk
  rw [List.mem_range] at hk
  rcases hdis with ho | hdis
  · exact writeVec_other ho
  · apply writeVec_miss
    apply writeHit_none
    intro k2 hk2
    exact (hdis k k2 hk hk2).symm

theorem envSet_self (env : Nat → List Int) (id : Nat) (xs : List Int) :
    envSet env id xs id = xs := by simp [envSet]

theorem envSet_other {env : Nat → List Int} {id j : Nat} (xs : List Int)
    (hj : j ≠ id) : envSet env id xs j = env j := by simp [envSet, hj]

theorem applySub_noSub (v : Val) : applySub noSub v = v := by
  cases v <;> rfl

theorem evalVec_congr {c : Ctx} {env1 env2 : Nat → List Int} {len : Nat}
    {v : Val} (h : ∀ k, v = Val.reg k → env1 k = env2 k) :
    evalVec c env1 len v = evalVec c env2 len v := by
  cases v <;> simp [evalVec]
  exact h _ rfl

theorem evalScalar_congr {c : Ctx} {env1 env2 : Nat → List Int}
    {v : Val} (h : ∀ k, v = Val.reg k → env1 k = env2 k) :
    evalScalar c env1 v = evalScalar c env2 v := by
  cases v <;> simp [evalScalar]
  rw [h _ rfl]

theorem evalVec_one_headI (c : Ctx) (env : Nat → List Int) (v : Val) :
    (evalVec c env 1 v).headI = evalScalar c env v := by
  cases v <;> rfl

theorem evalVec_one {c : Ctx} {env : Nat → List Int} {v : Val}
    (h : ∀ k, v = Val.reg k → (env k).length = 1) :
    evalVec c env 1 v = [evalScalar c env v] := by
  cases v with
  | cst k => rfl
  | par n => rfl
  | reg j =>
      obtain ⟨x, hx⟩ := List.length_eq_one.mp (h j rfl)
      simp [evalVec, evalScalar, hx]

theorem refsMayAlias_obj (c : Ctx) {r1 r2 : Ref}
    (h : refsMayAlias r1 r2 = false) : objOf c r1 ≠ objOf c r2 := by
  cases r1 with
  | par n1 =>
      cases r2 with
      | par n2 => simp [refsMayAlias, Ref.isParam] at h
      | alloc i2 => simp [objOf]
  | alloc i1 =>
      cases r2 with
      | par n2 => simp [objOf]
      | alloc i2 =>
          simp [refsMayAlias, Ref.isParam] at h
          simp [objOf]
          intro hcon
          exact h (by rw [hcon])

/-- Semantic content of the aliasing matrix: if `MayAlias` denies aliasing,
the two locations live on different objects or cover disjoint cells. -/
theorem locMayAlias_semantic (c : Ctx) {l1 l2 : Loc}
    (h : locMayAlias l1 l2 = false) (hl1 : l1.len ≤ W32) (hl2 : l2.len ≤ W32) :
    objOf c l1.ref ≠ objOf c l2.ref ∨
    ∀ k1 k2, k1 < l1.len → k2 < l2.len →
      (evalIdx c.σv c.τv l1.idx + k1) % W32 ≠
        (evalIdx c.σv c.τv l2.idx + k2) % W32 := by
  unfold locMayAlias at h
  rcases Bool.and_eq_false_iff.mp h with h | h
  · exact Or.inl (refsMayAlias_obj c h)
  · right
    intro k1 k2 hk1 hk2
    exact idxMayAlias_sound hl1 hl2 h c.σv c.τv hk1 hk2

/-! ## Alignment of the per-prefix engine state with the final pass data -/

/-- Engine state after the processed prefix `done` of the method `p`. -/
def engineAt (p done : Program) : EState :=
  done.foldl (estep (escapedRefs p)) initES

theorem engineAt_full (p : Program) : engineAt p p = elimState p := rfl

/-- Final substitution of the pass. -/
def elimSub (p : Program) : Nat → Option Val := (elimState p).σ

theorem foldl_estep_sigma_assign (E : List Ref) (l : List (Nat × Instr))
    (s : EState) (j : Nat) (w : Val)
    (h : (l.foldl (estep E) s).σ j = some w) :
    s.σ j = some w ∨ ∃ ins, (j, ins) ∈ l := by
  induction l generalizing s with
  | nil => exact Or.inl h
  | cons pr tl ih =>
      rw [List.foldl_cons] at h
      rcases ih (estep E s pr) h with h' | ⟨ins, hins⟩
      · by_cases hj : j = pr.1
        · exact Or.inr ⟨pr.2, by rw [hj]; exact List.mem_cons_self _ _⟩
        · rw [estep_sigma E s pr.1 pr.2 j hj] at h'
          exact Or.inl h'
      · exact Or.inr ⟨ins, List.mem_cons_of_mem _ hins⟩

/-- A substitution entry can only exist for an id the method defines. -/
theorem elimSub_mem {p : Program} {j : Nat} {w : Val}
    (h : elimSub p j = some w) : ∃ ins, (j, ins) ∈ p := by
  rcases foldl_estep_sigma_assign (escapedRefs p) p initES j w h with h' | h'
  · simp [initES] at h'
  · exact h'

/-- A removed id always names an access instruction of the method. -/
theorem elim_removed_mem {p : Program} {j : Nat}
    (h : j ∈ (elimState p).removed) :
    ∃ ins, (j, ins) ∈ p ∧ isAccess ins = true := by
  obtain ⟨tail, htail, hmem⟩ := foldl_estep_removed (escapedRefs p) p initES
  rw [elimState] at h
  rw [htail] at h
  simp [initES] at h
  exact hmem j h

theorem engineAt_removed_mem {p done : Program} {j : Nat}
    (h : j ∈ (engineAt p done).removed) :
    ∃ ins, (j, ins) ∈ done ∧ isAccess ins = true := by
  obtain ⟨tail, htail, hmem⟩ := foldl_estep_removed (escapedRefs p) done initES
  rw [engineAt, htail] at h
  simp [initES] at h
  exact hmem j h

/-- The final substitution agrees with the engine state at a prefix, for any
id the remaining instructions do not redefine. -/
theorem elimSub_stable {p done rest : Program} (hp : p = done ++ rest)
    {j : Nat} (hj : ∀ q ∈ rest, q.1 ≠ j) :
    elimSub p j = (engineAt p done).σ j := by
  unfold elimSub elimState engineAt
  rw [hp, List.foldl_append]
  rw [← hp]
  exact foldl_estep_sigma (escapedRefs p) rest _ j hj

/-- An eliminated (removed) defining instruction always has a substitution
entry: the engine only removes a load after recording its replacement. -/
theorem removed_def_sigma {p : Program} (hwf : wfProgram p = true)
    {j : Nat} {insj : Instr} {ℓ : Nat}
    (hdef : (j, insj) ∈ p) (hdl : defLen insj = some ℓ)
    (hrm : j ∈ (elimState p).removed) : ∃ w, elimSub p j = some w := by
  obtain ⟨done, rest, hp⟩ := List.append_of_mem hdef
  obtain ⟨hlt, hgt⟩ := wf_split hwf hp
  have hrest_ne : ∀ q ∈ rest, q.1 ≠ j := fun q hq => by
    have := hgt q hq
    omega
  have hdone_ne : ∀ q ∈ done, q.1 ≠ j := fun q hq => by
    have := hlt q hq
    omega
  set E := escapedRefs p with hE
  set s0 := engineAt p done with hs0
  have hfin : (elimState p).removed =
      (rest.foldl (estep E) (estep E s0 (j, insj))).removed := by
    unfold elimState engineAt at *
    rw [hp, List.foldl_append, List.foldl_cons]
    rw [← hp]
    rfl
  have hnotpre : j ∉ s0.removed := by
    intro hcon
    obtain ⟨ins, hins, -⟩ := engineAt_removed_mem hcon
    exact hdone_ne (j, ins) hins rfl
  obtain ⟨tail, htail, hmem⟩ := foldl_estep_removed E rest (estep E s0 (j, insj))
  have hnottail : j ∉ tail := by
    intro hcon
    obtain ⟨ins, hins, -⟩ := hmem j hcon
    exact hrest_ne (j, ins) hins rfl
  have hstepmem : j ∈ (estep E s0 (j, insj)).removed := by
    rw [hfin, htail] at hrm
    rcases List.mem_append.mp hrm with h | h
    · exact h
    · exact absurd h hnottail
  have hσ : ∀ w, (estep E s0 (j, insj)).σ j = some w → elimSub p j = some w := by
    intro w hw
    have : elimSub p j = (rest.foldl (estep E) (estep E s0 (j, insj))).σ j := by
      unfold elimSub elimState engineAt at *
      rw [hp, List.foldl_append, List.foldl_cons]
      rw [← hp]
      rfl
    rw [this, foldl_estep_sigma E rest _ j hrest_ne, hw]
  cases insj with
  | load r idx =>
      cases ht : s0.t ⟨r, idx, 1⟩ with
      | known v =>
          refine ⟨v, hσ v ?_⟩
          simp [estep, ht]
      | dflt =>
          refine ⟨.cst 0, hσ _ ?_⟩
          simp [estep, ht]
      | unknown =>
          exfalso
          simp [estep, ht] at hstepmem
          exact hnotpre hstepmem
  | vload r idx len =>
      cases ht : s0.t ⟨r, idx, len⟩ with
      | known v =>
          refine ⟨v, hσ v ?_⟩
          simp [estep, ht]
      | dflt =>
          exfalso
          simp [estep, ht] at hstepmem
          exact hnotpre hstepmem
      | unknown =>
          exfalso
          simp [estep, ht] at hstepmem
          exact hnotpre hstepmem
  | call args =>
      exfalso
      simp [estep] at hstepmem
      exact hnotpre hstepmem
  | newArr => simp [defLen] at hdl
  | fence a => simp [defLen] at hdl
  | store r idx v => simp [defLen] at hdl
  | vstore r idx len v => simp [defLen] at hdl
  | retV v => simp [defLen] at hdl
  | retRef r => simp [defLen] at hdl

theorem mem_unique_id {p : Program} (hnd : (p.map Prod.fst).Nodup)
    {id : Nat} {ins ins' : Instr}
    (h1 : (id, ins) ∈ p) (h2 : (id, ins') ∈ p) : ins = ins' := by
  induction p with
  | nil => cases h1
  | cons q tl ih =>
      rw [List.map_cons, List.nodup_cons] at hnd
      rcases List.mem_cons.mp h1 with h1 | h1
      · rcases List.mem_cons.mp h2 with h2 | h2
        · rw [← h1] at h2
          exact ((Prod.mk.injEq _ _ _ _).mp h2.symm).2
        · exfalso
          apply hnd.1
          have hq : q.1 = id := by rw [← h1]
          rw [hq]
          simpa using List.mem_map_of_mem Prod.fst h2
      · rcases List.mem_cons.mp h2 with h2 | h2
        · exfalso
          apply hnd.1
          have hq : q.1 = id := by rw [← h2]
          rw [hq]
          simpa using List.mem_map_of_mem Prod.fst h1
        · exact ih hnd.2 h1 h2

theorem mask_plain_false {p : Program} (hwf : wfProgram p = true)
    {id : Nat} {ins : Instr} (hdef : (id, ins) ∈ p)
    (hshape : isAccess ins = false ∧ ins ≠ Instr.newArr ∧
      ∀ a, ins ≠ Instr.fence a) :
    maskOf p id ins = false := by
  have hrm : id ∉ (elimState p).removed := by
    intro hcon
    obtain ⟨ins', hins', hacc⟩ := elim_removed_mem hcon
    rw [mem_unique_id (wf_nodup hwf) hdef hins'] at hshape
    rw [hacc] at hshape
    cases hshape.1
  unfold maskOf
  rw [decide_eq_false hrm]
  rw [Bool.false_or]
  cases ins with
  | newArr => exact absurd rfl hshape.2.1
  | fence a => exact absurd rfl (hshape.2.2 a)
  | load r idx => simp [isAccess] at hshape
  | vload r idx len => simp [isAccess] at hshape
  | store r idx v => simp [isAccess] at hshape
  | vstore r idx len v => simp [isAccess] at hshape
  | call args => rfl
  | retV v => rfl
  | retRef r => rfl

/-- A masked defining instruction always has a substitution entry. -/
theorem masked_def_sigma {p : Program} (hwf : wfProgram p = true)
    {j ℓ : Nat} {insj : Instr} (hdef : (j, insj) ∈ p)
    (hdl : defLen insj = some ℓ) (hmask : maskOf p j insj = true) :
    ∃ w, elimSub p j = some w := by
  have hrm : j ∈ (elimState p).removed := by
    unfold maskOf at hmask
    rcases Bool.or_eq_true_iff.mp hmask with h | h
    · exact of_decide_eq_true h
    · cases insj with
      | load r idx =>
          cases r with
          | par n => simp at h
          | alloc i =>
              have hra : removableAlloc p i = true := h
              unfold removableAlloc at hra
              rw [Bool.and_eq_true] at hra
              have hall := List.all_eq_true.mp hra.2 (j, Instr.load (Ref.alloc i) idx) hdef
              simp only [loadsRef, decide_eq_true_eq] at hall
              rcases Bool.or_eq_true_iff.mp hall with hc | hc
              · simp at hc
              · exact of_decide_eq_true hc
      | vload r idx len =>
          cases r with
          | par n => simp at h
          | alloc i =>
              have hra : removableAlloc p i = true := h
              unfold removableAlloc at hra
              rw [Bool.and_eq_true] at hra
              have hall := List.all_eq_true.mp hra.2 (j, Instr.vload (Ref.alloc i) idx len) hdef
              simp only [loadsRef, decide_eq_true_eq] at hall
              rcases Bool.or_eq_true_iff.mp hall with hc | hc
              · simp at hc
              · exact of_decide_eq_true hc
      | call args => simp at h
      | newArr => simp [defLen] at hdl
      | fence a => simp [defLen] at hdl
      | store r idx v => simp [defLen] at hdl
      | vstore r idx len v => simp [defLen] at hdl
      | retV v => simp [defLen] at hdl
      | retRef r => simp [defLen] at hdl
  exact removed_def_sigma hwf hdef hdl hrm

/-- The objects that the pass's final sweep deletes entirely. -/
def exemptObj (p : Program) (o : Obj) : Prop :=
  ∃ i, o = Sum.inr i ∧ removableAlloc p i = true

/-- A value whose registers all name retained definitions of the processed
prefix. -/
def valGood (p done : Program) (w : Val) : Prop :=
  ∀ k, w = Val.reg k → ∃ ins ℓ, (k, ins) ∈ done ∧
    maskOf p k ins = false ∧ defLen ins = some ℓ

/-- The simulation invariant between the reference execution `so` and the
post-LSE execution `st` after the prefix `done` of method `p` (spec §8,
Soundness): environments agree on retained definitions, eliminated loads
have correct replacement values, the heaps agree outside deleted singleton
objects, all call/return observations agree, and the engine's heap-value
table is a correct abstraction of the reference heap. -/
structure SimInv (c : Ctx) (p done : Program) (so st : SState) : Prop where
  envAgree : ∀ j ins ℓ, (j, ins) ∈ done → defLen ins = some ℓ →
      maskOf p j ins = false → st.env j = so.env j
  envLen : ∀ j ins ℓ, (j, ins) ∈ done → defLen ins = some ℓ →
      (so.env j).length = ℓ
  substOK : ∀ j w ins, elimSub p j = some w → (j, ins) ∈ done →
      ∃ ℓ, defLen ins = some ℓ ∧ valGood p done w ∧
        evalVec c so.env ℓ w = so.env j
  heapAgree : ∀ o, ¬exemptObj p o → st.heap o = so.heap o
  escEq : st.esc = so.esc
  snapsEq : st.snaps = so.snaps
  rvalEq : st.rval = so.rval
  robjEq : st.robj = so.robj
  escSub : ∀ o ∈ so.esc, (∃ n, o = Sum.inl n) ∨
      ∃ i, o = Sum.inr i ∧ Ref.alloc i ∈ escapedRefs p
  tknown : ∀ loc v, (engineAt p done).t loc = .known v → loc.len ≤ W32 →
      valGood p done v ∧
      readVec so.heap (objOf c loc.ref) (evalIdx c.σv c.τv loc.idx) loc.len =
        evalVec c so.env loc.len v
  tdflt : ∀ loc, (engineAt p done).t loc = .dflt → loc.len ≤ W32 →
      (∃ i, loc.ref = Ref.alloc i) ∧
      readVec so.heap (objOf c loc.ref) (evalIdx c.σv c.τv loc.idx) loc.len =
        List.replicate loc.len 0

theorem mem_before {p done rest : Program} {id j : Nat} {ins insj : Instr}
    (hwf : wfProgram p = true) (hp : p = done ++ (id, ins) :: rest)
    (hj : (j, insj) ∈ p) (hlt : j < id) : (j, insj) ∈ done := by
  obtain ⟨-, hgt⟩ := wf_split hwf hp
  rw [hp] at hj
  rcases List.mem_append.mp hj with h | h
  · exact h
  · rcases List.mem_cons.mp h with h | h
    · exfalso
      have : j = id := congrArg Prod.fst h
      omega
    · exfalso
      have := hgt (j, insj) h
      omega

/-- Core operand lemma: the substituted operand used by the transformed run
agrees with the engine's substituted operand, evaluates (in both runs) to
the same vector as the original operand does in the reference run, its
registers name retained definitions, and its reference evaluation has the
expected width. -/
theorem substEval {c : Ctx} {p done rest : Program} {id : Nat} {ins : Instr}
    (hwf : wfProgram p = true) (hp : p = done ++ (id, ins) :: rest)
    {so st : SState} (hinv : SimInv c p done so st)
    {ℓ : Nat} {v : Val} (hok : valOK p id ℓ v = true) :
    applySub (elimSub p) v = applySub (engineAt p done).σ v ∧
    evalVec c so.env ℓ (applySub (engineAt p done).σ v) = evalVec c so.env ℓ v ∧
    evalVec c st.env ℓ (applySub (engineAt p done).σ v) = evalVec c so.env ℓ v ∧
    valGood p done (applySub (engineAt p done).σ v) ∧
    (evalVec c so.env ℓ v).length = ℓ := by
  cases v with
  | cst k =>
      refine ⟨rfl, rfl, rfl, ?_, by simp [evalVec]⟩
      intro k' hk'
      simp [applySub] at hk'
  | par n =>
      refine ⟨rfl, rfl, rfl, ?_, by simp [evalVec]⟩
      intro k' hk'
      simp [applySub] at hk'
  | reg j =>
      simp only [valOK, Bool.and_eq_true, decide_eq_true_eq] at hok
      obtain ⟨hjlt, hany⟩ := hok
      obtain ⟨q, hq, hq2⟩ := List.any_eq_true.mp hany
      rw [Bool.and_eq_true] at hq2
      have hqj : q.1 = j := of_decide_eq_true hq2.1
      have hqd : defLen q.2 = some ℓ := of_decide_eq_true hq2.2
      have hdone : (j, q.2) ∈ done := by
        apply mem_before hwf hp _ hjlt
        rw [← hqj]
        exact hq
      have hne : ∀ q' ∈ (id, ins) :: rest, q'.1 ≠ j := by
        intro q' hq'
        obtain ⟨-, hgt⟩ := wf_split hwf hp
        rcases List.mem_cons.mp hq' with h | h
        · rw [h]
          omega
        · have := hgt q' h
          omega
      have halign : elimSub p j = (engineAt p done).σ j :=
        elimSub_stable hp hne
      have hlen : (so.env j).length = ℓ := hinv.envLen j q.2 ℓ hdone hqd
      cases hσ : (engineAt p done).σ j with
      | some w =>
          have hfin : elimSub p j = some w := by rw [halign, hσ]
          obtain ⟨ℓ', hdl', hgood, heval⟩ := hinv.substOK j w q.2 hfin hdone
          have hll : ℓ' = ℓ := by
            rw [hqd] at hdl'
            exact (Option.some.inj hdl').symm
          rw [hll] at heval
          have hsub1 : applySub (elimSub p) (Val.reg j) = w := by
            simp [applySub, hfin]
          have hsub2 : applySub (engineAt p done).σ (Val.reg j) = w := by
            simp [applySub, hσ]
          refine ⟨by rw [hsub1, hsub2], ?_, ?_, ?_, ?_⟩
          · rw [hsub2, heval]
            rfl
          · rw [hsub2]
            have : evalVec c st.env ℓ w = evalVec c so.env ℓ w := by
              apply evalVec_congr
              intro k hk
              obtain ⟨insk, ℓk, hkdone, hkmask, hkdl⟩ := hgood k hk
              exact hinv.envAgree k insk ℓk hkdone hkdl hkmask
            rw [this, heval]
            rfl
          · rw [hsub2]
            exact hgood
          · exact hlen ▸ rfl
      | none =>
          have hfin : elimSub p j = none := by rw [halign, hσ]
          have hmask : maskOf p j q.2 = false := by
            cases hm : maskOf p j q.2 with
            | false => rfl
            | true =>
                obtain ⟨w, hw⟩ := masked_def_sigma hwf
                  (by rw [← hqj]; exact hq) hqd hm
                rw [hfin] at hw
                cases hw
          have hsub2 : applySub (engineAt p done).σ (Val.reg j) = Val.reg j := by
            simp [applySub, hσ]
          have hsub1 : applySub (elimSub p) (Val.reg j) = Val.reg j := by
            simp [applySub, hfin]
          refine ⟨by rw [hsub1, hsub2], by rw [hsub2], ?_, ?_, ?_⟩
          · rw [hsub2]
            show st.env j = so.env j
            exact hinv.envAgree j q.2 ℓ hdone hqd hmask
          · rw [hsub2]
            intro k hk
            have hkj : k = j := by
              simp at hk
              exact hk.symm
            subst hkj
            exact ⟨q.2, ℓ, hdone, hmask, hqd⟩
          · show (so.env j).length = ℓ
            exact hlen

/-! ## Helpers for the simulation step -/

theorem engineAt_snoc (p done : Program) (q : Nat × Instr) :
    engineAt p (done ++ [q]) = estep (escapedRefs p) (engineAt p done) q := by
  unfold engineAt
  rw [List.foldl_append]
  rfl

theorem valGood_mono {p done : Program} {q : Nat × Instr} {w : Val}
    (h : valGood p done w) : valGood p (done ++ [q]) w := by
  intro k hk
  obtain ⟨ins, ℓ, hmem, hmask, hdl⟩ := h k hk
  exact ⟨ins, ℓ, List.mem_append_left _ hmem, hmask, hdl⟩

theorem evalVec_envSet_stable {c : Ctx} {p done : Program} {w : Val}
    {env : Nat → List Int} {id ℓ : Nat} {xs : List Int}
    (hgood : valGood p done w) (hlt : ∀ q ∈ done, q.1 < id) :
    evalVec c (envSet env id xs) ℓ w = evalVec c env ℓ w := by
  apply evalVec_congr
  intro k hk
  obtain ⟨ins, ℓk, hmem, -, -⟩ := hgood k hk
  have := hlt (k, ins) hmem
  exact envSet_other xs (by omega)

theorem readVec_heapCongr {h1 h2 : Obj → Nat → Int} {o : Obj} {base len : Nat}
    (h : ∀ a, h1 o a = h2 o a) : readVec h1 o base len = readVec h2 o base len := by
  unfold readVec
  exact List.map_congr_left (fun k _ => h _)

/-- Writing back the values already present leaves the heap unchanged. -/
theorem writeVec_noop {h : Obj → Nat → Int} {o : Obj} {base len : Nat}
    {vals : List Int} (hrd : readVec h o base len = vals) :
    writeVec h o base len vals = h := by
  funext o' a
  by_cases ho : o' = o
  · subst ho
    unfold writeVec
    rw [if_pos rfl]
    cases hhit : writeHit base len a with
    | none => rfl
    | some k =>
        obtain ⟨hk, ha⟩ := writeHit_spec hhit
        show vals.getD k 0 = h o' a
        rw [← hrd, readVec_getD h o' base len k hk, ha]
  · exact writeVec_other ho

theorem writeVec_ptCongr {h1 h2 : Obj → Nat → Int} {o : Obj} {base len : Nat}
    {vals : List Int} {o' : Obj} {a : Nat} (h : h1 o' a = h2 o' a) :
    writeVec h1 o base len vals o' a = writeVec h2 o base len vals o' a := by
  unfold writeVec
  by_cases ho : o' = o
  · rw [if_pos ho, if_pos ho]
    cases writeHit base len a with
    | none => exact h
    | some k => rfl
  · rw [if_neg ho, if_neg ho]
    exact h

/-- The final removal set restricted to the current id is decided by the
current engine step. -/
theorem final_removed_iff {p done rest : Program} {id : Nat} {ins : Instr}
    (hwf : wfProgram p = true) (hp : p = done ++ (id, ins) :: rest) :
    id ∈ (elimState p).removed ↔
    id ∈ (estep (escapedRefs p) (engineAt p done) (id, ins)).removed := by
  obtain ⟨hlt, hgt⟩ := wf_split hwf hp
  set E := escapedRefs p
  have hfin : (elimState p).removed =
      (rest.foldl (estep E) (estep E (engineAt p done) (id, ins))).removed := by
    unfold elimState engineAt
    rw [hp, List.foldl_append, List.foldl_cons]
    rw [← hp]
  obtain ⟨tail, htail, hmem⟩ := foldl_estep_removed E rest
    (estep E (engineAt p done) (id, ins))
  rw [hfin, htail]
  constructor
  · intro h
    rcases List.mem_append.mp h with h | h
    · exact h
    · exfalso
      obtain ⟨ins', hins', -⟩ := hmem id h
      have := hgt (id, ins') hins'
      omega
  · exact fun h => List.mem_append_left _ h

/-- The engine has no substitution entry for an id the prefix does not
contain. -/
theorem engine_sigma_none {p done : Program} {id : Nat}
    (h : ∀ q ∈ done, q.1 ≠ id) : (engineAt p done).σ id = none := by
  cases hσ : (engineAt p done).σ id with
  | none => rfl
  | some w =>
      exfalso
      rcases foldl_estep_sigma_assign (escapedRefs p) done initES id w hσ with h' | h'
      · simp [initES] at h'
      · obtain ⟨ins, hins⟩ := h'
        exact h (id, ins) hins rfl

def isLoadIns : Instr → Bool
  | .load _ _ => true
  | .vload _ _ _ => true
  | _ => false

theorem estep_sigma_load {E : List Ref} {s : EState} {i2 : Nat} {ins2 : Instr}
    {j : Nat} {w : Val} (h : (estep E s (i2, ins2)).σ j = some w) :
    s.σ j = some w ∨ (j = i2 ∧ isLoadIns ins2 = true) := by
  cases ins2 with
  | load r idx =>
      cases ht : s.t ⟨r, idx, 1⟩ with
      | unknown =>
          simp [estep, ht] at h
          exact Or.inl h
      | dflt =>
          simp [estep, ht] at h
          by_cases hj : j = i2
          · exact Or.inr ⟨hj, rfl⟩
          · rw [if_neg hj] at h
            exact Or.inl h
      | known v =>
          simp [estep, ht] at h
          by_cases hj : j = i2
          · exact Or.inr ⟨hj, rfl⟩
          · rw [if_neg hj] at h
            exact Or.inl h
  | vload r idx len =>
      cases ht : s.t ⟨r, idx, len⟩ with
      | unknown =>
          simp [estep, ht] at h
          exact Or.inl h
      | dflt =>
          simp [estep, ht] at h
          exact Or.inl h
      | known v =>
          simp [estep, ht] at h
          by_cases hj : j = i2
          · exact Or.inr ⟨hj, rfl⟩
          · rw [if_neg hj] at h
            exact Or.inl h
  | newArr => exact Or.inl h
  | fence a => exact Or.inl h
  | store r idx v =>
      by_cases hrm : s.t ⟨r, idx, 1⟩ = .known (applySub s.σ v) ∨
        (s.t ⟨r, idx, 1⟩ = .dflt ∧ applySub s.σ v = .cst 0)
      · simp [estep, hrm] at h
        exact Or.inl h
      · simp [estep, hrm] at h
        exact Or.inl h
  | vstore r idx len v =>
      by_cases hrm : s.t ⟨r, idx, len⟩ = .known (applySub s.σ v) ∨
        (s.t ⟨r, idx, len⟩ = .dflt ∧ applySub s.σ v = .cst 0)
      · simp [estep, hrm] at h
        exact Or.inl h
      · simp [estep, hrm] at h
        exact Or.inl h
  | call args => exact Or.inl h
  | retV v => exact Or.inl h
  | retRef r => exact Or.inl h

theorem foldl_sigma_load {E : List Ref} (l : List (Nat × Instr)) (s : EState)
    {j : Nat} {w : Val} (h : (l.foldl (estep E) s).σ j = some w) :
    s.σ j = some w ∨ ∃ ins, (j, ins) ∈ l ∧ isLoadIns ins = true := by
  induction l generalizing s with
  | nil => exact Or.inl h
  | cons q tl ih =>
      obtain ⟨qi, qins⟩ := q
      rw [List.foldl_cons] at h
      rcases ih (estep E s (qi, qins)) h with h' | ⟨ins, hins, hld⟩
      · rcases estep_sigma_load h' with h'' | ⟨hj, hld⟩
        · exact Or.inl h''
        · exact Or.inr ⟨qins, by rw [hj]; exact List.mem_cons_self _ _, hld⟩
      · exact Or.inr ⟨ins, List.mem_cons_of_mem _ hins, hld⟩

/-- Only loads acquire substitution entries. -/
theorem elimSub_is_load {p : Program} {j : Nat} {w : Val}
    (h : elimSub p j = some w) :
    ∃ ins, (j, ins) ∈ p ∧ isLoadIns ins = true := by
  rcases foldl_sigma_load p initES h with h' | h'
  · simp [initES] at h'
  · exact h'

/-- A non-load instruction never has a substitution entry for its own id. -/
theorem elimSub_none_of_nonload {p : Program} {id : Nat} {ins : Instr}
    (hwf : wfProgram p = true) (hmem : (id, ins) ∈ p)
    (hnl : isLoadIns ins = false) : elimSub p id = none := by
  cases hσ : elimSub p id with
  | none => rfl
  | some w =>
      exfalso
      obtain ⟨ins', hins', hld⟩ := elimSub_is_load hσ
      rw [mem_unique_id (wf_nodup hwf) hins' hmem] at hld
      rw [hnl] at hld
      cases hld

theorem escapedRefs_mem {p : Program} {id : Nat} {args : List Ref}
    (hmem : (id, .call args) ∈ p) {r : Ref} (hr : r ∈ args) :
    r ∈ escapedRefs p := by
  induction p with
  | nil => cases hmem
  | cons q tl ih =>
      rcases List.mem_cons.mp hmem with h | h
      · unfold escapedRefs
        rw [List.foldr_cons, ← h]
        exact List.mem_append_left _ hr
      · unfold escapedRefs
        rw [List.foldr_cons]
        cases hq : q.2 <;> try exact ih h
        exact List.mem_append_right _ (ih h)

theorem mem_snoc_elim {done : Program} {q q' : Nat × Instr}
    (h : q' ∈ done ++ [q]) : q' ∈ done ∨ q' = q := by
  rcases List.mem_append.mp h with h | h
  · exact Or.inl h
  · rcases List.mem_cons.mp h with h | h
    · exact Or.inr h
    · cases h

theorem sstep_mask {c : Ctx} {m : Nat → Instr → Bool} {σ : Nat → Option Val}
    {s : SState} {id : Nat} {ins : Instr} (h : m id ins = true) :
    sstep c m σ s (id, ins) = s := by
  simp only [sstep]
  rw [h]
  rfl

theorem sstep_unmask {c : Ctx} {m : Nat → Instr → Bool} {σ : Nat → Option Val}
    {s : SState} {id : Nat} {ins : Instr} (h : m id ins = false) :
    sstep c m σ s (id, ins) = sstep c noMask σ s (id, ins) := by
  simp only [sstep]
  rw [h]
  rfl

theorem sstep_fence (c : Ctx) (m : Nat → Instr → Bool) (σ : Nat → Option Val)
    (s : SState) (id a : Nat) : sstep c m σ s (id, .fence a) = s := by
  simp only [sstep]
  cases m id (.fence a) <;> rfl

/-- Step case: constructor fence. -/
theorem simStep_fence {c : Ctx} {p done rest : Program} {id a : Nat}
    (hwf : wfProgram p = true) (hp : p = done ++ (id, Instr.fence a) :: rest)
    {so st : SState} (hinv : SimInv c p done so st) :
    SimInv c p (done ++ [(id, Instr.fence a)])
      (sstep c noMask noSub so (id, Instr.fence a))
      (sstep c (maskOf p) (elimSub p) st (id, Instr.fence a)) := by
  rw [sstep_fence, sstep_fence]
  have hmemp : (id, Instr.fence a) ∈ p := by
    rw [hp]
    exact List.mem_append_right _ (List.mem_cons_self _ _)
  refine ⟨?_, ?_, ?_, hinv.heapAgree, hinv.escEq, hinv.snapsEq, hinv.rvalEq,
    hinv.robjEq, hinv.escSub, ?_, ?_⟩
  · intro j insj ℓ hmem hdl hmask
    rcases mem_snoc_elim hmem with hmem | hmem
    · exact hinv.envAgree j insj ℓ hmem hdl hmask
    · rw [(Prod.mk.injEq _ _ _ _).mp hmem |>.2] at hdl
      cases hdl
  · intro j insj ℓ hmem hdl
    rcases mem_snoc_elim hmem with hmem | hmem
    · exact hinv.envLen j insj ℓ hmem hdl
    · rw [(Prod.mk.injEq _ _ _ _).mp hmem |>.2] at hdl
      cases hdl
  · intro j w insj hσ hmem
    rcases mem_snoc_elim hmem with hmem | hmem
    · obtain ⟨ℓ, hdl, hg, he⟩ := hinv.substOK j w insj hσ hmem
      exact ⟨ℓ, hdl, valGood_mono hg, he⟩
    · exfalso
      obtain ⟨hj, hins⟩ := (Prod.mk.injEq _ _ _ _).mp hmem
      rw [hj] at hσ
      rw [elimSub_none_of_nonload hwf hmemp rfl] at hσ
      cases hσ
  · intro loc v ht hlen
    rw [engineAt_snoc] at ht
    obtain ⟨hg, he⟩ := hinv.tknown loc v ht hlen
    exact ⟨valGood_mono hg, he⟩
  · intro loc ht hlen
    rw [engineAt_snoc] at ht
    exact hinv.tdflt loc ht hlen

/-- Step case: return of a reference. -/
theorem simStep_retRef {c : Ctx} {p done rest : Program} {id : Nat} {r : Ref}
    (hwf : wfProgram p = true) (hp : p = done ++ (id, Instr.retRef r) :: rest)
    {so st : SState} (hinv : SimInv c p done so st) :
    SimInv c p (done ++ [(id, Instr.retRef r)])
      (sstep c noMask noSub so (id, Instr.retRef r))
      (sstep c (maskOf p) (elimSub p) st (id, Instr.retRef r)) := by
  have hmemp : (id, Instr.retRef r) ∈ p := by
    rw [hp]
    exact List.mem_append_right _ (List.mem_cons_self _ _)
  have hmask : maskOf p id (Instr.retRef r) = false := by
    apply mask_plain_false hwf hmemp
    refine ⟨rfl, ?_, ?_⟩
    · intro h
      cases h
    · intro a h
      cases h
  rw [sstep_unmask hmask]
  show SimInv c p _ { so with robj := some (objOf c r) }
    { st with robj := some (objOf c r) }
  refine ⟨?_, ?_, ?_, hinv.heapAgree, hinv.escEq, hinv.snapsEq, hinv.rvalEq,
    by simp [hinv.robjEq], hinv.escSub, ?_, ?_⟩
  · intro j insj ℓ hmem hdl hmask'
    rcases mem_snoc_elim hmem with hmem | hmem
    · exact hinv.envAgree j insj ℓ hmem hdl hmask'
    · rw [(Prod.mk.injEq _ _ _ _).mp hmem |>.2] at hdl
      cases hdl
  · intro j insj ℓ hmem hdl
    rcases mem_snoc_elim hmem with hmem | hmem
    · exact hinv.envLen j insj ℓ hmem hdl
    · rw [(Prod.mk.injEq _ _ _ _).mp hmem |>.2] at hdl
      cases hdl
  · intro j w insj hσ hmem
    rcases mem_snoc_elim hmem with hmem | hmem
    · obtain ⟨ℓ, hdl, hg, he⟩ := hinv.substOK j w insj hσ hmem
      exact ⟨ℓ, hdl, valGood_mono hg, he⟩
    · exfalso
      obtain ⟨hj, hins⟩ := (Prod.mk.injEq _ _ _ _).mp hmem
      rw [hj] at hσ
      rw [elimSub_none_of_nonload hwf hmemp rfl] at hσ
      cases hσ
  · intro loc v ht hlen
    rw [engineAt_snoc] at ht
    obtain ⟨hg, he⟩ := hinv.tknown loc v ht hlen
    exact ⟨valGood_mono hg, he⟩
  · intro loc ht hlen
    rw [engineAt_snoc] at ht
    exact hinv.tdflt loc ht hlen

theorem sstep_newArr (c : Ctx) (σ : Nat → Option Val) (s : SState) (id : Nat) :
    sstep c noMask σ s (id, .newArr) =
    { s with heap := fun o a => if o = Sum.inr id then 0 else s.heap o a } := by
  simp [sstep, noMask]

theorem sstep_load (c : Ctx) (σ : Nat → Option Val) (s : SState) (id : Nat)
    (r : Ref) (idx : IdxExpr) :
    sstep c noMask σ s (id, .load r idx) =
    { s with env :=
        envSet s.env id (readVec s.heap (objOf c r) (evalIdx c.σv c.τv idx) 1) } := by
  simp [sstep, noMask]

theorem sstep_vload (c : Ctx) (σ : Nat → Option Val) (s : SState) (id : Nat)
    (r : Ref) (idx : IdxExpr) (len : Nat) :
    sstep c noMask σ s (id, .vload r idx len) =
    { s with env :=
        envSet s.env id (readVec s.heap (objOf c r) (evalIdx c.σv c.τv idx) len) } := by
  simp [sstep, noMask]

theorem sstep_store (c : Ctx) (σ : Nat → Option Val) (s : SState) (id : Nat)
    (r : Ref) (idx : IdxExpr) (v : Val) :
    sstep c noMask σ s (id, .store r idx v) =
    { s with heap :=
        (writeVec s.heap (objOf c r) (evalIdx c.σv c.τv idx) 1
          [evalScalar c s.env (applySub σ v)]) } := by
  simp [sstep, noMask]

theorem sstep_vstore (c : Ctx) (σ : Nat → Option Val) (s : SState) (id : Nat)
    (r : Ref) (idx : IdxExpr) (len : Nat) (v : Val) :
    sstep c noMask σ s (id, .vstore r idx len v) =
    { s with heap :=
        (writeVec s.heap (objOf c r) (evalIdx c.σv c.τv idx) len
          (evalVec c s.env len (applySub σ v))) } := by
  simp [sstep, noMask]

theorem sstep_call (c : Ctx) (σ : Nat → Option Val) (s : SState) (id : Nat)
    (args : List Ref) :
    sstep c noMask σ s (id, .call args) =
    { heap := fun o a => if clobObj (s.esc ++ args.map (objOf c)) o
                         then c.orl.heapv id (snapshot (s.esc ++ args.map (objOf c)) s.heap) o a
                         else s.heap o a,
      env := envSet s.env id [c.orl.retv id (snapshot (s.esc ++ args.map (objOf c)) s.heap)],
      esc := s.esc ++ args.map (objOf c),
      snaps := s.snaps ++ [(id, snapshot (s.esc ++ args.map (objOf c)) s.heap)],
      rval := s.rval,
      robj := s.robj } := by
  simp [sstep, noMask]

theorem sstep_retV (c : Ctx) (σ : Nat → Option Val) (s : SState) (id : Nat)
    (v : Val) :
    sstep c noMask σ s (id, .retV v) =
    { s with rval := some (evalScalar c s.env (applySub σ v)) } := by
  simp [sstep, noMask]

theorem sstep_retRef (c : Ctx) (σ : Nat → Option Val) (s : SState) (id : Nat)
    (r : Ref) :
    sstep c noMask σ s (id, .retRef r) =
    { s with robj := some (objOf c r) } := by
  simp [sstep, noMask]

/-- Step case: return of a value. -/
theorem simStep_retV {c : Ctx} {p done rest : Program} {id : Nat} {v : Val}
    (hwf : wfProgram p = true) (hp : p = done ++ (id, Instr.retV v) :: rest)
    {so st : SState} (hinv : SimInv c p done so st) :
    SimInv c p (done ++ [(id, Instr.retV v)])
      (sstep c noMask noSub so (id, Instr.retV v))
      (sstep c (maskOf p) (elimSub p) st (id, Instr.retV v)) := by
  have hmemp : (id, Instr.retV v) ∈ p := by
    rw [hp]
    exact List.mem_append_right _ (List.mem_cons_self _ _)
  have hmask : maskOf p id (Instr.retV v) = false := by
    apply mask_plain_false hwf hmemp
    refine ⟨rfl, ?_, ?_⟩
    · intro h
      cases h
    · intro a h
      cases h
  have hok : valOK p id 1 v = true := wf_instrOK hwf hmemp
  obtain ⟨halign, hso, hst, hgood, hlen⟩ := substEval hwf hp hinv hok
  rw [sstep_unmask hmask, sstep_retV, sstep_retV]
  have hrv : evalScalar c st.env (applySub (elimSub p) v) =
      evalScalar c so.env (applySub noSub v) := by
    rw [applySub_noSub, halign]
    rw [← evalVec_one_headI c st.env, ← evalVec_one_headI c so.env, hst]
  refine ⟨?_, ?_, ?_, hinv.heapAgree, hinv.escEq, hinv.snapsEq,
    by simp [hrv, hinv.rvalEq], hinv.robjEq, hinv.escSub, ?_, ?_⟩
  · intro j insj ℓ hmem hdl hmask'
    rcases mem_snoc_elim hmem with hmem | hmem
    · exact hinv.envAgree j insj ℓ hmem hdl hmask'
    · rw [(Prod.mk.injEq _ _ _ _).mp hmem |>.2] at hdl
      cases hdl
  · intro j insj ℓ hmem hdl
    rcases mem_snoc_elim hmem with hmem | hmem
    · exact hinv.envLen j insj ℓ hmem hdl
    · rw [(Prod.mk.injEq _ _ _ _).mp hmem |>.2] at hdl
      cases hdl
  · intro j w insj hσ hmem
    rcases mem_snoc_elim hmem with hmem | hmem
    · obtain ⟨ℓ, hdl, hg, he⟩ := hinv.substOK j w insj hσ hmem
      exact ⟨ℓ, hdl, valGood_mono hg, he⟩
    · exfalso
      obtain ⟨hj, hins⟩ := (Prod.mk.injEq _ _ _ _).mp hmem
      rw [hj] at hσ
      rw [elimSub_none_of_nonload hwf hmemp rfl] at hσ
      cases hσ
  · intro loc w ht hlenw
    rw [engineAt_snoc] at ht
    obtain ⟨hg, he⟩ := hinv.tknown loc w ht hlenw
    exact ⟨valGood_mono hg, he⟩
  · intro loc ht hlenw
    rw [engineAt_snoc] at ht
    exact hinv.tdflt loc ht hlenw

theorem readVec_const_zero {h : Obj → Nat → Int} {o : Obj} {base len : Nat}
    (hz : ∀ a, h o a = 0) : readVec h o base len = List.replicate len 0 := by
  unfold readVec
  rw [List.eq_replicate_iff]
  refine ⟨by simp, ?_⟩
  intro b hb
  obtain ⟨k, -, hk⟩ := List.mem_map.mp hb
  rw [← hk, hz]

/-- Step case: allocation. -/
theorem simStep_newArr {c : Ctx} {p done rest : Program} {id : Nat}
    (hwf : wfProgram p = true) (hp : p = done ++ (id, Instr.newArr) :: rest)
    {so st : SState} (hinv : SimInv c p done so st) :
    SimInv c p (done ++ [(id, Instr.newArr)])
      (sstep c noMask noSub so (id, Instr.newArr))
      (sstep c (maskOf p) (elimSub p) st (id, Instr.newArr)) := by
  have hmemp : (id, Instr.newArr) ∈ p := by
    rw [hp]
    exact List.mem_append_right _ (List.mem_cons_self _ _)
  have htab : (engineAt p (done ++ [(id, Instr.newArr)])).t =
      allocDflt id (engineAt p done).t := by
    rw [engineAt_snoc]
    rfl
  have henv : ∀ j insj ℓ', (j, insj) ∈ done ++ [(id, Instr.newArr)] →
      defLen insj = some ℓ' → (j, insj) ∈ done := by
    intro j insj ℓ' hmem hdl
    rcases mem_snoc_elim hmem with hmem | hmem
    · exact hmem
    · rw [(Prod.mk.injEq _ _ _ _).mp hmem |>.2] at hdl
      cases hdl
  have hcommon : ∀ (st' : SState),
      st'.env = st.env →
      (∀ o, ¬exemptObj p o → st'.heap o =
        (if o = Sum.inr id then (fun _ : Nat => (0:Int)) else so.heap o)) →
      st'.esc = st.esc → st'.snaps = st.snaps → st'.rval = st.rval →
      st'.robj = st.robj →
      SimInv c p (done ++ [(id, Instr.newArr)])
        { so with heap := fun o a => if o = Sum.inr id then 0 else so.heap o a }
        st' := by
    intro st' henv' hheap' hesc' hsnaps' hrval' hrobj'
    refine ⟨?_, ?_, ?_, ?_, by rw [hesc']; exact hinv.escEq,
      by rw [hsnaps']; exact hinv.snapsEq, by rw [hrval']; exact hinv.rvalEq,
      by rw [hrobj']; exact hinv.robjEq, hinv.escSub, ?_, ?_⟩
    · intro j insj ℓ hmem hdl hmask'
      rw [henv']
      exact hinv.envAgree j insj ℓ (henv j insj ℓ hmem hdl) hdl hmask'
    · intro j insj ℓ hmem hdl
      exact hinv.envLen j insj ℓ (henv j insj ℓ hmem hdl) hdl
    · intro j w insj hσ hmem
      rcases mem_snoc_elim hmem with hmem | hmem
      · obtain ⟨ℓ, hdl, hg, he⟩ := hinv.substOK j w insj hσ hmem
        exact ⟨ℓ, hdl, valGood_mono hg, he⟩
      · exfalso
        obtain ⟨hj, hins⟩ := (Prod.mk.injEq _ _ _ _).mp hmem
        rw [hj] at hσ
        rw [elimSub_none_of_nonload hwf hmemp rfl] at hσ
        cases hσ
    · intro o ho
      rw [hheap' o ho]
      funext a
      by_cases hoid : o = Sum.inr id
      · simp [hoid]
      · simp [hoid]
    · intro loc w ht hlenw
      rw [htab] at ht
      unfold allocDflt at ht
      by_cases hl : loc.ref = Ref.alloc id
      · rw [if_pos hl] at ht
        cases ht
      · rw [if_neg hl] at ht
        obtain ⟨hg, he⟩ := hinv.tknown loc w ht hlenw
        refine ⟨valGood_mono hg, ?_⟩
        rw [← he]
        apply readVec_heapCongr
        intro a
        show (if objOf c loc.ref = Sum.inr id then (0:Int) else so.heap (objOf c loc.ref) a) =
          so.heap (objOf c loc.ref) a
        rw [if_neg ?_]
        cases href : loc.ref with
        | par n => simp [objOf]
        | alloc k =>
            simp [objOf]
            intro hcon
            apply hl
            rw [href, hcon]
    · intro loc ht hlenw
      rw [htab] at ht
      unfold allocDflt at ht
      by_cases hl : loc.ref = Ref.alloc id
      · refine ⟨⟨id, hl⟩, ?_⟩
        rw [hl]
        apply readVec_const_zero
        intro a
        simp [objOf]
      · rw [if_neg hl] at ht
        obtain ⟨hex, he⟩ := hinv.tdflt loc ht hlenw
        refine ⟨hex, ?_⟩
        rw [← he]
        apply readVec_heapCongr
        intro a
        show (if objOf c loc.ref = Sum.inr id then (0:Int) else so.heap (objOf c loc.ref) a) =
          so.heap (objOf c loc.ref) a
        rw [if_neg ?_]
        cases href : loc.ref with
        | par n => simp [objOf]
        | alloc k =>
            simp [objOf]
            intro hcon
            apply hl
            rw [href, hcon]
  rw [sstep_newArr]
  cases hmask : maskOf p id Instr.newArr with
  | true =>
      rw [sstep_mask hmask]
      have hrem : removableAlloc p id = true := by
        unfold maskOf at hmask
        rcases Bool.or_eq_true_iff.mp hmask with h | h
        · exfalso
          obtain ⟨ins', hins', hacc⟩ := elim_removed_mem (of_decide_eq_true h)
          rw [mem_unique_id (wf_nodup hwf) hins' hmemp] at hacc
          cases hacc
        · exact h
      refine hcommon st rfl ?_ rfl rfl rfl rfl
      intro o ho
      have hne : o ≠ Sum.inr id := by
        intro hcon
        exact ho ⟨id, hcon, hrem⟩
      rw [if_neg hne]
      exact hinv.heapAgree o ho
  | false =>
      rw [sstep_unmask hmask, sstep_newArr]
      refine hcommon _ rfl ?_ rfl rfl rfl rfl
      intro o ho
      show (fun a => if o = Sum.inr id then (0:Int) else st.heap o a) = _
      by_cases hoid : o = Sum.inr id
      · rw [if_pos hoid]
        funext a
        simp [hoid]
      · rw [if_neg hoid]
        funext a
        show (if o = Sum.inr id then 0 else st.heap o a) = so.heap o a
        rw [if_neg hoid]
        exact congrFun (hinv.heapAgree o ho) a

/-- Step case helper: a scalar load the engine eliminates (known value or
default), with replacement value `vv`. -/
theorem simStep_load_removed {c : Ctx} {p done rest : Program} {id : Nat}
    {r : Ref} {idx : IdxExpr}
    (hwf : wfProgram p = true) (hp : p = done ++ (id, Instr.load r idx) :: rest)
    {so st : SState} (hinv : SimInv c p done so st) (vv : Val)
    (hstep_t : (estep (escapedRefs p) (engineAt p done) (id, Instr.load r idx)).t =
      (engineAt p done).t)
    (hstep_rm : id ∈ (estep (escapedRefs p) (engineAt p done) (id, Instr.load r idx)).removed)
    (hstep_sg : (estep (escapedRefs p) (engineAt p done) (id, Instr.load r idx)).σ id = some vv)
    (hgoodv : valGood p done vv)
    (hcells : readVec so.heap (objOf c r) (evalIdx c.σv c.τv idx) 1 =
      evalVec c so.env 1 vv) :
    SimInv c p (done ++ [(id, Instr.load r idx)])
      (sstep c noMask noSub so (id, Instr.load r idx))
      (sstep c (maskOf p) (elimSub p) st (id, Instr.load r idx)) := by
  obtain ⟨hlt, hgt⟩ := wf_split hwf hp
  have hmask : maskOf p id (Instr.load r idx) = true := by
    unfold maskOf
    rw [decide_eq_true ((final_removed_iff hwf hp).mpr hstep_rm)]
    exact Bool.true_or _
  have helimσ : elimSub p id = some vv := by
    have hrest_ne : ∀ q ∈ rest, q.1 ≠ id := fun q hq => by
      have := hgt q hq
      omega
    have heq : elimSub p id =
        (rest.foldl (estep (escapedRefs p))
          (estep (escapedRefs p) (engineAt p done) (id, Instr.load r idx))).σ id := by
      unfold elimSub elimState engineAt
      rw [hp, List.foldl_append, List.foldl_cons]
    rw [heq, foldl_estep_sigma (escapedRefs p) rest _ id hrest_ne, hstep_sg]
  rw [sstep_mask hmask, sstep_load]
  refine ⟨?_, ?_, ?_, hinv.heapAgree, hinv.escEq, hinv.snapsEq, hinv.rvalEq,
    hinv.robjEq, hinv.escSub, ?_, ?_⟩
  · intro j insj ℓ hmem hdl hmask'
    dsimp only
    rcases mem_snoc_elim hmem with hmem | hmem
    · have hj : j ≠ id := by
        have := hlt (j, insj) hmem
        omega
      rw [envSet_other _ hj]
      exact hinv.envAgree j insj ℓ hmem hdl hmask'
    · exfalso
      obtain ⟨hj, hins⟩ := (Prod.mk.injEq _ _ _ _).mp hmem
      rw [hj, hins] at hmask'
      rw [hmask] at hmask'
      cases hmask'
  · intro j insj ℓ hmem hdl
    dsimp only
    rcases mem_snoc_elim hmem with hmem | hmem
    · have hj : j ≠ id := by
        have := hlt (j, insj) hmem
        omega
      rw [envSet_other _ hj]
      exact hinv.envLen j insj ℓ hmem hdl
    · obtain ⟨hj, hins⟩ := (Prod.mk.injEq _ _ _ _).mp hmem
      rw [hins] at hdl
      have hl1 : ℓ = 1 := (Option.some.inj hdl).symm
      rw [hj, envSet_self, hl1]
      exact readVec_length _ _ _ _
  · intro j w insj hσ hmem
    dsimp only
    rcases mem_snoc_elim hmem with hmem | hmem
    · obtain ⟨ℓ, hdl, hg, he⟩ := hinv.substOK j w insj hσ hmem
      refine ⟨ℓ, hdl, valGood_mono hg, ?_⟩
      have hj : j ≠ id := by
        have := hlt (j, insj) hmem
        omega
      rw [evalVec_envSet_stable hg hlt, envSet_other _ hj]
      exact he
    · obtain ⟨hj, hins⟩ := (Prod.mk.injEq _ _ _ _).mp hmem
      rw [hj] at hσ
      rw [helimσ] at hσ
      have hw : w = vv := (Option.some.inj hσ).symm
      rw [hins, hw]
      refine ⟨1, rfl, valGood_mono hgoodv, ?_⟩
      rw [evalVec_envSet_stable hgoodv hlt, hj, envSet_self]
      exact hcells.symm
  · intro loc' v' ht' hlen'
    dsimp only
    rw [engineAt_snoc, hstep_t] at ht'
    obtain ⟨hg, he⟩ := hinv.tknown loc' v' ht' hlen'
    refine ⟨valGood_mono hg, ?_⟩
    rw [evalVec_envSet_stable hg hlt]
    exact he
  · intro loc' ht' hlen'
    rw [engineAt_snoc, hstep_t] at ht'
    exact hinv.tdflt loc' ht' hlen'

/-- Step case helper: a scalar load the engine retains. -/
theorem simStep_load_kept {c : Ctx} {p done rest : Program} {id : Nat}
    {r : Ref} {idx : IdxExpr}
    (hwf : wfProgram p = true) (hp : p = done ++ (id, Instr.load r idx) :: rest)
    {so st : SState} (hinv : SimInv c p done so st)
    (hstep : estep (escapedRefs p) (engineAt p done) (id, Instr.load r idx) =
      { engineAt p done with
        t := fun l => if l = ⟨r, idx, 1⟩ then .known (.reg id)
                      else (engineAt p done).t l }) :
    SimInv c p (done ++ [(id, Instr.load r idx)])
      (sstep c noMask noSub so (id, Instr.load r idx))
      (sstep c (maskOf p) (elimSub p) st (id, Instr.load r idx)) := by
  obtain ⟨hlt, hgt⟩ := wf_split hwf hp
  have hmemp : (id, Instr.load r idx) ∈ p := by
    rw [hp]
    exact List.mem_append_right _ (List.mem_cons_self _ _)
  have hnotrm : id ∉ (elimState p).removed := by
    intro hcon
    have := (final_removed_iff hwf hp).mp hcon
    rw [hstep] at this
    obtain ⟨ins', hins', -⟩ := engineAt_removed_mem this
    have := hlt (id, ins') hins'
    omega
  have hremfalse : ∀ i, r = Ref.alloc i → removableAlloc p i = false := by
    intro i hri
    cases hra : removableAlloc p i with
    | false => rfl
    | true =>
        exfalso
        rw [hri] at hmemp
        unfold removableAlloc at hra
        rw [Bool.and_eq_true] at hra
        have hall := List.all_eq_true.mp hra.2 (id, Instr.load (Ref.alloc i) idx) hmemp
        simp only [loadsRef, decide_eq_true_eq] at hall
        rcases Bool.or_eq_true_iff.mp hall with hc | hc
        · simp at hc
        · exact hnotrm (of_decide_eq_true hc)
  have hmask : maskOf p id (Instr.load r idx) = false := by
    unfold maskOf
    rw [decide_eq_false hnotrm, Bool.false_or]
    cases r with
    | par n => rfl
    | alloc i => exact hremfalse i rfl
  have hobjAgree : st.heap (objOf c r) = so.heap (objOf c r) := by
    apply hinv.heapAgree
    intro ⟨i, hoi, hrem⟩
    cases r with
    | par n => simp [objOf] at hoi
    | alloc i' =>
        simp [objOf] at hoi
        rw [← hoi] at hrem
        rw [hremfalse i' rfl] at hrem
        cases hrem
  have hsub_none : elimSub p id = none := by
    have hrest_ne : ∀ q ∈ rest, q.1 ≠ id := fun q hq => by
      have := hgt q hq
      omega
    have heq : elimSub p id =
        (rest.foldl (estep (escapedRefs p))
          (estep (escapedRefs p) (engineAt p done) (id, Instr.load r idx))).σ id := by
      unfold elimSub elimState engineAt
      rw [hp, List.foldl_append, List.foldl_cons]
    rw [heq, foldl_estep_sigma (escapedRefs p) rest _ id hrest_ne, hstep]
    show (engineAt p done).σ id = none
    apply engine_sigma_none
    intro q hq
    have := hlt q hq
    omega
  have hreads : readVec st.heap (objOf c r) (evalIdx c.σv c.τv idx) 1 =
      readVec so.heap (objOf c r) (evalIdx c.σv c.τv idx) 1 :=
    readVec_heapCongr (fun a => congrFun hobjAgree a)
  rw [sstep_unmask hmask, sstep_load, sstep_load]
  refine ⟨?_, ?_, ?_, hinv.heapAgree, hinv.escEq, hinv.snapsEq, hinv.rvalEq,
    hinv.robjEq, hinv.escSub, ?_, ?_⟩
  · intro j insj ℓ hmem hdl hmask'
    dsimp only
    rcases mem_snoc_elim hmem with hmem | hmem
    · have hj : j ≠ id := by
        have := hlt (j, insj) hmem
        omega
      rw [envSet_other _ hj, envSet_other _ hj]
      exact hinv.envAgree j insj ℓ hmem hdl hmask'
    · obtain ⟨hj, hins⟩ := (Prod.mk.injEq _ _ _ _).mp hmem
      rw [hj, envSet_self, envSet_self]
      exact hreads
  · intro j insj ℓ hmem hdl
    dsimp only
    rcases mem_snoc_elim hmem with hmem | hmem
    · have hj : j ≠ id := by
        have := hlt (j, insj) hmem
        omega
      rw [envSet_other _ hj]
      exact hinv.envLen j insj ℓ hmem hdl
    · obtain ⟨hj, hins⟩ := (Prod.mk.injEq _ _ _ _).mp hmem
      rw [hins] at hdl
      have hl1 : ℓ = 1 := (Option.some.inj hdl).symm
      rw [hj, envSet_self, hl1]
      exact readVec_length _ _ _ _
  · intro j w insj hσ hmem
    dsimp only
    rcases mem_snoc_elim hmem with hmem | hmem
    · obtain ⟨ℓ, hdl, hg, he⟩ := hinv.substOK j w insj hσ hmem
      refine ⟨ℓ, hdl, valGood_mono hg, ?_⟩
      have hj : j ≠ id := by
        have := hlt (j, insj) hmem
        omega
      rw [evalVec_envSet_stable hg hlt, envSet_other _ hj]
      exact he
    · exfalso
      obtain ⟨hj, hins⟩ := (Prod.mk.injEq _ _ _ _).mp hmem
      rw [hj, hsub_none] at hσ
      cases hσ
  · intro loc' v' ht' hlen'
    dsimp only
    rw [engineAt_snoc, hstep] at ht'
    dsimp only at ht'
    by_cases hl : loc' = (⟨r, idx, 1⟩ : Loc)
    · rw [if_pos hl] at ht'
      have hv' : v' = .reg id := (TVal.known.inj ht').symm
      subst hv'
      subst hl
      refine ⟨?_, ?_⟩
      · intro k hk
        have hk' : k = id := by
          simp at hk
          omega
        subst hk'
        exact ⟨Instr.load r idx, 1, List.mem_append_right _ (List.mem_cons_self _ _),
          hmask, rfl⟩
      · show readVec so.heap (objOf c r) (evalIdx c.σv c.τv idx) 1 =
          evalVec c (envSet so.env id (readVec so.heap (objOf c r) (evalIdx c.σv c.τv idx) 1)) 1 (.reg id)
        show readVec so.heap (objOf c r) (evalIdx c.σv c.τv idx) 1 =
          envSet so.env id (readVec so.heap (objOf c r) (evalIdx c.σv c.τv idx) 1) id
        rw [envSet_self]
    · rw [if_neg hl] at ht'
      obtain ⟨hg, he⟩ := hinv.tknown loc' v' ht' hlen'
      refine ⟨valGood_mono hg, ?_⟩
      rw [evalVec_envSet_stable hg hlt]
      exact he
  · intro loc' ht' hlen'
    rw [engineAt_snoc, hstep] at ht'
    dsimp only at ht'
    by_cases hl : loc' = (⟨r, idx, 1⟩ : Loc)
    · rw [if_pos hl] at ht'
      cases ht'
    · rw [if_neg hl] at ht'
      exact hinv.tdflt loc' ht' hlen'

/-- Step case: scalar load. -/
theorem simStep_load {c : Ctx} {p done rest : Program} {id : Nat} {r : Ref}
    {idx : IdxExpr}
    (hwf : wfProgram p = true) (hp : p = done ++ (id, Instr.load r idx) :: rest)
    {so st : SState} (hinv : SimInv c p done so st) :
    SimInv c p (done ++ [(id, Instr.load r idx)])
      (sstep c noMask noSub so (id, Instr.load r idx))
      (sstep c (maskOf p) (elimSub p) st (id, Instr.load r idx)) := by
  have h1W : (1 : Nat) ≤ W32 := by simp [W32]
  cases ht : (engineAt p done).t ⟨r, idx, 1⟩ with
  | known v =>
      obtain ⟨hg, he⟩ := hinv.tknown ⟨r, idx, 1⟩ v ht h1W
      apply simStep_load_removed hwf hp hinv v
      · simp [estep, ht]
      · simp [estep, ht]
      · simp [estep, ht]
      · exact hg
      · exact he
  | dflt =>
      obtain ⟨-, he⟩ := hinv.tdflt ⟨r, idx, 1⟩ ht h1W
      apply simStep_load_removed hwf hp hinv (.cst 0)
      · simp [estep, ht]
      · simp [estep, ht]
      · simp [estep, ht]
      · intro k hk
        cases hk
      · exact he
  | unknown =>
      apply simStep_load_kept hwf hp hinv
      simp [estep, ht]

/-- Step case helper: a vector load the engine removes (known value). -/
theorem simStep_vload_removed {c : Ctx} {p done rest : Program} {id len : Nat}
    {r : Ref} {idx : IdxExpr}
    (hwf : wfProgram p = true)
    (hp : p = done ++ (id, Instr.vload r idx len) :: rest)
    {so st : SState} (hinv : SimInv c p done so st) (vv : Val)
    (hstep_t : (estep (escapedRefs p) (engineAt p done) (id, Instr.vload r idx len)).t =
      (engineAt p done).t)
    (hstep_rm : id ∈ (estep (escapedRefs p) (engineAt p done) (id, Instr.vload r idx len)).removed)
    (hstep_sg : (estep (escapedRefs p) (engineAt p done) (id, Instr.vload r idx len)).σ id = some vv)
    (hgoodv : valGood p done vv)
    (hcells : readVec so.heap (objOf c r) (evalIdx c.σv c.τv idx) len =
      evalVec c so.env len vv) :
    SimInv c p (done ++ [(id, Instr.vload r idx len)])
      (sstep c noMask noSub so (id, Instr.vload r idx len))
      (sstep c (maskOf p) (elimSub p) st (id, Instr.vload r idx len)) := by
  obtain ⟨hlt, hgt⟩ := wf_split hwf hp
  have hmask : maskOf p id (Instr.vload r idx len) = true := by
    unfold maskOf
    rw [decide_eq_true ((final_removed_iff hwf hp).mpr hstep_rm)]
    exact Bool.true_or _
  have helimσ : elimSub p id = some vv := by
    have hrest_ne : ∀ q ∈ rest, q.1 ≠ id := fun q hq => by
      have := hgt q hq
      omega
    have heq : elimSub p id =
        (rest.foldl (estep (escapedRefs p))
          (estep (escapedRefs p) (engineAt p done) (id, Instr.vload r idx len))).σ id := by
      unfold elimSub elimState engineAt
      rw [hp, List.foldl_append, List.foldl_cons]
    rw [heq, foldl_estep_sigma (escapedRefs p) rest _ id hrest_ne, hstep_sg]
  rw [sstep_mask hmask, sstep_vload]
  refine ⟨?_, ?_, ?_, hinv.heapAgree, hinv.escEq, hinv.snapsEq, hinv.rvalEq,
    hinv.robjEq, hinv.escSub, ?_, ?_⟩
  · intro j insj ℓ hmem hdl hmask'
    dsimp only
    rcases mem_snoc_elim hmem with hmem | hmem
    · have hj : j ≠ id := by
        have := hlt (j, insj) hmem
        omega
      rw [envSet_other _ hj]
      exact hinv.envAgree j insj ℓ hmem hdl hmask'
    · exfalso
      obtain ⟨hj, hins⟩ := (Prod.mk.injEq _ _ _ _).mp hmem
      rw [hj, hins] at hmask'
      rw [hmask] at hmask'
      cases hmask'
  · intro j insj ℓ hmem hdl
    dsimp only
    rcases mem_snoc_elim hmem with hmem | hmem
    · have hj : j ≠ id := by
        have := hlt (j, insj) hmem
        omega
      rw [envSet_other _ hj]
      exact hinv.envLen j insj ℓ hmem hdl
    · obtain ⟨hj, hins⟩ := (Prod.mk.injEq _ _ _ _).mp hmem
      rw [hins] at hdl
      have hl1 : ℓ = len := (Option.some.inj hdl).symm
      rw [hj, envSet_self, hl1]
      exact readVec_length _ _ _ _
  · intro j w insj hσ hmem
    dsimp only
    rcases mem_snoc_elim hmem with hmem | hmem
    · obtain ⟨ℓ, hdl, hg, he⟩ := hinv.substOK j w insj hσ hmem
      refine ⟨ℓ, hdl, valGood_mono hg, ?_⟩
      have hj : j ≠ id := by
        have := hlt (j, insj) hmem
        omega
      rw [evalVec_envSet_stable hg hlt, envSet_other _ hj]
      exact he
    · obtain ⟨hj, hins⟩ := (Prod.mk.injEq _ _ _ _).mp hmem
      rw [hj] at hσ
      rw [helimσ] at hσ
      have hw : w = vv := (Option.some.inj hσ).symm
      rw [hins, hw]
      refine ⟨len, rfl, valGood_mono hgoodv, ?_⟩
      rw [evalVec_envSet_stable hgoodv hlt, hj, envSet_self]
      exact hcells.symm
  · intro loc' v' ht' hlen'
    dsimp only
    rw [engineAt_snoc, hstep_t] at ht'
    obtain ⟨hg, he⟩ := hinv.tknown loc' v' ht' hlen'
    refine ⟨valGood_mono hg, ?_⟩
    rw [evalVec_envSet_stable hg hlt]
    exact he
  · intro loc' ht' hlen'
    rw [engineAt_snoc, hstep_t] at ht'
    exact hinv.tdflt loc' ht' hlen'

/-- Step case helper: a vector load the engine retains (default or unknown
location value; spec §4.4 keeps vector loads at default-valued locations). -/
theorem simStep_vload_kept {c : Ctx} {p done rest : Program} {id len : Nat}
    {r : Ref} {idx : IdxExpr}
    (hwf : wfProgram p = true)
    (hp : p = done ++ (id, Instr.vload r idx len) :: rest)
    {so st : SState} (hinv : SimInv c p done so st)
    (hstep : estep (escapedRefs p) (engineAt p done) (id, Instr.vload r idx len) =
      { engineAt p done with
        t := fun l => if l = ⟨r, idx, len⟩ then .known (.reg id)
                      else (engineAt p done).t l }) :
    SimInv c p (done ++ [(id, Instr.vload r idx len)])
      (sstep c noMask noSub so (id, Instr.vload r idx len))
      (sstep c (maskOf p) (elimSub p) st (id, Instr.vload r idx len)) := by
  obtain ⟨hlt, hgt⟩ := wf_split hwf hp
  have hmemp : (id, Instr.vload r idx len) ∈ p := by
    rw [hp]
    exact List.mem_append_right _ (List.mem_cons_self _ _)
  have hnotrm : id ∉ (elimState p).removed := by
    intro hcon
    have := (final_removed_iff hwf hp).mp hcon
    rw [hstep] at this
    obtain ⟨ins', hins', -⟩ := engineAt_removed_mem this
    have := hlt (id, ins') hins'
    omega
  have hremfalse : ∀ i, r = Ref.alloc i → removableAlloc p i = false := by
    intro i hri
    cases hra : removableAlloc p i with
    | false => rfl
    | true =>
        exfalso
        rw [hri] at hmemp
        unfold removableAlloc at hra
        rw [Bool.and_eq_true] at hra
        have hall := List.all_eq_true.mp hra.2 (id, Instr.vload (Ref.alloc i) idx len) hmemp
        simp only [loadsRef, decide_eq_true_eq] at hall
        rcases Bool.or_eq_true_iff.mp hall with hc | hc
        · simp at hc
        · exact hnotrm (of_decide_eq_true hc)
  have hmask : maskOf p id (Instr.vload r idx len) = false := by
    unfold maskOf
    rw [decide_eq_false hnotrm, Bool.false_or]
    cases r with
    | par n => rfl
    | alloc i => exact hremfalse i rfl
  have hobjAgree : st.heap (objOf c r) = so.heap (objOf c r) := by
    apply hinv.heapAgree
    intro ⟨i, hoi, hrem⟩
    cases r with
    | par n => simp [objOf] at hoi
    | alloc i' =>
        simp [objOf] at hoi
        rw [← hoi] at hrem
        rw [hremfalse i' rfl] at hrem
        cases hrem
  have hsub_none : elimSub p id = none := by
    have hrest_ne : ∀ q ∈ rest, q.1 ≠ id := fun q hq => by
      have := hgt q hq
      omega
    have heq : elimSub p id =
        (rest.foldl (estep (escapedRefs p))
          (estep (escapedRefs p) (engineAt p done) (id, Instr.vload r idx len))).σ id := by
      unfold elimSub elimState engineAt
      rw [hp, List.foldl_append, List.foldl_cons]
    rw [heq, foldl_estep_sigma (escapedRefs p) rest _ id hrest_ne, hstep]
    show (engineAt p done).σ id = none
    apply engine_sigma_none
    intro q hq
    have := hlt q hq
    omega
  have hreads : readVec st.heap (objOf c r) (evalIdx c.σv c.τv idx) len =
      readVec so.heap (objOf c r) (evalIdx c.σv c.τv idx) len :=
    readVec_heapCongr (fun a => congrFun hobjAgree a)
  rw [sstep_unmask hmask, sstep_vload, sstep_vload]
  refine ⟨?_, ?_, ?_, hinv.heapAgree, hinv.escEq, hinv.snapsEq, hinv.rvalEq,
    hinv.robjEq, hinv.escSub, ?_, ?_⟩
  · intro j insj ℓ hmem hdl hmask'
    dsimp only
    rcases mem_snoc_elim hmem with hmem | hmem
    · have hj : j ≠ id := by
        have := hlt (j, insj) hmem
        omega
      rw [envSet_other _ hj, envSet_other _ hj]
      exact hinv.envAgree j insj ℓ hmem hdl hmask'
    · obtain ⟨hj, hins⟩ := (Prod.mk.injEq _ _ _ _).mp hmem
      rw [hj, envSet_self, envSet_self]
      exact hreads
  · intro j insj ℓ hmem hdl
    dsimp only
    rcases mem_snoc_elim hmem with hmem | hmem
    · have hj : j ≠ id := by
        have := hlt (j, insj) hmem
        omega
      rw [envSet_other _ hj]
      exact hinv.envLen j insj ℓ hmem hdl
    · obtain ⟨hj, hins⟩ := (Prod.mk.injEq _ _ _ _).mp hmem
      rw [hins] at hdl
      have hl1 : ℓ = len := (Option.some.inj hdl).symm
      rw [hj, envSet_self, hl1]
      exact readVec_length _ _ _ _
  · intro j w insj hσ hmem
    dsimp only
    rcases mem_snoc_elim hmem with hmem | hmem
    · obtain ⟨ℓ, hdl, hg, he⟩ := hinv.substOK j w insj hσ hmem
      refine ⟨ℓ, hdl, valGood_mono hg, ?_⟩
      have hj : j ≠ id := by
        have := hlt (j, insj) hmem
        omega
      rw [evalVec_envSet_stable hg hlt, envSet_other _ hj]
      exact he
    · exfalso
      obtain ⟨hj, hins⟩ := (Prod.mk.injEq _ _ _ _).mp hmem
      rw [hj, hsub_none] at hσ
      cases hσ
  · intro loc' v' ht' hlen'
    dsimp only
    rw [engineAt_snoc, hstep] at ht'
    dsimp only at ht'
    by_cases hl : loc' = (⟨r, idx, len⟩ : Loc)
    · rw [if_pos hl] at ht'
      have hv' : v' = .reg id := (TVal.known.inj ht').symm
      subst hv'
      subst hl
      refine ⟨?_, ?_⟩
      · intro k hk
        have hk' : k = id := by
          simp at hk
          omega
        subst hk'
        exact ⟨Instr.vload r idx len, len,
          List.mem_append_right _ (List.mem_cons_self _ _), hmask, rfl⟩
      · show readVec so.heap (objOf c r) (evalIdx c.σv c.τv idx) len =
          evalVec c (envSet so.env id (readVec so.heap (objOf c r) (evalIdx c.σv c.τv idx) len)) len (.reg id)
        show readVec so.heap (objOf c r) (evalIdx c.σv c.τv idx) len =
          envSet so.env id (readVec so.heap (objOf c r) (evalIdx c.σv c.τv idx) len) id
        rw [envSet_self]
    · rw [if_neg hl] at ht'
      obtain ⟨hg, he⟩ := hinv.tknown loc' v' ht' hlen'
      refine ⟨valGood_mono hg, ?_⟩
      rw [evalVec_envSet_stable hg hlt]
      exact he
  · intro loc' ht' hlen'
    rw [engineAt_snoc, hstep] at ht'
    dsimp only at ht'
    by_cases hl : loc' = (⟨r, idx, len⟩ : Loc)
    · rw [if_pos hl] at ht'
      cases ht'
    · rw [if_neg hl] at ht'
      exact hinv.tdflt loc' ht' hlen'

/-- Step case: vector load. -/
theorem simStep_vload {c : Ctx} {p done rest : Program} {id len : Nat}
    {r : Ref} {idx : IdxExpr}
    (hwf : wfProgram p = true)
    (hp : p = done ++ (id, Instr.vload r idx len) :: rest)
    {so st : SState} (hinv : SimInv c p done so st) :
    SimInv c p (done ++ [(id, Instr.vload r idx len)])
      (sstep c noMask noSub so (id, Instr.vload r idx len))
      (sstep c (maskOf p) (elimSub p) st (id, Instr.vload r idx len)) := by
  have hmemp : (id, Instr.vload r idx len) ∈ p := by
    rw [hp]
    exact List.mem_append_right _ (List.mem_cons_self _ _)
  have hok := wf_instrOK hwf hmemp
  simp only [instrOK, Bool.and_eq_true, decide_eq_true_eq] at hok
  cases ht : (engineAt p done).t ⟨r, idx, len⟩ with
  | known v =>
      obtain ⟨hg, he⟩ := hinv.tknown ⟨r, idx, len⟩ v ht hok.2
      apply simStep_vload_removed hwf hp hinv v
      · simp [estep, ht]
      · simp [estep, ht]
      · simp [estep, ht]
      · exact hg
      · exact he
  | dflt =>
      apply simStep_vload_kept hwf hp hinv
      simp [estep, ht]
  | unknown =>
      apply simStep_vload_kept hwf hp hinv
      simp [estep, ht]

theorem estep_store_eq (E : List Ref) (s : EState) (id : Nat) (r : Ref)
    (idx : IdxExpr) (v : Val) :
    estep E s (id, .store r idx v) =
    (if s.t ⟨r, idx, 1⟩ = .known (applySub s.σ v) ∨
        (s.t ⟨r, idx, 1⟩ = .dflt ∧ applySub s.σ v = .cst 0)
     then { s with removed := s.removed ++ [id] }
     else { s with t := invalSet s.t ⟨r, idx, 1⟩ (applySub s.σ v) }) := rfl

/-- Step case: scalar store. -/
theorem simStep_store {c : Ctx} {p done rest : Program} {id : Nat} {r : Ref}
    {idx : IdxExpr} {v : Val}
    (hwf : wfProgram p = true)
    (hp : p = done ++ (id, Instr.store r idx v) :: rest)
    {so st : SState} (hinv : SimInv c p done so st) :
    SimInv c p (done ++ [(id, Instr.store r idx v)])
      (sstep c noMask noSub so (id, Instr.store r idx v))
      (sstep c (maskOf p) (elimSub p) st (id, Instr.store r idx v)) := by
  obtain ⟨hlt, hgt⟩ := wf_split hwf hp
  have hmemp : (id, Instr.store r idx v) ∈ p := by
    rw [hp]
    exact List.mem_append_right _ (List.mem_cons_self _ _)
  have hok : valOK p id 1 v = true := wf_instrOK hwf hmemp
  obtain ⟨hsub_eq, hso_eval, hst_eval, hgood', hlenv⟩ := substEval hwf hp hinv hok
  have hlen1 : ∀ k, v = Val.reg k → (so.env k).length = 1 := by
    intro k hk
    subst hk
    exact hlenv
  have hv1 : evalVec c so.env 1 v = [evalScalar c so.env v] := evalVec_one hlen1
  have hscal : evalScalar c st.env (applySub (elimSub p) v) = evalScalar c so.env v := by
    rw [hsub_eq]
    have h1 := congrArg List.headI hst_eval
    rwa [evalVec_one_headI, evalVec_one_headI] at h1
  have hvals : [evalScalar c so.env v] =
      evalVec c so.env 1 (applySub (engineAt p done).σ v) := by
    rw [hso_eval, hv1]
  by_cases hc : (engineAt p done).t ⟨r, idx, 1⟩ =
        .known (applySub (engineAt p done).σ v) ∨
      ((engineAt p done).t ⟨r, idx, 1⟩ = .dflt ∧
        applySub (engineAt p done).σ v = .cst 0)
  · -- no-op store: removed by the engine
    have hstep : estep (escapedRefs p) (engineAt p done) (id, Instr.store r idx v) =
        { engineAt p done with removed := (engineAt p done).removed ++ [id] } := by
      rw [estep_store_eq, if_pos hc]
    have hrm : id ∈ (estep (escapedRefs p) (engineAt p done)
        (id, Instr.store r idx v)).removed := by
      rw [hstep]
      simp
    have hmask : maskOf p id (Instr.store r idx v) = true := by
      unfold maskOf
      rw [decide_eq_true ((final_removed_iff hwf hp).mpr hrm)]
      exact Bool.true_or _
    have hrd : readVec so.heap (objOf c r) (evalIdx c.σv c.τv idx) 1 =
        [evalScalar c so.env v] := by
      rcases hc with hk | ⟨hd, hz⟩
      · obtain ⟨-, he⟩ := hinv.tknown ⟨r, idx, 1⟩ _ hk (by simp [W32])
        have he' : readVec so.heap (objOf c r) (evalIdx c.σv c.τv idx) 1 =
            evalVec c so.env 1 (applySub (engineAt p done).σ v) := he
        rw [he', hso_eval, hv1]
      · obtain ⟨-, he⟩ := hinv.tdflt ⟨r, idx, 1⟩ hd (by simp [W32])
        have he' : readVec so.heap (objOf c r) (evalIdx c.σv c.τv idx) 1 =
            List.replicate 1 0 := he
        rw [he', ← hv1, ← hso_eval, hz]
        rfl
    have hso : sstep c noMask noSub so (id, Instr.store r idx v) = so := by
      rw [sstep_store]
      have hwn : writeVec so.heap (objOf c r) (evalIdx c.σv c.τv idx) 1
          [evalScalar c so.env (applySub noSub v)] = so.heap := by
        rw [applySub_noSub]
        exact writeVec_noop hrd
      rw [hwn]
    rw [sstep_mask hmask, hso]
    refine ⟨?_, ?_, ?_, hinv.heapAgree, hinv.escEq, hinv.snapsEq, hinv.rvalEq,
      hinv.robjEq, hinv.escSub, ?_, ?_⟩
    · intro j insj ℓ hmem hdl hmask'
      rcases mem_snoc_elim hmem with hmem | hmem
      · exact hinv.envAgree j insj ℓ hmem hdl hmask'
      · obtain ⟨hj, hins⟩ := (Prod.mk.injEq _ _ _ _).mp hmem
        rw [hins] at hdl
        cases hdl
    · intro j insj ℓ hmem hdl
      rcases mem_snoc_elim hmem with hmem | hmem
      · exact hinv.envLen j insj ℓ hmem hdl
      · obtain ⟨hj, hins⟩ := (Prod.mk.injEq _ _ _ _).mp hmem
        rw [hins] at hdl
        cases hdl
    · intro j w insj hσ hmem
      rcases mem_snoc_elim hmem with hmem | hmem
      · obtain ⟨ℓ, hdl, hg, he⟩ := hinv.substOK j w insj hσ hmem
        exact ⟨ℓ, hdl, valGood_mono hg, he⟩
      · exfalso
        obtain ⟨hj, hins⟩ := (Prod.mk.injEq _ _ _ _).mp hmem
        rw [hj, elimSub_none_of_nonload hwf hmemp rfl] at hσ
        cases hσ
    · intro loc' v' ht' hlen'
      rw [engineAt_snoc, hstep] at ht'
      obtain ⟨hg, he⟩ := hinv.tknown loc' v' ht' hlen'
      exact ⟨valGood_mono hg, he⟩
    · intro loc' ht' hlen'
      rw [engineAt_snoc, hstep] at ht'
      exact hinv.tdflt loc' ht' hlen'
  · -- retained store: the engine invalidates aliasing locations
    have hstep : estep (escapedRefs p) (engineAt p done) (id, Instr.store r idx v) =
        { engineAt p done with
          t := invalSet (engineAt p done).t ⟨r, idx, 1⟩
            (applySub (engineAt p done).σ v) } := by
      rw [estep_store_eq, if_neg hc]
    have hnotrm : id ∉ (elimState p).removed := by
      intro hcon
      have h2 := (final_removed_iff hwf hp).mp hcon
      rw [hstep] at h2
      obtain ⟨ins', hins', -⟩ := engineAt_removed_mem h2
      have := hlt (id, ins') hins'
      omega
    have hsub_id : elimSub p id = none := elimSub_none_of_nonload hwf hmemp rfl
    have hmaskv : maskOf p id (Instr.store r idx v) = (match r with
        | Ref.alloc i => removableAlloc p i
        | Ref.par _ => false) := by
      unfold maskOf
      rw [decide_eq_false hnotrm, Bool.false_or]
    have hsoheap : sstep c noMask noSub so (id, Instr.store r idx v) =
        { so with heap := (writeVec so.heap (objOf c r) (evalIdx c.σv c.τv idx) 1
            [evalScalar c so.env v]) } := by
      rw [sstep_store, applySub_noSub]
    have htknown : ∀ loc' v',
        (engineAt p (done ++ [(id, Instr.store r idx v)])).t loc' = .known v' →
        loc'.len ≤ W32 →
        valGood p (done ++ [(id, Instr.store r idx v)]) v' ∧
        readVec (writeVec so.heap (objOf c r) (evalIdx c.σv c.τv idx) 1
            [evalScalar c so.env v])
          (objOf c loc'.ref) (evalIdx c.σv c.τv loc'.idx) loc'.len =
          evalVec c so.env loc'.len v' := by
      intro loc' v' ht' hlen'
      rw [engineAt_snoc, hstep] at ht'
      dsimp only at ht'
      unfold invalSet at ht'
      by_cases hl : loc' = (⟨r, idx, 1⟩ : Loc)
      · rw [if_pos hl] at ht'
        have hv' : v' = applySub (engineAt p done).σ v := (TVal.known.inj ht').symm
        subst hv'
        refine ⟨valGood_mono hgood', ?_⟩
        subst hl
        show readVec (writeVec so.heap (objOf c r) (evalIdx c.σv c.τv idx) 1
            [evalScalar c so.env v]) (objOf c r) (evalIdx c.σv c.τv idx) 1 =
          evalVec c so.env 1 (applySub (engineAt p done).σ v)
        have hrws : readVec (writeVec so.heap (objOf c r) (evalIdx c.σv c.τv idx) 1
            [evalScalar c so.env v]) (objOf c r) (evalIdx c.σv c.τv idx) 1 =
            [evalScalar c so.env v] := readVec_writeVec_same (by simp [W32]) rfl
        rw [hrws]
        exact hvals
      · rw [if_neg hl] at ht'
        by_cases hma : locMayAlias loc' ⟨r, idx, 1⟩ = true
        · rw [if_pos hma] at ht'
          cases ht'
        · rw [if_neg hma] at ht'
          have hma' : locMayAlias loc' ⟨r, idx, 1⟩ = false := Bool.eq_false_iff.mpr hma
          obtain ⟨hg, he⟩ := hinv.tknown loc' v' ht' hlen'
          refine ⟨valGood_mono hg, ?_⟩
          have hdis' : objOf c loc'.ref ≠ objOf c r ∨
              ∀ k1 k2, k1 < loc'.len → k2 < 1 →
                (evalIdx c.σv c.τv loc'.idx + k1) % W32 ≠
                  (evalIdx c.σv c.τv idx + k2) % W32 :=
            locMayAlias_semantic c hma' hlen' (by simp [W32])
          rw [readVec_writeVec_disjoint hdis']
          exact he
    have htdflt : ∀ loc',
        (engineAt p (done ++ [(id, Instr.store r idx v)])).t loc' = .dflt →
        loc'.len ≤ W32 →
        (∃ i, loc'.ref = Ref.alloc i) ∧
        readVec (writeVec so.heap (objOf c r) (evalIdx c.σv c.τv idx) 1
            [evalScalar c so.env v])
          (objOf c loc'.ref) (evalIdx c.σv c.τv loc'.idx) loc'.len =
          List.replicate loc'.len 0 := by
      intro loc' ht' hlen'
      rw [engineAt_snoc, hstep] at ht'
      dsimp only at ht'
      unfold invalSet at ht'
      by_cases hl : loc' = (⟨r, idx, 1⟩ : Loc)
      · rw [if_pos hl] at ht'
        cases ht'
      · rw [if_neg hl] at ht'
        by_cases hma : locMayAlias loc' ⟨r, idx, 1⟩ = true
        · rw [if_pos hma] at ht'
          cases ht'
        · rw [if_neg hma] at ht'
          have hma' : locMayAlias loc' ⟨r, idx, 1⟩ = false := Bool.eq_false_iff.mpr hma
          obtain ⟨hex, he⟩ := hinv.tdflt loc' ht' hlen'
          have hdis' : objOf c loc'.ref ≠ objOf c r ∨
              ∀ k1 k2, k1 < loc'.len → k2 < 1 →
                (evalIdx c.σv c.τv loc'.idx + k1) % W32 ≠
                  (evalIdx c.σv c.τv idx + k2) % W32 :=
            locMayAlias_semantic c hma' hlen' (by simp [W32])
          refine ⟨hex, ?_⟩
          rw [readVec_writeVec_disjoint hdis']
          exact he
    cases hsw : (match r with
        | Ref.alloc i => removableAlloc p i
        | Ref.par _ => false) with
    | true =>
        have hmask : maskOf p id (Instr.store r idx v) = true := hmaskv.trans hsw
        have hexobj : exemptObj p (objOf c r) := by
          cases r with
          | par n => exact Bool.noConfusion hsw
          | alloc i => exact ⟨i, rfl, hsw⟩
        rw [sstep_mask hmask, hsoheap]
        refine ⟨?_, ?_, ?_, ?_, hinv.escEq, hinv.snapsEq, hinv.rvalEq,
          hinv.robjEq, hinv.escSub, htknown, htdflt⟩
        · intro j insj ℓ hmem hdl hmask'
          rcases mem_snoc_elim hmem with hmem | hmem
          · exact hinv.envAgree j insj ℓ hmem hdl hmask'
          · obtain ⟨hj, hins⟩ := (Prod.mk.injEq _ _ _ _).mp hmem
            rw [hins] at hdl
            cases hdl
        · intro j insj ℓ hmem hdl
          rcases mem_snoc_elim hmem with hmem | hmem
          · exact hinv.envLen j insj ℓ hmem hdl
          · obtain ⟨hj, hins⟩ := (Prod.mk.injEq _ _ _ _).mp hmem
            rw [hins] at hdl
            cases hdl
        · intro j w insj hσ hmem
          rcases mem_snoc_elim hmem with hmem | hmem
          · obtain ⟨ℓ, hdl, hg, he⟩ := hinv.substOK j w insj hσ hmem
            exact ⟨ℓ, hdl, valGood_mono hg, he⟩
          · exfalso
            obtain ⟨hj, hins⟩ := (Prod.mk.injEq _ _ _ _).mp hmem
            rw [hj, hsub_id] at hσ
            cases hσ
        · intro o ho
          dsimp only
          have hne : o ≠ objOf c r := fun h => ho (h ▸ hexobj)
          funext a
          rw [writeVec_other hne]
          exact congrFun (hinv.heapAgree o ho) a
    | false =>
        have hmask : maskOf p id (Instr.store r idx v) = false := hmaskv.trans hsw
        rw [sstep_unmask hmask, hsoheap, sstep_store]
        refine ⟨?_, ?_, ?_, ?_, hinv.escEq, hinv.snapsEq, hinv.rvalEq,
          hinv.robjEq, hinv.escSub, htknown, htdflt⟩
        · intro j insj ℓ hmem hdl hmask'
          dsimp only
          rcases mem_snoc_elim hmem with hmem | hmem
          · exact hinv.envAgree j insj ℓ hmem hdl hmask'
          · obtain ⟨hj, hins⟩ := (Prod.mk.injEq _ _ _ _).mp hmem
            rw [hins] at hdl
            cases hdl
        · intro j insj ℓ hmem hdl
          dsimp only
          rcases mem_snoc_elim hmem with hmem | hmem
          · exact hinv.envLen j insj ℓ hmem hdl
          · obtain ⟨hj, hins⟩ := (Prod.mk.injEq _ _ _ _).mp hmem
            rw [hins] at hdl
            cases hdl
        · intro j w insj hσ hmem
          dsimp only
          rcases mem_snoc_elim hmem with hmem | hmem
          · obtain ⟨ℓ, hdl, hg, he⟩ := hinv.substOK j w insj hσ hmem
            exact ⟨ℓ, hdl, valGood_mono hg, he⟩
          · exfalso
            obtain ⟨hj, hins⟩ := (Prod.mk.injEq _ _ _ _).mp hmem
            rw [hj, hsub_id] at hσ
            cases hσ
        · intro o ho
          dsimp only
          funext a
          rw [hscal]
          exact writeVec_ptCongr (congrFun (hinv.heapAgree o ho) a)

theorem estep_vstore_eq (E : List Ref) (s : EState) (id len : Nat) (r : Ref)
    (idx : IdxExpr) (v : Val) :
    estep E s (id, .vstore r idx len v) =
    (if s.t ⟨r, idx, len⟩ = .known (applySub s.σ v) ∨
        (s.t ⟨r, idx, len⟩ = .dflt ∧ applySub s.σ v = .cst 0)
     then { s with removed := s.removed ++ [id] }
     else { s with t := invalSet s.t ⟨r, idx, len⟩ (applySub s.σ v) }) := rfl

/-- Step case: vector store. -/
theorem simStep_vstore {c : Ctx} {p done rest : Program} {id len : Nat}
    {r : Ref} {idx : IdxExpr} {v : Val}
    (hwf : wfProgram p = true)
    (hp : p = done ++ (id, Instr.vstore r idx len v) :: rest)
    {so st : SState} (hinv : SimInv c p done so st) :
    SimInv c p (done ++ [(id, Instr.vstore r idx len v)])
      (sstep c noMask noSub so (id, Instr.vstore r idx len v))
      (sstep c (maskOf p) (elimSub p) st (id, Instr.vstore r idx len v)) := by
  obtain ⟨hlt, hgt⟩ := wf_split hwf hp
  have hmemp : (id, Instr.vstore r idx len v) ∈ p := by
    rw [hp]
    exact List.mem_append_right _ (List.mem_cons_self _ _)
  have hok0 := wf_instrOK hwf hmemp
  simp only [instrOK, Bool.and_eq_true, decide_eq_true_eq] at hok0
  obtain ⟨⟨hpos, hlenW⟩, hok⟩ := hok0
  obtain ⟨hsub_eq, hso_eval, hst_eval, hgood', hlenv⟩ := substEval hwf hp hinv hok
  have hvalsT : evalVec c st.env len (applySub (elimSub p) v) =
      evalVec c so.env len v := by
    rw [hsub_eq]
    exact hst_eval
  by_cases hc : (engineAt p done).t ⟨r, idx, len⟩ =
        .known (applySub (engineAt p done).σ v) ∨
      ((engineAt p done).t ⟨r, idx, len⟩ = .dflt ∧
        applySub (engineAt p done).σ v = .cst 0)
  · -- no-op vector store: removed by the engine
    have hstep : estep (escapedRefs p) (engineAt p done) (id, Instr.vstore r idx len v) =
        { engineAt p done with removed := (engineAt p done).removed ++ [id] } := by
      rw [estep_vstore_eq, if_pos hc]
    have hrm : id ∈ (estep (escapedRefs p) (engineAt p done)
        (id, Instr.vstore r idx len v)).removed := by
      rw [hstep]
      simp
    have hmask : maskOf p id (Instr.vstore r idx len v) = true := by
      unfold maskOf
      rw [decide_eq_true ((final_removed_iff hwf hp).mpr hrm)]
      exact Bool.true_or _
    have hrd : readVec so.heap (objOf c r) (evalIdx c.σv c.τv idx) len =
        evalVec c so.env len v := by
      rcases hc with hk | ⟨hd, hz⟩
      · obtain ⟨-, he⟩ := hinv.tknown ⟨r, idx, len⟩ _ hk hlenW
        have he' : readVec so.heap (objOf c r) (evalIdx c.σv c.τv idx) len =
            evalVec c so.env len (applySub (engineAt p done).σ v) := he
        rw [he', hso_eval]
      · obtain ⟨-, he⟩ := hinv.tdflt ⟨r, idx, len⟩ hd hlenW
        have he' : readVec so.heap (objOf c r) (evalIdx c.σv c.τv idx) len =
            List.replicate len 0 := he
        rw [he', ← hso_eval, hz]
        rfl
    have hso : sstep c noMask noSub so (id, Instr.vstore r idx len v) = so := by
      rw [sstep_vstore]
      have hwn : writeVec so.heap (objOf c r) (evalIdx c.σv c.τv idx) len
          (evalVec c so.env len (applySub noSub v)) = so.heap := by
        rw [applySub_noSub]
        exact writeVec_noop hrd
      rw [hwn]
    rw [sstep_mask hmask, hso]
    refine ⟨?_, ?_, ?_, hinv.heapAgree, hinv.escEq, hinv.snapsEq, hinv.rvalEq,
      hinv.robjEq, hinv.escSub, ?_, ?_⟩
    · intro j insj ℓ hmem hdl hmask'
      rcases mem_snoc_elim hmem with hmem | hmem
      · exact hinv.envAgree j insj ℓ hmem hdl hmask'
      · obtain ⟨hj, hins⟩ := (Prod.mk.injEq _ _ _ _).mp hmem
        rw [hins] at hdl
        cases hdl
    · intro j insj ℓ hmem hdl
      rcases mem_snoc_elim hmem with hmem | hmem
      · exact hinv.envLen j insj ℓ hmem hdl
      · obtain ⟨hj, hins⟩ := (Prod.mk.injEq _ _ _ _).mp hmem
        rw [hins] at hdl
        cases hdl
    · intro j w insj hσ hmem
      rcases mem_snoc_elim hmem with hmem | hmem
      · obtain ⟨ℓ, hdl, hg, he⟩ := hinv.substOK j w insj hσ hmem
        exact ⟨ℓ, hdl, valGood_mono hg, he⟩
      · exfalso
        obtain ⟨hj, hins⟩ := (Prod.mk.injEq _ _ _ _).mp hmem
        rw [hj, elimSub_none_of_nonload hwf hmemp rfl] at hσ
        cases hσ
    · intro loc' v' ht' hlen'
      rw [engineAt_snoc, hstep] at ht'
      obtain ⟨hg, he⟩ := hinv.tknown loc' v' ht' hlen'
      exact ⟨valGood_mono hg, he⟩
    · intro loc' ht' hlen'
      rw [engineAt_snoc, hstep] at ht'
      exact hinv.tdflt loc' ht' hlen'
  · -- retained vector store
    have hstep : estep (escapedRefs p) (engineAt p done) (id, Instr.vstore r idx len v) =
        { engineAt p done with
          t := invalSet (engineAt p done).t ⟨r, idx, len⟩
            (applySub (engineAt p done).σ v) } := by
      rw [estep_vstore_eq, if_neg hc]
    have hnotrm : id ∉ (elimState p).removed := by
      intro hcon
      have h2 := (final_removed_iff hwf hp).mp hcon
      rw [hstep] at h2
      obtain ⟨ins', hins', -⟩ := engineAt_removed_mem h2
      have := hlt (id, ins') hins'
      omega
    have hsub_id : elimSub p id = none := elimSub_none_of_nonload hwf hmemp rfl
    have hmaskv : maskOf p id (Instr.vstore r idx len v) = (match r with
        | Ref.alloc i => removableAlloc p i
        | Ref.par _ => false) := by
      unfold maskOf
      rw [decide_eq_false hnotrm, Bool.false_or]
    have hsoheap : sstep c noMask noSub so (id, Instr.vstore r idx len v) =
        { so with heap := (writeVec so.heap (objOf c r) (evalIdx c.σv c.τv idx) len
            (evalVec c so.env len v)) } := by
      rw [sstep_vstore, applySub_noSub]
    have htknown : ∀ loc' v',
        (engineAt p (done ++ [(id, Instr.vstore r idx len v)])).t loc' = .known v' →
        loc'.len ≤ W32 →
        valGood p (done ++ [(id, Instr.vstore r idx len v)]) v' ∧
        readVec (writeVec so.heap (objOf c r) (evalIdx c.σv c.τv idx) len
            (evalVec c so.env len v))
          (objOf c loc'.ref) (evalIdx c.σv c.τv loc'.idx) loc'.len =
          evalVec c so.env loc'.len v' := by
      intro loc' v' ht' hlen'
      rw [engineAt_snoc, hstep] at ht'
      dsimp only at ht'
      unfold invalSet at ht'
      by_cases hl : loc' = (⟨r, idx, len⟩ : Loc)
      · rw [if_pos hl] at ht'
        have hv' : v' = applySub (engineAt p done).σ v := (TVal.known.inj ht').symm
        subst hv'
        refine ⟨valGood_mono hgood', ?_⟩
        subst hl
        show readVec (writeVec so.heap (objOf c r) (evalIdx c.σv c.τv idx) len
            (evalVec c so.env len v)) (objOf c r) (evalIdx c.σv c.τv idx) len =
          evalVec c so.env len (applySub (engineAt p done).σ v)
        have hrws : readVec (writeVec so.heap (objOf c r) (evalIdx c.σv c.τv idx) len
            (evalVec c so.env len v)) (objOf c r) (evalIdx c.σv c.τv idx) len =
            evalVec c so.env len v := readVec_writeVec_same hlenW hlenv
        rw [hrws]
        exact hso_eval.symm
      · rw [if_neg hl] at ht'
        by_cases hma : locMayAlias loc' ⟨r, idx, len⟩ = true
        · rw [if_pos hma] at ht'
          cases ht'
        · rw [if_neg hma] at ht'
          have hma' : locMayAlias loc' ⟨r, idx, len⟩ = false := Bool.eq_false_iff.mpr hma
          obtain ⟨hg, he⟩ := hinv.tknown loc' v' ht' hlen'
          refine ⟨valGood_mono hg, ?_⟩
          have hdis' : objOf c loc'.ref ≠ objOf c r ∨
              ∀ k1 k2, k1 < loc'.len → k2 < len →
                (evalIdx c.σv c.τv loc'.idx + k1) % W32 ≠
                  (evalIdx c.σv c.τv idx + k2) % W32 :=
            locMayAlias_semantic c hma' hlen' hlenW
          rw [readVec_writeVec_disjoint hdis']
          exact he
    have htdflt : ∀ loc',
        (engineAt p (done ++ [(id, Instr.vstore r idx len v)])).t loc' = .dflt →
        loc'.len ≤ W32 →
        (∃ i, loc'.ref = Ref.alloc i) ∧
        readVec (writeVec so.heap (objOf c r) (evalIdx c.σv c.τv idx) len
            (evalVec c so.env len v))
          (objOf c loc'.ref) (evalIdx c.σv c.τv loc'.idx) loc'.len =
          List.replicate loc'.len 0 := by
      intro loc' ht' hlen'
      rw [engineAt_snoc, hstep] at ht'
      dsimp only at ht'
      unfold invalSet at ht'
      by_cases hl : loc' = (⟨r, idx, len⟩ : Loc)
      · rw [if_pos hl] at ht'
        cases ht'
      · rw [if_neg hl] at ht'
        by_cases hma : locMayAlias loc' ⟨r, idx, len⟩ = true
        · rw [if_pos hma] at ht'
          cases ht'
        · rw [if_neg hma] at ht'
          have hma' : locMayAlias loc' ⟨r, idx, len⟩ = false := Bool.eq_false_iff.mpr hma
          obtain ⟨hex, he⟩ := hinv.tdflt loc' ht' hlen'
          have hdis' : objOf c loc'.ref ≠ objOf c r ∨
              ∀ k1 k2, k1 < loc'.len → k2 < len →
                (evalIdx c.σv c.τv loc'.idx + k1) % W32 ≠
                  (evalIdx c.σv c.τv idx + k2) % W32 :=
            locMayAlias_semantic c hma' hlen' hlenW
          refine ⟨hex, ?_⟩
          rw [readVec_writeVec_disjoint hdis']
          exact he
    cases hsw : (match r with
        | Ref.alloc i => removableAlloc p i
        | Ref.par _ => false) with
    | true =>
        have hmask : maskOf p id (Instr.vstore r idx len v) = true := hmaskv.trans hsw
        have hexobj : exemptObj p (objOf c r) := by
          cases r with
          | par n => exact Bool.noConfusion hsw
          | alloc i => exact ⟨i, rfl, hsw⟩
        rw [sstep_mask hmask, hsoheap]
        refine ⟨?_, ?_, ?_, ?_, hinv.escEq, hinv.snapsEq, hinv.rvalEq,
          hinv.robjEq, hinv.escSub, htknown, htdflt⟩
        · intro j insj ℓ hmem hdl hmask'
          rcases mem_snoc_elim hmem with hmem | hmem
          · exact hinv.envAgree j insj ℓ hmem hdl hmask'
          · obtain ⟨hj, hins⟩ := (Prod.mk.injEq _ _ _ _).mp hmem
            rw [hins] at hdl
            cases hdl
        · intro j insj ℓ hmem hdl
          rcases mem_snoc_elim hmem with hmem | hmem
          · exact hinv.envLen j insj ℓ hmem hdl
          · obtain ⟨hj, hins⟩ := (Prod.mk.injEq _ _ _ _).mp hmem
            rw [hins] at hdl
            cases hdl
        · intro j w insj hσ hmem
          rcases mem_snoc_elim hmem with hmem | hmem
          · obtain ⟨ℓ, hdl, hg, he⟩ := hinv.substOK j w insj hσ hmem
            exact ⟨ℓ, hdl, valGood_mono hg, he⟩
          · exfalso
            obtain ⟨hj, hins⟩ := (Prod.mk.injEq _ _ _ _).mp hmem
            rw [hj, hsub_id] at hσ
            cases hσ
        · intro o ho
          dsimp only
          have hne : o ≠ objOf c r := fun h => ho (h ▸ hexobj)
          funext a
          rw [writeVec_other hne]
          exact congrFun (hinv.heapAgree o ho) a
    | false =>
        have hmask : maskOf p id (Instr.vstore r idx len v) = false := hmaskv.trans hsw
        rw [sstep_unmask hmask, hsoheap, sstep_vstore]
        refine ⟨?_, ?_, ?_, ?_, hinv.escEq, hinv.snapsEq, hinv.rvalEq,
          hinv.robjEq, hinv.escSub, htknown, htdflt⟩
        · intro j insj ℓ hmem hdl hmask'
          dsimp only
          rcases mem_snoc_elim hmem with hmem | hmem
          · exact hinv.envAgree j insj ℓ hmem hdl hmask'
          · obtain ⟨hj, hins⟩ := (Prod.mk.injEq _ _ _ _).mp hmem
            rw [hins] at hdl
            cases hdl
        · intro j insj ℓ hmem hdl
          dsimp only
          rcases mem_snoc_elim hmem with hmem | hmem
          · exact hinv.envLen j insj ℓ hmem hdl
          · obtain ⟨hj, hins⟩ := (Prod.mk.injEq _ _ _ _).mp hmem
            rw [hins] at hdl
            cases hdl
        · intro j w insj hσ hmem
          dsimp only
          rcases mem_snoc_elim hmem with hmem | hmem
          · obtain ⟨ℓ, hdl, hg, he⟩ := hinv.substOK j w insj hσ hmem
            exact ⟨ℓ, hdl, valGood_mono hg, he⟩
          · exfalso
            obtain ⟨hj, hins⟩ := (Prod.mk.injEq _ _ _ _).mp hmem
            rw [hj, hsub_id] at hσ
            cases hσ
        · intro o ho
          dsimp only
          funext a
          rw [hvalsT]
          exact writeVec_ptCongr (congrFun (hinv.heapAgree o ho) a)

theorem exempt_not_escaped {p : Program} {i : Nat}
    (h : removableAlloc p i = true) : Ref.alloc i ∉ escapedRefs p := by
  unfold removableAlloc at h
  simp only [Bool.and_eq_true, Bool.not_eq_true', decide_eq_false_iff_not] at h
  exact h.1.1.2

/-- Step case: opaque call. -/
theorem simStep_call {c : Ctx} {p done rest : Program} {id : Nat}
    {args : List Ref}
    (hwf : wfProgram p = true)
    (hp : p = done ++ (id, Instr.call args) :: rest)
    {so st : SState} (hinv : SimInv c p done so st) :
    SimInv c p (done ++ [(id, Instr.call args)])
      (sstep c noMask noSub so (id, Instr.call args))
      (sstep c (maskOf p) (elimSub p) st (id, Instr.call args)) := by
  obtain ⟨hlt, hgt⟩ := wf_split hwf hp
  have hmemp : (id, Instr.call args) ∈ p := by
    rw [hp]
    exact List.mem_append_right _ (List.mem_cons_self _ _)
  have hstep : estep (escapedRefs p) (engineAt p done) (id, Instr.call args) =
      { engineAt p done with
        t := invalCall (escapedRefs p) (engineAt p done).t } := rfl
  have hnotrm : id ∉ (elimState p).removed := by
    intro hcon
    have h2 := (final_removed_iff hwf hp).mp hcon
    rw [hstep] at h2
    obtain ⟨ins', hins', -⟩ := engineAt_removed_mem h2
    have := hlt (id, ins') hins'
    omega
  have hmask : maskOf p id (Instr.call args) = false := by
    unfold maskOf
    rw [decide_eq_false hnotrm, Bool.false_or]
  have hsub_id : elimSub p id = none := elimSub_none_of_nonload hwf hmemp rfl
  have hescSub' : ∀ o ∈ so.esc ++ args.map (objOf c),
      (∃ n, o = Sum.inl n) ∨ ∃ i, o = Sum.inr i ∧ Ref.alloc i ∈ escapedRefs p := by
    intro o ho
    rcases List.mem_append.mp ho with ho | ho
    · exact hinv.escSub o ho
    · obtain ⟨rr, hrr, hor⟩ := List.mem_map.mp ho
      cases rr with
      | par n => exact Or.inl ⟨c.πv n, hor.symm⟩
      | alloc i => exact Or.inr ⟨i, hor.symm, escapedRefs_mem hmemp hrr⟩
  have hescNE : ∀ o, clobObj (so.esc ++ args.map (objOf c)) o = true →
      ¬exemptObj p o := by
    intro o hco hex
    obtain ⟨i, hoi, hrem⟩ := hex
    subst hoi
    simp only [clobObj, List.any_eq_true, decide_eq_true_eq] at hco
    obtain ⟨o', ho', he⟩ := hco
    rcases hescSub' o' ho' with ⟨n, hn⟩ | ⟨i', hi', hesc⟩
    · rw [hn] at he
      cases he
    · rw [hi'] at he
      have hii : i' = i := Sum.inr.inj he
      exact exempt_not_escaped hrem (hii ▸ hesc)
  have hheapEsc : ∀ o, clobObj (so.esc ++ args.map (objOf c)) o = true →
      st.heap o = so.heap o := by
    intro o hco
    exact hinv.heapAgree o (hescNE o hco)
  have hsnap : snapshot (so.esc ++ args.map (objOf c)) st.heap =
      snapshot (so.esc ++ args.map (objOf c)) so.heap := by
    funext o a
    unfold snapshot
    by_cases hco : clobObj (so.esc ++ args.map (objOf c)) o = true
    · rw [if_pos hco, if_pos hco, congrFun (hheapEsc o hco) a]
    · rw [if_neg hco, if_neg hco]
  have hclobF : ∀ rr, clobberedRef (escapedRefs p) rr = false →
      clobObj (so.esc ++ args.map (objOf c)) (objOf c rr) = false := by
    intro rr hcr
    cases rr with
    | par n => simp [clobberedRef, Ref.isParam] at hcr
    | alloc i =>
        simp only [clobberedRef, Ref.isParam, Bool.false_or,
          decide_eq_false_iff_not] at hcr
        cases hcb : clobObj (so.esc ++ args.map (objOf c)) (objOf c (Ref.alloc i)) with
        | false => rfl
        | true =>
            exfalso
            simp only [objOf, clobObj, List.any_eq_true, decide_eq_true_eq] at hcb
            obtain ⟨o', ho', he⟩ := hcb
            rcases hescSub' o' ho' with ⟨n, hn⟩ | ⟨i', hi', hesc⟩
            · rw [hn] at he
              cases he
            · rw [hi'] at he
              have hii : i' = i := Sum.inr.inj he
              exact hcr (hii ▸ hesc)
  rw [sstep_unmask hmask, sstep_call, sstep_call, hinv.escEq, hsnap,
    hinv.snapsEq, hinv.rvalEq, hinv.robjEq]
  refine ⟨?_, ?_, ?_, ?_, rfl, rfl, rfl, rfl, hescSub', ?_, ?_⟩
  · intro j insj ℓ hmem hdl hmask'
    dsimp only
    rcases mem_snoc_elim hmem with hmem | hmem
    · have hj : j ≠ id := by
        have := hlt (j, insj) hmem
        omega
      rw [envSet_other _ hj, envSet_other _ hj]
      exact hinv.envAgree j insj ℓ hmem hdl hmask'
    · obtain ⟨hj, hins⟩ := (Prod.mk.injEq _ _ _ _).mp hmem
      rw [hj, envSet_self, envSet_self]
  · intro j insj ℓ hmem hdl
    dsimp only
    rcases mem_snoc_elim hmem with hmem | hmem
    · have hj : j ≠ id := by
        have := hlt (j, insj) hmem
        omega
      rw [envSet_other _ hj]
      exact hinv.envLen j insj ℓ hmem hdl
    · obtain ⟨hj, hins⟩ := (Prod.mk.injEq _ _ _ _).mp hmem
      rw [hins] at hdl
      have hl1 : ℓ = 1 := (Option.some.inj hdl).symm
      rw [hj, envSet_self, hl1]
      rfl
  · intro j w insj hσ hmem
    dsimp only
    rcases mem_snoc_elim hmem with hmem | hmem
    · obtain ⟨ℓ, hdl, hg, he⟩ := hinv.substOK j w insj hσ hmem
      refine ⟨ℓ, hdl, valGood_mono hg, ?_⟩
      have hj : j ≠ id := by
        have := hlt (j, insj) hmem
        omega
      rw [evalVec_envSet_stable hg hlt, envSet_other _ hj]
      exact he
    · exfalso
      obtain ⟨hj, hins⟩ := (Prod.mk.injEq _ _ _ _).mp hmem
      rw [hj, hsub_id] at hσ
      cases hσ
  · intro o ho
    dsimp only
    funext a
    by_cases hco : clobObj (so.esc ++ args.map (objOf c)) o = true
    · rw [if_pos hco, if_pos hco]
    · rw [if_neg hco, if_neg hco]
      exact congrFun (hinv.heapAgree o ho) a
  · intro loc' v' ht' hlen'
    dsimp only
    rw [engineAt_snoc, hstep] at ht'
    dsimp only at ht'
    unfold invalCall at ht'
    by_cases hcr : clobberedRef (escapedRefs p) loc'.ref = true
    · rw [if_pos hcr] at ht'
      cases ht'
    · rw [if_neg hcr] at ht'
      obtain ⟨hg, he⟩ := hinv.tknown loc' v' ht' hlen'
      have hnc := hclobF loc'.ref (Bool.eq_false_iff.mpr hcr)
      refine ⟨valGood_mono hg, ?_⟩
      rw [evalVec_envSet_stable hg hlt]
      refine Eq.trans ?_ he
      apply readVec_heapCongr
      intro a
      simp [hnc]
  · intro loc' ht' hlen'
    dsimp only
    rw [engineAt_snoc, hstep] at ht'
    dsimp only at ht'
    unfold invalCall at ht'
    by_cases hcr : clobberedRef (escapedRefs p) loc'.ref = true
    · rw [if_pos hcr] at ht'
      cases ht'
    · rw [if_neg hcr] at ht'
      obtain ⟨hex, he⟩ := hinv.tdflt loc' ht' hlen'
      have hnc := hclobF loc'.ref (Bool.eq_false_iff.mpr hcr)
      refine ⟨hex, ?_⟩
      refine Eq.trans ?_ he
      apply readVec_heapCongr
      intro a
      simp [hnc]

/-- One simulation step, dispatching over the instruction shape. -/
theorem simInv_step {c : Ctx} {p done rest : Program} {q : Nat × Instr}
    (hwf : wfProgram p = true) (hp : p = done ++ q :: rest)
    {so st : SState} (hinv : SimInv c p done so st) :
    SimInv c p (done ++ [q]) (sstep c noMask noSub so q)
      (sstep c (maskOf p) (elimSub p) st q) := by
  obtain ⟨id, ins⟩ := q
  cases ins with
  | newArr => exact simStep_newArr hwf hp hinv
  | fence a => exact simStep_fence hwf hp hinv
  | load r idx => exact simStep_load hwf hp hinv
  | vload r idx len => exact simStep_vload hwf hp hinv
  | store r idx v => exact simStep_store hwf hp hinv
  | vstore r idx len v => exact simStep_vstore hwf hp hinv
  | call args => exact simStep_call hwf hp hinv
  | retV v => exact simStep_retV hwf hp hinv
  | retRef r => exact simStep_retRef hwf hp hinv

/-- The simulation invariant holds initially: both runs start from the same
heap and the engine table is all-unknown. -/
theorem simInv_init (c : Ctx) (p : Program) (h0 : Obj → Nat → Int) :
    SimInv c p [] (initSS h0) (initSS h0) := by
  refine ⟨?_, ?_, ?_, fun o _ => rfl, rfl, rfl, rfl, rfl, ?_, ?_, ?_⟩
  · intro j ins ℓ hmem
    cases hmem
  · intro j ins ℓ hmem
    cases hmem
  · intro j w ins hσ hmem
    cases hmem
  · intro o ho
    exact absurd ho (List.not_mem_nil o)
  · intro loc v ht
    exact TVal.noConfusion ht
  · intro loc ht
    exact TVal.noConfusion ht

/-- Folding the simulation invariant over the rest of the method. -/
theorem simInv_fold {c : Ctx} {p : Program} (hwf : wfProgram p = true)
    {rest done : Program} (hsplit : p = done ++ rest)
    {so st : SState} (hinv : SimInv c p done so st) :
    SimInv c p p (exec c noMask noSub rest so)
      (exec c (maskOf p) (elimSub p) rest st) := by
  induction rest generalizing done so st with
  | nil =>
      rw [List.append_nil] at hsplit
      subst hsplit
      exact hinv
  | cons q tl ih =>
      have hinv' := simInv_step hwf hsplit hinv
      have hsplit' : p = (done ++ [q]) ++ tl := by
        rw [hsplit, List.append_assoc]
        rfl
      exact ih hsplit' hinv'

/-- Running a substituted instruction plainly equals running the original
under the substitution. -/
theorem sstep_mapVals (c : Ctx) (σ : Nat → Option Val) (s : SState) (id : Nat)
    (ins : Instr) :
    sstep c noMask noSub s (id, mapVals (applySub σ) ins) =
    sstep c noMask σ s (id, ins) := by
  cases ins <;> simp [sstep, noMask, mapVals, applySub_noSub]

/-- Executing the masked-and-substituted filter of a block plainly equals
executing the block under mask and substitution. -/
theorem exec_filterMask (c : Ctx) (p : Program) (l : Program) (s : SState) :
    exec c noMask noSub (l.filterMap (fun pr =>
      if maskOf p pr.1 pr.2 then none
      else some (pr.1, mapVals (applySub (elimSub p)) pr.2))) s =
    exec c (maskOf p) (elimSub p) l s := by
  induction l generalizing s with
  | nil => rfl
  | cons q tl ih =>
      obtain ⟨i, ins⟩ := q
      cases hm : maskOf p i ins with
      | true =>
          rw [List.filterMap_cons]
          dsimp only
          rw [hm, if_pos rfl]
          show exec c noMask noSub _ s =
            exec c (maskOf p) (elimSub p) tl (sstep c (maskOf p) (elimSub p) s (i, ins))
          rw [sstep_mask hm]
          exact ih s
      | false =>
          rw [List.filterMap_cons]
          dsimp only
          rw [hm, if_neg Bool.false_ne_true]
          show exec c noMask noSub _
              (sstep c noMask noSub s (i, mapVals (applySub (elimSub p)) ins)) =
            exec c (maskOf p) (elimSub p) tl (sstep c (maskOf p) (elimSub p) s (i, ins))
          rw [sstep_mapVals, sstep_unmask hm]
          exact ih _

/-- Executing the LSE output plainly equals executing the original method
under the final removal mask and substitution. -/
theorem exec_lsePass (c : Ctx) (p : Program) (s : SState) :
    exec c noMask noSub (lsePass p) s = exec c (maskOf p) (elimSub p) p s :=
  exec_filterMask c p p s

theorem wfProgram_of (p : Program)
    (h1 : List.Pairwise (· < ·) (p.map Prod.fst))
    (h2 : p.all (instrOK p) = true) : wfProgram p = true := by
  unfold wfProgram
  rw [Bool.and_eq_true]
  exact ⟨decide_eq_true (List.chain'_iff_pairwise.mpr h1), h2⟩

def zeroOracle : Oracle := ⟨fun _ _ => 0, fun _ _ _ _ => 0⟩

def ctx0 : Ctx := ⟨fun _ => 0, fun _ => 0, fun _ => 0, fun _ => 0, zeroOracle⟩

def heap0 : Obj → Nat → Int := fun _ _ => 0

/-- **C1** (Soundness of the pass, spec §8): for every well-formed method,
every execution context and every initial heap, the method produced by the
load-store elimination pass is observationally equivalent to the original:
the returned scalar and returned reference agree, every snapshot of
externally-visible heap state observed by an opaque call agrees, the escape
sets agree, the final heaps agree on every object except the deleted
never-escaping singleton allocations (which no other thread or native code
can see), every retained definition produces the same value, and the value
the pass substitutes for an eliminated load is exactly the value the
original load reads. -/
theorem lse_soundness (c : Ctx) (p : Program) (h0 : Obj → Nat → Int)
    (hwf : wfProgram p = true) :
    ((exec c noMask noSub (lsePass p) (initSS h0)).rval =
        (exec c noMask noSub p (initSS h0)).rval ∧
      (exec c noMask noSub (lsePass p) (initSS h0)).robj =
        (exec c noMask noSub p (initSS h0)).robj ∧
      (exec c noMask noSub (lsePass p) (initSS h0)).snaps =
        (exec c noMask noSub p (initSS h0)).snaps ∧
      (exec c noMask noSub (lsePass p) (initSS h0)).esc =
        (exec c noMask noSub p (initSS h0)).esc) ∧
    (∀ o, ¬exemptObj p o →
      (exec c noMask noSub (lsePass p) (initSS h0)).heap o =
        (exec c noMask noSub p (initSS h0)).heap o) ∧
    (∀ j ins ℓ, (j, ins) ∈ p → defLen ins = some ℓ → maskOf p j ins = false →
      (exec c noMask noSub (lsePass p) (initSS h0)).env j =
        (exec c noMask noSub p (initSS h0)).env j) ∧
    (∀ j w ins, elimSub p j = some w → (j, ins) ∈ p →
      ∃ ℓ, defLen ins = some ℓ ∧
        evalVec c (exec c noMask noSub p (initSS h0)).env ℓ w =
          (exec c noMask noSub p (initSS h0)).env j) := by
  have hfull : SimInv c p p (exec c noMask noSub p (initSS h0))
      (exec c (maskOf p) (elimSub p) p (initSS h0)) :=
    simInv_fold hwf (List.nil_append p).symm (simInv_init c p h0)
  rw [exec_lsePass]
  refine ⟨⟨hfull.rvalEq, hfull.robjEq, hfull.snapsEq, hfull.escEq⟩,
    hfull.heapAgree,
    fun j ins ℓ hm hd hmk => hfull.envAgree j ins ℓ hm hd hmk,
    fun j w ins hσ hm => ?_⟩
  obtain ⟨ℓ, hdl, -, he⟩ := hfull.substOK j w ins hσ hm
  exact ⟨ℓ, hdl, he⟩

/-- Witness for C1 at the concrete ArrayGetSetElimination block. -/
theorem lse_soundness_witness :
    wfProgram blockC4 = true ∧
    ((exec ctx0 noMask noSub (lsePass blockC4) (initSS heap0)).rval =
        (exec ctx0 noMask noSub blockC4 (initSS heap0)).rval ∧
      (exec ctx0 noMask noSub (lsePass blockC4) (initSS heap0)).robj =
        (exec ctx0 noMask noSub blockC4 (initSS heap0)).robj ∧
      (exec ctx0 noMask noSub (lsePass blockC4) (initSS heap0)).snaps =
        (exec ctx0 noMask noSub blockC4 (initSS heap0)).snaps ∧
      (exec ctx0 noMask noSub (lsePass blockC4) (initSS heap0)).esc =
        (exec ctx0 noMask noSub blockC4 (initSS heap0)).esc) :=
  ⟨wfProgram_of blockC4 (by decide) (by decide),
    (lse_soundness ctx0 blockC4 heap0
      (wfProgram_of blockC4 (by decide) (by decide))).1⟩

/-! ## Structural well-formedness of the pass output (C10) -/

theorem defLen_mapVals (f : Val → Val) (ins : Instr) :
    defLen (mapVals f ins) = defLen ins := by
  cases ins <;> rfl

/-- Every substitution value's registers name strictly earlier instructions. -/
def sigmaLT (s : EState) : Prop :=
  ∀ k w m, s.σ k = some w → w = Val.reg m → m < k

/-- Every known table value's registers are below the bound. -/
def tableLT (s : EState) (b : Nat) : Prop :=
  ∀ loc v m, s.t loc = .known v → v = Val.reg m → m < b

theorem tableLT_mono {s : EState} {b b' : Nat} (h : tableLT s b) (hb : b ≤ b') :
    tableLT s b' := by
  intro loc v m ht hm
  have := h loc v m ht hm
  omega

theorem estep_regLT {p : Program} (E : List Ref) {s : EState} {b id : Nat}
    {ins : Instr} (h1 : sigmaLT s) (h2 : tableLT s b) (hb : b ≤ id)
    (hok : instrOK p (id, ins) = true) :
    sigmaLT (estep E s (id, ins)) ∧ tableLT (estep E s (id, ins)) (id + 1) := by
  have hsub_lt : ∀ (ℓ : Nat) (v : Val), valOK p id ℓ v = true →
      ∀ m, applySub s.σ v = Val.reg m → m < id := by
    intro ℓ v hv m hm
    cases v with
    | cst x => simp [applySub] at hm
    | par n => simp [applySub] at hm
    | reg k =>
        simp only [valOK, Bool.and_eq_true, decide_eq_true_eq] at hv
        cases hσk : s.σ k with
        | none =>
            simp only [applySub, hσk] at hm
            have : k = m := Val.reg.inj hm
            omega
        | some w =>
            simp only [applySub, hσk] at hm
            have := h1 k w m hσk hm
            omega
  cases ins with
  | newArr =>
      refine ⟨h1, ?_⟩
      intro loc v m ht hm
      replace ht : allocDflt id s.t loc = .known v := ht
      unfold allocDflt at ht
      by_cases hl : loc.ref = Ref.alloc id
      · rw [if_pos hl] at ht
        cases ht
      · rw [if_neg hl] at ht
        have := h2 loc v m ht hm
        omega
  | fence a => exact ⟨h1, tableLT_mono h2 (by omega)⟩
  | load r idx =>
      cases ht : s.t ⟨r, idx, 1⟩ with
      | known v0 =>
          constructor
          · intro k w m hk hm
            have hk' : (if k = id then some v0 else s.σ k) = some w := by
              rw [← hk]
              simp [estep, ht]
            by_cases hkid : k = id
            · rw [if_pos hkid] at hk'
              have hw : v0 = w := Option.some.inj hk'
              have := h2 ⟨r, idx, 1⟩ v0 m ht (hw ▸ hm)
              omega
            · rw [if_neg hkid] at hk'
              exact h1 k w m hk' hm
          · intro loc v m hk hm
            have hk' : s.t loc = .known v := by
              rw [← hk]
              simp [estep, ht]
            have := h2 loc v m hk' hm
            omega
      | dflt =>
          constructor
          · intro k w m hk hm
            have hk' : (if k = id then some (Val.cst 0) else s.σ k) = some w := by
              rw [← hk]
              simp [estep, ht]
            by_cases hkid : k = id
            · rw [if_pos hkid] at hk'
              have hw : Val.cst 0 = w := Option.some.inj hk'
              rw [← hw] at hm
              cases hm
            · rw [if_neg hkid] at hk'
              exact h1 k w m hk' hm
          · intro loc v m hk hm
            have hk' : s.t loc = .known v := by
              rw [← hk]
              simp [estep, ht]
            have := h2 loc v m hk' hm
            omega
      | unknown =>
          constructor
          · intro k w m hk hm
            have hk' : s.σ k = some w := by
              rw [← hk]
              simp [estep, ht]
            exact h1 k w m hk' hm
          · intro loc v m hk hm
            have hk' : (if loc = ⟨r, idx, 1⟩ then TVal.known (Val.reg id)
                else s.t loc) = .known v := by
              rw [← hk]
              simp [estep, ht]
            by_cases hl : loc = (⟨r, idx, 1⟩ : Loc)
            · rw [if_pos hl] at hk'
              have hv : Val.reg id = v := TVal.known.inj hk'
              rw [← hv] at hm
              have : id = m := Val.reg.inj hm
              omega
            · rw [if_neg hl] at hk'
              have := h2 loc v m hk' hm
              omega
  | vload r idx len =>
      cases ht : s.t ⟨r, idx, len⟩ with
      | known v0 =>
          constructor
          · intro k w m hk hm
            have hk' : (if k = id then some v0 else s.σ k) = some w := by
              rw [← hk]
              simp [estep, ht]
            by_cases hkid : k = id
            · rw [if_pos hkid] at hk'
              have hw : v0 = w := Option.some.inj hk'
              have := h2 ⟨r, idx, len⟩ v0 m ht (hw ▸ hm)
              omega
            · rw [if_neg hkid] at hk'
              exact h1 k w m hk' hm
          · intro loc v m hk hm
            have hk' : s.t loc = .known v := by
              rw [← hk]
              simp [estep, ht]
            have := h2 loc v m hk' hm
            omega
      | dflt =>
          constructor
          · intro k w m hk hm
            have hk' : s.σ k = some w := by
              rw [← hk]
              simp [estep, ht]
            exact h1 k w m hk' hm
          · intro loc v m hk hm
            have hk' : (if loc = ⟨r, idx, len⟩ then TVal.known (Val.reg id)
                else s.t loc) = .known v := by
              rw [← hk]
              simp [estep, ht]
            by_cases hl : loc = (⟨r, idx, len⟩ : Loc)
            · rw [if_pos hl] at hk'
              have hv : Val.reg id = v := TVal.known.inj hk'
              rw [← hv] at hm
              have : id = m := Val.reg.inj hm
              omega
            · rw [if_neg hl] at hk'
              have := h2 loc v m hk' hm
              omega
      | unknown =>
          constructor
          · intro k w m hk hm
            have hk' : s.σ k = some w := by
              rw [← hk]
              simp [estep, ht]
            exact h1 k w m hk' hm
          · intro loc v m hk hm
            have hk' : (if loc = ⟨r, idx, len⟩ then TVal.known (Val.reg id)
                else s.t loc) = .known v := by
              rw [← hk]
              simp [estep, ht]
            by_cases hl : loc = (⟨r, idx, len⟩ : Loc)
            · rw [if_pos hl] at hk'
              have hv : Val.reg id = v := TVal.known.inj hk'
              rw [← hv] at hm
              have : id = m := Val.reg.inj hm
              omega
            · rw [if_neg hl] at hk'
              have := h2 loc v m hk' hm
              omega
  | store r idx v =>
      have hvok : valOK p id 1 v = true := hok
      by_cases hc : s.t ⟨r, idx, 1⟩ = .known (applySub s.σ v) ∨
          (s.t ⟨r, idx, 1⟩ = .dflt ∧ applySub s.σ v = .cst 0)
      · rw [estep_store_eq, if_pos hc]
        exact ⟨h1, tableLT_mono h2 (by omega)⟩
      · rw [estep_store_eq, if_neg hc]
        refine ⟨h1, ?_⟩
        intro loc v' m ht hm
        replace ht : invalSet s.t ⟨r, idx, 1⟩ (applySub s.σ v) loc = .known v' := ht
        unfold invalSet at ht
        by_cases hl : loc = (⟨r, idx, 1⟩ : Loc)
        · rw [if_pos hl] at ht
          have hv : applySub s.σ v = v' := TVal.known.inj ht
          have := hsub_lt 1 v hvok m (hv ▸ hm)
          omega
        · rw [if_neg hl] at ht
          by_cases hma : locMayAlias loc ⟨r, idx, 1⟩ = true
          · rw [if_pos hma] at ht
            cases ht
          · rw [if_neg hma] at ht
            have := h2 loc v' m ht hm
            omega
  | vstore r idx len v =>
      have hok' : instrOK p (id, Instr.vstore r idx len v) = true := hok
      simp only [instrOK, Bool.and_eq_true] at hok'
      have hvok : valOK p id len v = true := hok'.2
      by_cases hc : s.t ⟨r, idx, len⟩ = .known (applySub s.σ v) ∨
          (s.t ⟨r, idx, len⟩ = .dflt ∧ applySub s.σ v = .cst 0)
      · rw [estep_vstore_eq, if_pos hc]
        exact ⟨h1, tableLT_mono h2 (by omega)⟩
      · rw [estep_vstore_eq, if_neg hc]
        refine ⟨h1, ?_⟩
        intro loc v' m ht hm
        replace ht : invalSet s.t ⟨r, idx, len⟩ (applySub s.σ v) loc = .known v' := ht
        unfold invalSet at ht
        by_cases hl : loc = (⟨r, idx, len⟩ : Loc)
        · rw [if_pos hl] at ht
          have hv : applySub s.σ v = v' := TVal.known.inj ht
          have := hsub_lt len v hvok m (hv ▸ hm)
          omega
        · rw [if_neg hl] at ht
          by_cases hma : locMayAlias loc ⟨r, idx, len⟩ = true
          · rw [if_pos hma] at ht
            cases ht
          · rw [if_neg hma] at ht
            have := h2 loc v' m ht hm
            omega
  | call args =>
      refine ⟨h1, ?_⟩
      intro loc v m ht hm
      replace ht : invalCall E s.t loc = .known v := ht
      unfold invalCall at ht
      by_cases hcr : clobberedRef E loc.ref = true
      · rw [if_pos hcr] at ht
        cases ht
      · rw [if_neg hcr] at ht
        have := h2 loc v m ht hm
        omega
  | retV v => exact ⟨h1, tableLT_mono h2 (by omega)⟩
  | retRef r => exact ⟨h1, tableLT_mono h2 (by omega)⟩

theorem foldl_regLT (p : Program) (E : List Ref) :
    ∀ (l : List (Nat × Instr)) (s : EState) (b : Nat),
    sigmaLT s → tableLT s b →
    (∀ q ∈ l, b ≤ q.1) → List.Pairwise (· < ·) (l.map Prod.fst) →
    (∀ q ∈ l, instrOK p q = true) →
    sigmaLT (l.foldl (estep E) s) := by
  intro l
  induction l with
  | nil =>
      intro s b h1 h2 hge hpw hok
      exact h1
  | cons q tl ih =>
      intro s b h1 h2 hge hpw hok
      obtain ⟨id, ins⟩ := q
      rw [List.foldl_cons]
      have hstep := estep_regLT E h1 h2
        (hge (id, ins) (List.mem_cons_self _ _)) (hok _ (List.mem_cons_self _ _))
      rw [List.map_cons, List.pairwise_cons] at hpw
      apply ih (estep E s (id, ins)) (id + 1) hstep.1 hstep.2
      · intro q hq
        have := hpw.1 q.1 (List.mem_map_of_mem Prod.fst hq)
        omega
      · exact hpw.2
      · intro q hq
        exact hok q (List.mem_cons_of_mem _ hq)

theorem elim_sigmaLT {p : Program} (hwf : wfProgram p = true) :
    sigmaLT (elimState p) := by
  apply foldl_regLT p (escapedRefs p) p initES 0
  · intro k w m h
    simp [initES] at h
  · intro loc v m h
    exact TVal.noConfusion h
  · intro q hq
    omega
  · exact wf_pairwise hwf
  · intro q hq
    exact wf_instrOK hwf hq

theorem elimSub_reg_lt {p : Program} (hwf : wfProgram p = true) {k m : Nat}
    (h : elimSub p k = some (Val.reg m)) : m < k :=
  elim_sigmaLT hwf k _ m h rfl

/-- A substituted register names a retained definition of exactly the
eliminated load's width (extracted from the simulation invariant at a fixed
context). -/
theorem sub_width {p : Program} (hwf : wfProgram p = true) {k : Nat} {w : Val}
    (hσ : elimSub p k = some w) {insk : Instr} (hk : (k, insk) ∈ p)
    {ℓ : Nat} (hdl : defLen insk = some ℓ) {m : Nat} (hm : w = Val.reg m) :
    ∃ insm, (m, insm) ∈ p ∧ maskOf p m insm = false ∧ defLen insm = some ℓ := by
  have hfull : SimInv ctx0 p p (exec ctx0 noMask noSub p (initSS heap0))
      (exec ctx0 (maskOf p) (elimSub p) p (initSS heap0)) :=
    simInv_fold hwf (List.nil_append p).symm (simInv_init ctx0 p heap0)
  obtain ⟨ℓ', hdl', hgood, he⟩ := hfull.substOK k w insk hσ hk
  have hℓ : ℓ' = ℓ := Option.some.inj (hdl'.symm.trans hdl)
  obtain ⟨insm, ℓm, hmm, hmaskm, hdlm⟩ := hgood m hm
  have hlen_k : ((exec ctx0 noMask noSub p (initSS heap0)).env k).length = ℓ' :=
    hfull.envLen k insk ℓ' hk hdl'
  have hlen_m : ((exec ctx0 noMask noSub p (initSS heap0)).env m).length = ℓm :=
    hfull.envLen m insm ℓm hmm hdlm
  have hev : (exec ctx0 noMask noSub p (initSS heap0)).env m =
      (exec ctx0 noMask noSub p (initSS heap0)).env k := by
    rw [hm] at he
    exact he
  have hml : ℓm = ℓ := by
    rw [hev, hlen_k] at hlen_m
    omega
  refine ⟨insm, hmm, hmaskm, ?_⟩
  rw [hdlm, hml]

/-- A retained operand stays well-formed after the pass's substitution. -/
theorem valOK_lsePass {p : Program} (hwf : wfProgram p = true)
    {j ℓ : Nat} {v : Val} (hok : valOK p j ℓ v = true) :
    valOK (lsePass p) j ℓ (applySub (elimSub p) v) = true := by
  cases v with
  | cst x => rfl
  | par n => rfl
  | reg k =>
      simp only [valOK, Bool.and_eq_true, decide_eq_true_eq] at hok
      obtain ⟨hklt, hany⟩ := hok
      rw [List.any_eq_true] at hany
      obtain ⟨q, hq, hcond⟩ := hany
      rw [Bool.and_eq_true, decide_eq_true_eq, decide_eq_true_eq] at hcond
      obtain ⟨hq1, hq2⟩ := hcond
      have hkmem : (k, q.2) ∈ p := by
        rw [← hq1]
        exact hq
      cases hσk : elimSub p k with
      | none =>
          have happ : applySub (elimSub p) (Val.reg k) = Val.reg k := by
            simp [applySub, hσk]
          rw [happ]
          have hmaskk : maskOf p k q.2 = false := by
            cases hmk : maskOf p k q.2 with
            | false => rfl
            | true =>
                exfalso
                obtain ⟨w, hw⟩ := masked_def_sigma hwf hkmem hq2 hmk
                rw [hσk] at hw
                cases hw
          have hmem' : (k, mapVals (applySub (elimSub p)) q.2) ∈ lsePass p := by
            unfold lsePass
            rw [List.mem_filterMap]
            refine ⟨(k, q.2), hkmem, ?_⟩
            rw [hmaskk, if_neg Bool.false_ne_true]
            rfl
          simp only [valOK, Bool.and_eq_true, decide_eq_true_eq]
          refine ⟨hklt, ?_⟩
          rw [List.any_eq_true]
          refine ⟨(k, mapVals (applySub (elimSub p)) q.2), hmem', ?_⟩
          rw [Bool.and_eq_true, decide_eq_true_eq, decide_eq_true_eq]
          exact ⟨rfl, by rw [defLen_mapVals]; exact hq2⟩
      | some w =>
          have happ : applySub (elimSub p) (Val.reg k) = w := by
            simp [applySub, hσk]
          rw [happ]
          cases w with
          | cst x => rfl
          | par n => rfl
          | reg m =>
              have hmk : m < k := elimSub_reg_lt hwf hσk
              obtain ⟨insm, hmm, hmaskm, hdlm⟩ := sub_width hwf hσk hkmem hq2 rfl
              have hmem' : (m, mapVals (applySub (elimSub p)) insm) ∈ lsePass p := by
                unfold lsePass
                rw [List.mem_filterMap]
                refine ⟨(m, insm), hmm, ?_⟩
                rw [hmaskm, if_neg Bool.false_ne_true]
                rfl
              simp only [valOK, Bool.and_eq_true, decide_eq_true_eq]
              refine ⟨by omega, ?_⟩
              rw [List.any_eq_true]
              refine ⟨(m, mapVals (applySub (elimSub p)) insm), hmem', ?_⟩
              rw [Bool.and_eq_true, decide_eq_true_eq, decide_eq_true_eq]
              exact ⟨rfl, by rw [defLen_mapVals]; exact hdlm⟩

/-- The output's instruction ids form a subsequence of the input's. -/
theorem lsePass_ids_sublist (p : Program) :
    ((lsePass p).map Prod.fst).Sublist (p.map Prod.fst) := by
  unfold lsePass
  have hgen : ∀ l : Program,
      ((l.filterMap (fun pr =>
        if maskOf p pr.1 pr.2 then none
        else some (pr.1, mapVals (applySub (elimState p).σ) pr.2))).map Prod.fst).Sublist
        (l.map Prod.fst) := by
    intro l
    induction l with
    | nil => simp
    | cons q tl ih =>
        obtain ⟨i, ins⟩ := q
        rw [List.filterMap_cons]
        dsimp only
        cases hm : maskOf p i ins with
        | true =>
            rw [if_pos rfl]
            show ((tl.filterMap _).map Prod.fst).Sublist (((i, ins) :: tl).map Prod.fst)
            rw [List.map_cons]
            exact ih.cons i
        | false =>
            rw [if_neg Bool.false_ne_true]
            show (((i, mapVals (applySub (elimState p).σ) ins) ::
                tl.filterMap _).map Prod.fst).Sublist (((i, ins) :: tl).map Prod.fst)
            rw [List.map_cons, List.map_cons]
            exact ih.cons₂ i
  exact hgen p

/-- **C10** (Structural invariants, spec §6): on every well-formed method
the output of the load-store elimination pass is itself well-formed: its
instruction ids are still strictly increasing (a subsequence of the
input's), and every operand of every retained instruction — after the
pass's use redirection — names an earlier retained definition of exactly
the width the use requires. -/
theorem lsePass_preserves_wf (p : Program) (hwf : wfProgram p = true) :
    wfProgram (lsePass p) = true := by
  apply wfProgram_of
  · exact (wf_pairwise hwf).sublist (lsePass_ids_sublist p)
  · rw [List.all_eq_true]
    intro q hq
    unfold lsePass at hq
    rw [List.mem_filterMap] at hq
    obtain ⟨⟨j, insj⟩, hmemp, hfq⟩ := hq
    by_cases hm : maskOf p j insj = true
    · rw [if_pos hm] at hfq
      cases hfq
    · rw [if_neg hm] at hfq
      have hq' : q = (j, mapVals (applySub (elimSub p)) insj) :=
        (Option.some.inj hfq).symm
      subst hq'
      have hokj := wf_instrOK hwf hmemp
      cases insj with
      | newArr => rfl
      | fence a => rfl
      | load r idx => rfl
      | call args => rfl
      | retRef r => rfl
      | vload r idx len => exact hokj
      | store r idx v =>
          show valOK (lsePass p) j 1 (applySub (elimSub p) v) = true
          exact valOK_lsePass hwf hokj
      | retV v =>
          show valOK (lsePass p) j 1 (applySub (elimSub p) v) = true
          exact valOK_lsePass hwf hokj
      | vstore r idx len v =>
          have hokj' : instrOK p (j, Instr.vstore r idx len v) = true := hokj
          simp only [instrOK, Bool.and_eq_true] at hokj'
          show (decide (0 < len) && decide (len ≤ W32) &&
            valOK (lsePass p) j len (applySub (elimSub p) v)) = true
          rw [Bool.and_eq_true, Bool.and_eq_true]
          exact ⟨hokj'.1, valOK_lsePass hwf hokj'.2⟩

/-- Witness for C10 at the concrete ArrayGetSetElimination block. -/
theorem lsePass_preserves_wf_witness :
    wfProgram blockC4 = true ∧ wfProgram (lsePass blockC4) = true :=
  ⟨wfProgram_of blockC4 (by decide) (by decide),
    lsePass_preserves_wf blockC4 (wfProgram_of blockC4 (by decide) (by decide))⟩

/-! ## Loops: header invalidation (C5, spec §4.3 Loop header re-entry) -/

/-- Does this instruction write something that may alias `loc`?  Stores
write their location, an allocation writes its object's default values, an
opaque call may write any externally-visible location (spec §4.3). -/
def writesMayAlias (E : List Ref) (loc : Loc) : Nat × Instr → Bool
  | (_, .store r idx _) => locMayAlias ⟨r, idx, 1⟩ loc
  | (_, .vstore r idx len _) => locMayAlias ⟨r, idx, len⟩ loc
  | (id, .newArr) => decide (loc.ref = Ref.alloc id)
  | (_, .call _) => clobberedRef E loc.ref
  | _ => false

/-- Loop-header invalidation: every location whose alias class the loop
body may write is Unknown at the header, because any iteration may have
written it; untouched locations keep their pre-loop value (spec §4.3,
Loop header re-entry). -/
def loopInval (E : List Ref) (body : Program) (t : Loc → TVal) : Loc → TVal :=
  fun loc => if body.any (writesMayAlias E loc) then .unknown else t loc

def loopE (pre body post : Program) : List Ref :=
  escapedRefs (pre ++ body ++ post)

/-- Engine state after the pre-loop straight-line code. -/
def preState (pre body post : Program) : EState :=
  pre.foldl (estep (loopE pre body post)) initES

/-- The loop-header heap-value table. -/
def headerT (pre body post : Program) : Loc → TVal :=
  loopInval (loopE pre body post) body (preState pre body post).t

/-- Engine state at the loop exit: the eliminations accumulated over pre
and body, with the exit table equal to the header table (the loop exits at
the header, before a further iteration's body effects). -/
def exitState (pre body post : Program) : EState :=
  { body.foldl (estep (loopE pre body post))
      { preState pre body post with t := headerT pre body post } with
    t := headerT pre body post }

/-- The loop-aware engine over `pre; loop { body }; post`. -/
def loopLSE (pre body post : Program) : EState :=
  post.foldl (estep (loopE pre body post)) (exitState pre body post)

/-- StoreAfterLoopWithoutSideEffects shape: a field store before the loop,
a body that only reads, and the same store again after the loop. -/
def preC5a : Program := [(0, .store (.par 0) (.const 0) (.cst 1))]

def bodyC5a : Program := [(1, .load (.par 1) (.const 1))]

def postC5a : Program := [(2, .store (.par 0) (.const 0) (.cst 1))]

/-- LoadAfterSIMDLoopWithSideEffects shape: a field store before the loop,
a SIMD loop body writing a may-aliasing range, and a load after the loop. -/
def preC5b : Program := [(0, .store (.par 0) (.const 0) (.cst 1))]

def bodyC5b : Program := [(1, .vstore (.par 0) (.var 0) 4 (.cst 2))]

def postC5b : Program := [(2, .load (.par 0) (.const 0))]

/-- **C5** (Loop invalidation, spec §4.3 Loop header re-entry / §8
Scenarios): an access after a loop is eliminated when the loop body has no
may-aliasing write — the pre-loop known value survives the loop — and a
post-loop load is retained when the body does contain a may-aliasing
write, because loop entry invalidates every location of a body-written
alias class; concretely, the repeated store after a side-effect-free loop
is removed, and the load after a SIMD loop with a may-aliasing vector
store is kept. -/
theorem loop_invalidation_spec :
    (∀ pre body post id r idx v post',
      post = (id, Instr.load r idx) :: post' →
      body.any (writesMayAlias (loopE pre body post) ⟨r, idx, 1⟩) = false →
      (preState pre body post).t ⟨r, idx, 1⟩ = .known v →
      (∀ q ∈ post', q.1 ≠ id) →
      id ∈ (loopLSE pre body post).removed ∧
        (loopLSE pre body post).σ id = some v) ∧
    (∀ pre body post id r idx w v post',
      post = (id, Instr.store r idx w) :: post' →
      body.any (writesMayAlias (loopE pre body post) ⟨r, idx, 1⟩) = false →
      (preState pre body post).t ⟨r, idx, 1⟩ = .known v →
      applySub (exitState pre body post).σ w = v →
      id ∈ (loopLSE pre body post).removed) ∧
    (∀ pre body post id r idx post',
      post = (id, Instr.load r idx) :: post' →
      body.any (writesMayAlias (loopE pre body post) ⟨r, idx, 1⟩) = true →
      (∀ q ∈ pre, q.1 ≠ id) → (∀ q ∈ body, q.1 ≠ id) →
      (∀ q ∈ post', q.1 ≠ id) →
      id ∉ (loopLSE pre body post).removed) ∧
    (loopLSE preC5a bodyC5a postC5a).removed = [2] ∧
    (loopLSE preC5b bodyC5b postC5b).removed = [] := by
  have hXt : ∀ pre body post r idx,
      (body : Program).any (writesMayAlias (loopE pre body post) ⟨r, idx, 1⟩) = false →
      (exitState pre body post).t ⟨r, idx, 1⟩ =
        (preState pre body post).t ⟨r, idx, 1⟩ := by
    intro pre body post r idx hnw
    show headerT pre body post ⟨r, idx, 1⟩ = _
    unfold headerT loopInval
    rw [hnw, if_neg Bool.false_ne_true]
  refine ⟨?_, ?_, ?_, by decide, by decide⟩
  · intro pre body post id r idx v post' hpost hnw hkv hfresh
    subst hpost
    have hX : (exitState pre body ((id, Instr.load r idx) :: post')).t
        ⟨r, idx, 1⟩ = .known v := by
      rw [hXt pre body _ r idx hnw]
      exact hkv
    unfold loopLSE
    rw [List.foldl_cons]
    have hstep : estep (loopE pre body ((id, Instr.load r idx) :: post'))
        (exitState pre body ((id, Instr.load r idx) :: post'))
        (id, Instr.load r idx) =
        { exitState pre body ((id, Instr.load r idx) :: post') with
          removed := (exitState pre body ((id, Instr.load r idx) :: post')).removed ++ [id],
          σ := fun j => if j = id then some v
               else (exitState pre body ((id, Instr.load r idx) :: post')).σ j } := by
      simp [estep, hX]
    rw [hstep]
    constructor
    · obtain ⟨tail, htail, -⟩ :=
        foldl_estep_removed (loopE pre body ((id, Instr.load r idx) :: post')) post' _
      rw [htail]
      dsimp only
      simp
    · rw [foldl_estep_sigma (loopE pre body ((id, Instr.load r idx) :: post')) post' _ id hfresh]
      dsimp only
      rw [if_pos rfl]
  · intro pre body post id r idx w v post' hpost hnw hkv hsub
    subst hpost
    have hX : (exitState pre body ((id, Instr.store r idx w) :: post')).t
        ⟨r, idx, 1⟩ = .known v := by
      rw [hXt pre body _ r idx hnw]
      exact hkv
    unfold loopLSE
    rw [List.foldl_cons]
    have hstep : estep (loopE pre body ((id, Instr.store r idx w) :: post'))
        (exitState pre body ((id, Instr.store r idx w) :: post'))
        (id, Instr.store r idx w) =
        { exitState pre body ((id, Instr.store r idx w) :: post') with
          removed := (exitState pre body ((id, Instr.store r idx w) :: post')).removed ++ [id] } := by
      rw [estep_store_eq, if_pos (Or.inl (by rw [hsub]; exact hX))]
    rw [hstep]
    obtain ⟨tail, htail, -⟩ :=
      foldl_estep_removed (loopE pre body ((id, Instr.store r idx w) :: post')) post' _
    rw [htail]
    dsimp only
    simp
  · intro pre body post id r idx post' hpost hw hfp hfb hfr
    subst hpost
    have hX : (exitState pre body ((id, Instr.load r idx) :: post')).t
        ⟨r, idx, 1⟩ = .unknown := by
      show headerT pre body ((id, Instr.load r idx) :: post') ⟨r, idx, 1⟩ = _
      unfold headerT loopInval
      rw [hw, if_pos rfl]
    unfold loopLSE
    rw [List.foldl_cons]
    have hstep : estep (loopE pre body ((id, Instr.load r idx) :: post'))
        (exitState pre body ((id, Instr.load r idx) :: post'))
        (id, Instr.load r idx) =
        { exitState pre body ((id, Instr.load r idx) :: post') with
          t := fun l => if l = ⟨r, idx, 1⟩ then .known (.reg id)
               else (exitState pre body ((id, Instr.load r idx) :: post')).t l } := by
      simp [estep, hX]
    rw [hstep]
    intro hcon
    obtain ⟨tail, htail, hmem⟩ :=
      foldl_estep_removed (loopE pre body ((id, Instr.load r idx) :: post')) post' _
    rw [htail] at hcon
    dsimp only at hcon
    rcases List.mem_append.mp hcon with hcon | hcon
    · have hcon' : id ∈ (body.foldl (estep (loopE pre body ((id, Instr.load r idx) :: post')))
          { preState pre body ((id, Instr.load r idx) :: post') with
            t := headerT pre body ((id, Instr.load r idx) :: post') }).removed := hcon
      obtain ⟨tail2, htail2, hmem2⟩ :=
        foldl_estep_removed (loopE pre body ((id, Instr.load r idx) :: post')) body
          { preState pre body ((id, Instr.load r idx) :: post') with
            t := headerT pre body ((id, Instr.load r idx) :: post') }
      rw [htail2] at hcon'
      rcases List.mem_append.mp hcon' with hcon' | hcon'
      · have hcon'' : id ∈ (preState pre body ((id, Instr.load r idx) :: post')).removed := hcon'
        obtain ⟨tail3, htail3, hmem3⟩ :=
          foldl_estep_removed (loopE pre body ((id, Instr.load r idx) :: post')) pre initES
        have hcon3 : id ∈ initES.removed ++ tail3 := by
          rw [← htail3]
          exact hcon''
        simp only [initES, List.nil_append] at hcon3
        obtain ⟨ins, hins, -⟩ := hmem3 id hcon3
        exact hfp (id, ins) hins rfl
      · obtain ⟨ins, hins, -⟩ := hmem2 id hcon'
        exact hfb (id, ins) hins rfl
    · obtain ⟨ins, hins, -⟩ := hmem id hcon
      exact hfr (id, ins) hins rfl

/-- Witness for C5 at the StoreAfterLoopWithoutSideEffects scenario. -/
theorem loop_invalidation_spec_witness :
    postC5a = (2, Instr.store (.par 0) (.const 0) (.cst 1)) :: [] ∧
    bodyC5a.any (writesMayAlias (loopE preC5a bodyC5a postC5a)
      ⟨.par 0, .const 0, 1⟩) = false ∧
    (preState preC5a bodyC5a postC5a).t ⟨.par 0, .const 0, 1⟩ =
      .known (.cst 1) ∧
    2 ∈ (loopLSE preC5a bodyC5a postC5a).removed :=
  ⟨rfl, by decide, by decide,
    loop_invalidation_spec.2.1 preC5a bodyC5a postC5a 2 (.par 0) (.const 0)
      (.cst 1) (.cst 1) [] rfl (by decide) (by decide) (by decide)⟩

/-! ## Escape classification (C7, spec §4.2 Reference Info) -/

/-- Escape status of a reference, ordered monotonically: a clean singleton,
a singleton that is exposed to the caller only by being returned (its field
values stay foldable but the allocation must be retained), or a reference
that is no longer a singleton at all (escaped / merged). -/
inductive ESC where
  | sing
  | singNR
  | notSing
deriving DecidableEq, Repr

/-- The reference-escape mini-language: allocate, pass to an opaque call,
store into another object's field, return, or merge through a phi. -/
inductive EInstr where
  | newInst (i : Nat)
  | callArg (x : Nat)
  | storeInto (x y : Nat)
  | ret (x : Nat)
  | phi (z x y : Nat)
deriving DecidableEq, Repr

/-- One step of the monotone escape scan (spec §4.2): passing to an opaque
call or storing into another heap location escapes the reference; returning
a still-singleton reference makes it singleton-and-non-removable; a phi
merge with an already-escaped input escapes the other input. -/
def escStep (s : Nat → ESC) : EInstr → Nat → ESC
  | .newInst i => fun j => if j = i then .sing else s j
  | .callArg x => fun j => if j = x then .notSing else s j
  | .storeInto x _ => fun j => if j = x then .notSing else s j
  | .ret x => fun j => if j = x then
      (match s x with
       | .sing => .singNR
       | st => st) else s j
  | .phi _ x y => fun j =>
      if j = x then (if s y = .notSing then .notSing else s x)
      else if j = y then (if s x = .notSing then .notSing else s y)
      else s j

/-- The whole-method escape scan. -/
def escScan (l : List EInstr) : Nat → ESC :=
  l.foldl escStep (fun _ => .sing)

/-- Does this instruction affect `x`'s singleton status (other than a
return)? -/
def touchesBad (x : Nat) : EInstr → Bool
  | .newInst i => decide (i = x)
  | .callArg y => decide (y = x)
  | .storeInto y _ => decide (y = x)
  | .phi _ a b => decide (a = x) || decide (b = x)
  | .ret _ => false

theorem escStep_notSing {s : Nat → ESC} {x : Nat} {ins : EInstr}
    (hs : s x = .notSing) (hni : ins ≠ .newInst x) :
    escStep s ins x = .notSing := by
  cases ins with
  | newInst i =>
      simp only [escStep]
      by_cases hj : x = i
      · subst hj
        exact absurd rfl hni
      · rw [if_neg hj]
        exact hs
  | callArg y =>
      simp only [escStep]
      by_cases hj : x = y
      · rw [if_pos hj]
      · rw [if_neg hj]
        exact hs
  | storeInto y z =>
      simp only [escStep]
      by_cases hj : x = y
      · rw [if_pos hj]
      · rw [if_neg hj]
        exact hs
  | ret y =>
      simp only [escStep]
      by_cases hj : x = y
      · rw [if_pos hj, ← hj, hs]
      · rw [if_neg hj]
        exact hs
  | phi z a b =>
      simp only [escStep]
      by_cases hja : x = a
      · rw [if_pos hja]
        by_cases hb : s b = .notSing
        · rw [if_pos hb]
        · rw [if_neg hb, ← hja]
          exact hs
      · rw [if_neg hja]
        by_cases hjb : x = b
        · rw [if_pos hjb]
          by_cases ha : s a = .notSing
          · rw [if_pos ha]
          · rw [if_neg ha, ← hjb]
            exact hs
        · rw [if_neg hjb]
          exact hs

theorem escScan_absorb : ∀ (l : List EInstr) (s : Nat → ESC) (x : Nat),
    s x = .notSing → (∀ ins ∈ l, ins ≠ .newInst x) →
    (l.foldl escStep s) x = .notSing := by
  intro l
  induction l with
  | nil =>
      intro s x hs _
      exact hs
  | cons ins tl ih =>
      intro s x hs hni
      rw [List.foldl_cons]
      exact ih _ x (escStep_notSing hs (hni ins (List.mem_cons_self _ _)))
        (fun q hq => hni q (List.mem_cons_of_mem _ hq))

theorem escStep_singNR {s : Nat → ESC} {x : Nat} {ins : EInstr}
    (hs : s x = .singNR) (hok : touchesBad x ins = false) :
    escStep s ins x = .singNR := by
  cases ins with
  | newInst i =>
      simp only [escStep]
      simp only [touchesBad, decide_eq_false_iff_not] at hok
      rw [if_neg (fun h => hok h.symm)]
      exact hs
  | callArg y =>
      simp only [escStep]
      simp only [touchesBad, decide_eq_false_iff_not] at hok
      rw [if_neg (fun h => hok h.symm)]
      exact hs
  | storeInto y z =>
      simp only [escStep]
      simp only [touchesBad, decide_eq_false_iff_not] at hok
      rw [if_neg (fun h => hok h.symm)]
      exact hs
  | ret y =>
      simp only [escStep]
      by_cases hj : x = y
      · rw [if_pos hj, ← hj, hs]
      · rw [if_neg hj]
        exact hs
  | phi z a b =>
      simp only [escStep]
      simp only [touchesBad, Bool.or_eq_false_iff, decide_eq_false_iff_not] at hok
      rw [if_neg (fun h => hok.1 h.symm), if_neg (fun h => hok.2 h.symm)]
      exact hs

theorem escScan_keepNR : ∀ (l : List EInstr) (s : Nat → ESC) (x : Nat),
    s x = .singNR → (∀ ins ∈ l, touchesBad x ins = false) →
    (l.foldl escStep s) x = .singNR := by
  intro l
  induction l with
  | nil =>
      intro s x hs _
      exact hs
  | cons ins tl ih =>
      intro s x hs hok
      rw [List.foldl_cons]
      exact ih _ x (escStep_singNR hs (hok ins (List.mem_cons_self _ _)))
        (fun q hq => hok q (List.mem_cons_of_mem _ hq))

/-- **C7** (Escape classification, spec §4.2): after the analysis scan, a
reference passed to an opaque call anywhere (and not re-allocated later) is
not a singleton; a reference phi-merged with an already-escaped reference
is not a singleton; and a reference whose only exposure is being returned
is classified singleton-and-non-removable.  Concretely: the TotalEscape
shape (allocation passed to a call) fully escapes, the returned-only
allocation is singleton-and-non-removable, and a phi merge with an escaped
reference escapes. -/
theorem escape_classification_spec :
    (∀ (l1 l2 : List EInstr) (x : Nat),
      (∀ ins ∈ l2, ins ≠ .newInst x) →
      escScan (l1 ++ .callArg x :: l2) x = .notSing) ∧
    (∀ (l1 l2 : List EInstr) (z x y : Nat),
      x ≠ y → escScan l1 y = .notSing →
      (∀ ins ∈ l2, ins ≠ .newInst x) →
      escScan (l1 ++ .phi z x y :: l2) x = .notSing) ∧
    (∀ (l1 l2 : List EInstr) (x : Nat),
      escScan l1 x = .sing →
      (∀ ins ∈ l2, touchesBad x ins = false) →
      escScan (l1 ++ .ret x :: l2) x = .singNR) ∧
    escScan [.newInst 0, .callArg 0] 0 = .notSing ∧
    escScan [.newInst 0, .ret 0] 0 = .singNR ∧
    escScan [.newInst 0, .newInst 1, .callArg 1, .phi 2 0 1] 0 = .notSing := by
  refine ⟨?_, ?_, ?_, by decide, by decide, by decide⟩
  · intro l1 l2 x hni
    unfold escScan
    rw [List.foldl_append, List.foldl_cons]
    apply escScan_absorb l2 _ x ?_ hni
    show escStep (l1.foldl escStep fun _ => .sing) (.callArg x) x = .notSing
    simp only [escStep]
    rw [if_pos trivial]
  · intro l1 l2 z x y hxy hy hni
    unfold escScan
    rw [List.foldl_append, List.foldl_cons]
    apply escScan_absorb l2 _ x ?_ hni
    show escStep (l1.foldl escStep fun _ => .sing) (.phi z x y) x = .notSing
    simp only [escStep]
    have hy' : List.foldl escStep (fun _ => ESC.sing) l1 y = ESC.notSing := hy
    rw [if_pos trivial, if_pos hy']
  · intro l1 l2 x hsing hok
    unfold escScan
    rw [List.foldl_append, List.foldl_cons]
    apply escScan_keepNR l2 _ x ?_ hok
    show escStep (l1.foldl escStep fun _ => .sing) (.ret x) x = .singNR
    simp only [escStep]
    rw [if_pos trivial]
    have hsing' : (l1.foldl escStep fun _ => .sing) x = .sing := hsing
    rw [hsing']

/-- Witness for C7 at the TotalEscape shape. -/
theorem escape_classification_spec_witness :
    (∀ ins ∈ ([] : List EInstr), ins ≠ .newInst 0) ∧
    escScan ([.newInst 0] ++ .callArg 0 :: []) 0 = .notSing :=
  ⟨fun ins h => absurd h (List.not_mem_nil ins),
    escape_classification_spec.1 [.newInst 0] [] 0
      (fun ins h => absurd h (List.not_mem_nil ins))⟩

/-! ## Diamonds and partial escape (C8, spec §4.2/4.3) -/

def dmE (pre left right post : Program) : List Ref :=
  escapedRefs (pre ++ left ++ right ++ post)

def dmPre (pre left right post : Program) : EState :=
  pre.foldl (estep (dmE pre left right post)) initES

def dmLeft (pre left right post : Program) : EState :=
  left.foldl (estep (dmE pre left right post)) (dmPre pre left right post)

def dmRight (pre left right post : Program) : EState :=
  right.foldl (estep (dmE pre left right post))
    { dmPre pre left right post with removed := [], σ := fun _ => none }

/-- Merge of two incoming heap-value tables: keep agreeing entries,
degrade any disagreement to Unknown (spec §4.3, merge rule). -/
def mergeT (t1 t2 : Loc → TVal) : Loc → TVal :=
  fun l => if t1 l = t2 l then t1 l else .unknown

def dmJoin (pre left right post : Program) : EState :=
  { t := mergeT (dmLeft pre left right post).t (dmRight pre left right post).t,
    σ := fun j => match (dmLeft pre left right post).σ j with
         | some w => some w
         | none => (dmRight pre left right post).σ j,
    removed := (dmLeft pre left right post).removed ++
      (dmRight pre left right post).removed }

/-- The engine over a diamond `pre; if _ { left } else { right }; post`:
both branches are processed from the pre-state, the tables merged at the
join, and the tail processed from the merged table. -/
def diamondLSE (pre left right post : Program) : EState :=
  post.foldl (estep (dmE pre left right post)) (dmJoin pre left right post)

/-- The PartialLoadPreserved shape: allocation; left writes the field then
passes the object to an opaque call; right writes the field; the join
reads the field and returns it. -/
def preC8 : Program := [(0, .newArr)]

def leftC8 : Program :=
  [(1, .store (.alloc 0) (.const 0) (.cst 1)), (2, .call [.alloc 0])]

def rightC8 : Program := [(3, .store (.alloc 0) (.const 0) (.cst 2))]

def postC8 : Program := [(4, .load (.alloc 0) (.const 0)), (5, .retV (.reg 4))]

/-- **C8** (Partial escape, spec §4.2/4.3 and §8 Partial escape): merging
branch tables keeps only agreeing entries and degrades any disagreement to
Unknown, so a field read after a diamond whose branches disagree (one
branch let the object escape through an opaque call) is retained; a
reference that escapes along any single branch counts as escaped for the
whole method, so every related store is conservatively retained rather
than moved or removed; concretely, on the PartialLoadPreserved shape the
engine eliminates nothing — both field writes, the call and the join read
are all retained — and the allocation is escaped. -/
theorem partial_escape_retention :
    (∀ (t1 t2 : Loc → TVal) (l : Loc),
      (t1 l = t2 l → mergeT t1 t2 l = t1 l) ∧
      (t1 l ≠ t2 l → mergeT t1 t2 l = .unknown)) ∧
    (∀ pre left right post' id r idx,
      (dmLeft pre left right ((id, Instr.load r idx) :: post')).t ⟨r, idx, 1⟩ ≠
        (dmRight pre left right ((id, Instr.load r idx) :: post')).t ⟨r, idx, 1⟩ →
      (∀ q ∈ pre, q.1 ≠ id) → (∀ q ∈ left, q.1 ≠ id) →
      (∀ q ∈ right, q.1 ≠ id) → (∀ q ∈ post', q.1 ≠ id) →
      id ∉ (diamondLSE pre left right ((id, Instr.load r idx) :: post')).removed) ∧
    (∀ pre left right post id args r, (id, Instr.call args) ∈ left → r ∈ args →
      r ∈ dmE pre left right post) ∧
    (diamondLSE preC8 leftC8 rightC8 postC8).removed = ([] : List Nat) ∧
    Ref.alloc 0 ∈ dmE preC8 leftC8 rightC8 postC8 := by
  refine ⟨?_, ?_, ?_, by decide, by decide⟩
  · intro t1 t2 l
    constructor
    · intro h
      unfold mergeT
      rw [if_pos h]
    · intro h
      unfold mergeT
      rw [if_neg h]
  · intro pre left right post' id r idx hne hfp hfl hfr hfq
    have hJt : (dmJoin pre left right ((id, Instr.load r idx) :: post')).t
        ⟨r, idx, 1⟩ = .unknown := by
      show mergeT _ _ _ = .unknown
      unfold mergeT
      rw [if_neg hne]
    unfold diamondLSE
    rw [List.foldl_cons]
    have hstep : estep (dmE pre left right ((id, Instr.load r idx) :: post'))
        (dmJoin pre left right ((id, Instr.load r idx) :: post'))
        (id, Instr.load r idx) =
        { dmJoin pre left right ((id, Instr.load r idx) :: post') with
          t := fun l => if l = ⟨r, idx, 1⟩ then .known (.reg id)
               else (dmJoin pre left right ((id, Instr.load r idx) :: post')).t l } := by
      simp [estep, hJt]
    rw [hstep]
    intro hcon
    obtain ⟨tail, htail, hmem⟩ := foldl_estep_removed
      (dmE pre left right ((id, Instr.load r idx) :: post')) post' _
    rw [htail] at hcon
    dsimp only at hcon
    rcases List.mem_append.mp hcon with hcon | hcon
    · have hcon' : id ∈ (dmLeft pre left right ((id, Instr.load r idx) :: post')).removed ++
          (dmRight pre left right ((id, Instr.load r idx) :: post')).removed := hcon
      rcases List.mem_append.mp hcon' with hcon' | hcon'
      · obtain ⟨tailL, htailL, hmemL⟩ := foldl_estep_removed
          (dmE pre left right ((id, Instr.load r idx) :: post')) left
          (dmPre pre left right ((id, Instr.load r idx) :: post'))
        have hcon'' : id ∈ (dmPre pre left right ((id, Instr.load r idx) :: post')).removed ++
            tailL := by
          rw [← htailL]
          exact hcon'
        rcases List.mem_append.mp hcon'' with hcon'' | hcon''
        · obtain ⟨tailP, htailP, hmemP⟩ := foldl_estep_removed
            (dmE pre left right ((id, Instr.load r idx) :: post')) pre initES
          have hconP : id ∈ initES.removed ++ tailP := by
            rw [← htailP]
            exact hcon''
          simp only [initES, List.nil_append] at hconP
          obtain ⟨ins, hins, -⟩ := hmemP id hconP
          exact hfp (id, ins) hins rfl
        · obtain ⟨ins, hins, -⟩ := hmemL id hcon''
          exact hfl (id, ins) hins rfl
      · obtain ⟨tailR, htailR, hmemR⟩ := foldl_estep_removed
          (dmE pre left right ((id, Instr.load r idx) :: post')) right
          { dmPre pre left right ((id, Instr.load r idx) :: post') with
            removed := [], σ := fun _ => none }
        have hcon'' : id ∈ ([] : List Nat) ++ tailR := by
          rw [← htailR]
          exact hcon'
        rw [List.nil_append] at hcon''
        obtain ⟨ins, hins, -⟩ := hmemR id hcon''
        exact hfr (id, ins) hins rfl
    · obtain ⟨ins, hins, -⟩ := hmem id hcon
      exact hfq (id, ins) hins rfl
  · intro pre left right post id args r hmem hr
    have hmem' : (id, Instr.call args) ∈ pre ++ left ++ right ++ post := by
      rw [List.append_assoc, List.append_assoc]
      apply List.mem_append_right
      apply List.mem_append_left
      exact hmem
    exact escapedRefs_mem hmem' hr

/-- Witness for C8 at the PartialLoadPreserved shape. -/
theorem partial_escape_retention_witness :
    (dmLeft preC8 leftC8 rightC8 postC8).t ⟨.alloc 0, .const 0, 1⟩ ≠
      (dmRight preC8 leftC8 rightC8 postC8).t ⟨.alloc 0, .const 0, 1⟩ ∧
    4 ∉ (diamondLSE preC8 leftC8 rightC8 postC8).removed :=
  ⟨by decide,
    partial_escape_retention.2.1 preC8 leftC8 rightC8 [(5, .retV (.reg 4))] 4
      (.alloc 0) (.const 0) (by decide) (by decide) (by decide) (by decide)
      (by decide)⟩

/-! ## Idempotence of the pass (C9) -/

theorem loadsRef_mapVals (f : Val → Val) (r : Ref) (ins : Instr) :
    loadsRef r (mapVals f ins) = loadsRef r ins := by
  cases ins <;> rfl

theorem call_unmasked {p : Program} (hwf : wfProgram p = true) {id : Nat}
    {args : List Ref} (hmem : (id, Instr.call args) ∈ p) :
    maskOf p id (Instr.call args) = false := by
  apply mask_plain_false hwf hmem
  refine ⟨rfl, ?_, ?_⟩
  · intro h
    cases h
  · intro a h
    cases h

theorem retRef_unmasked {p : Program} (hwf : wfProgram p = true) {id : Nat}
    {r : Ref} (hmem : (id, Instr.retRef r) ∈ p) :
    maskOf p id (Instr.retRef r) = false := by
  apply mask_plain_false hwf hmem
  refine ⟨rfl, ?_, ?_⟩
  · intro h
    cases h
  · intro a h
    cases h

/-- The pass preserves the method's escape set: calls are always retained
and their arguments are untouched. -/
theorem escapedRefs_lsePass {p : Program} (hwf : wfProgram p = true) :
    escapedRefs (lsePass p) = escapedRefs p := by
  unfold lsePass
  have hgen : ∀ l : Program, (∀ q ∈ l, q ∈ p) →
      escapedRefs (l.filterMap (fun pr =>
        if maskOf p pr.1 pr.2 then none
        else some (pr.1, mapVals (applySub (elimState p).σ) pr.2))) =
      escapedRefs l := by
    intro l
    induction l with
    | nil => intro _; rfl
    | cons q tl ih =>
        intro hsub
        obtain ⟨id, ins⟩ := q
        rw [List.filterMap_cons]
        dsimp only
        cases hm : maskOf p id ins with
        | true =>
            rw [if_pos rfl]
            have hnc : ∀ args, ins ≠ Instr.call args := by
              intro args hc
              have hmemp : (id, ins) ∈ p := hsub _ (List.mem_cons_self _ _)
              rw [hc] at hm hmemp
              rw [call_unmasked hwf hmemp] at hm
              cases hm
            show escapedRefs _ = escapedRefs ((id, ins) :: tl)
            unfold escapedRefs
            rw [List.foldr_cons]
            cases ins with
            | call args => exact absurd rfl (hnc args)
            | newArr => exact ih (fun q hq => hsub q (List.mem_cons_of_mem _ hq))
            | fence a => exact ih (fun q hq => hsub q (List.mem_cons_of_mem _ hq))
            | load r idx => exact ih (fun q hq => hsub q (List.mem_cons_of_mem _ hq))
            | vload r idx len => exact ih (fun q hq => hsub q (List.mem_cons_of_mem _ hq))
            | store r idx v => exact ih (fun q hq => hsub q (List.mem_cons_of_mem _ hq))
            | vstore r idx len v => exact ih (fun q hq => hsub q (List.mem_cons_of_mem _ hq))
            | retV v => exact ih (fun q hq => hsub q (List.mem_cons_of_mem _ hq))
            | retRef r => exact ih (fun q hq => hsub q (List.mem_cons_of_mem _ hq))
        | false =>
            rw [if_neg Bool.false_ne_true]
            show escapedRefs ((id, mapVals (applySub (elimState p).σ) ins) :: _) =
              escapedRefs ((id, ins) :: tl)
            unfold escapedRefs
            rw [List.foldr_cons, List.foldr_cons]
            cases ins with
            | call args =>
                show args ++ _ = args ++ _
                rw [show (List.foldr _ [] (tl.filterMap _) : List Ref) =
                  escapedRefs (tl.filterMap _) from rfl]
                rw [show (List.foldr _ [] tl : List Ref) = escapedRefs tl from rfl]
                rw [ih (fun q hq => hsub q (List.mem_cons_of_mem _ hq))]
            | newArr => exact ih (fun q hq => hsub q (List.mem_cons_of_mem _ hq))
            | fence a => exact ih (fun q hq => hsub q (List.mem_cons_of_mem _ hq))
            | load r idx => exact ih (fun q hq => hsub q (List.mem_cons_of_mem _ hq))
            | vload r idx len => exact ih (fun q hq => hsub q (List.mem_cons_of_mem _ hq))
            | store r idx v => exact ih (fun q hq => hsub q (List.mem_cons_of_mem _ hq))
            | vstore r idx len v => exact ih (fun q hq => hsub q (List.mem_cons_of_mem _ hq))
            | retV v => exact ih (fun q hq => hsub q (List.mem_cons_of_mem _ hq))
            | retRef r => exact ih (fun q hq => hsub q (List.mem_cons_of_mem _ hq))
  exact hgen p (fun q hq => hq)

/-- The pass preserves the method's returned-reference set. -/
theorem returnedRefs_lsePass {p : Program} (hwf : wfProgram p = true) :
    returnedRefs (lsePass p) = returnedRefs p := by
  unfold lsePass
  have hgen : ∀ l : Program, (∀ q ∈ l, q ∈ p) →
      returnedRefs (l.filterMap (fun pr =>
        if maskOf p pr.1 pr.2 then none
        else some (pr.1, mapVals (applySub (elimState p).σ) pr.2))) =
      returnedRefs l := by
    intro l
    induction l with
    | nil => intro _; rfl
    | cons q tl ih =>
        intro hsub
        obtain ⟨id, ins⟩ := q
        rw [List.filterMap_cons]
        dsimp only
        cases hm : maskOf p id ins with
        | true =>
            rw [if_pos rfl]
            have hnc : ∀ r, ins ≠ Instr.retRef r := by
              intro r hc
              have hmemp : (id, ins) ∈ p := hsub _ (List.mem_cons_self _ _)
              rw [hc] at hm hmemp
              rw [retRef_unmasked hwf hmemp] at hm
              cases hm
            show returnedRefs _ = returnedRefs ((id, ins) :: tl)
            unfold returnedRefs
            rw [List.foldr_cons]
            cases ins with
            | retRef r => exact absurd rfl (hnc r)
            | newArr => exact ih (fun q hq => hsub q (List.mem_cons_of_mem _ hq))
            | fence a => exact ih (fun q hq => hsub q (List.mem_cons_of_mem _ hq))
            | load r idx => exact ih (fun q hq => hsub q (List.mem_cons_of_mem _ hq))
            | vload r idx len => exact ih (fun q hq => hsub q (List.mem_cons_of_mem _ hq))
            | store r idx v => exact ih (fun q hq => hsub q (List.mem_cons_of_mem _ hq))
            | vstore r idx len v => exact ih (fun q hq => hsub q (List.mem_cons_of_mem _ hq))
            | retV v => exact ih (fun q hq => hsub q (List.mem_cons_of_mem _ hq))
            | call args => exact ih (fun q hq => hsub q (List.mem_cons_of_mem _ hq))
        | false =>
            rw [if_neg Bool.false_ne_true]
            show returnedRefs ((id, mapVals (applySub (elimState p).σ) ins) :: _) =
              returnedRefs ((id, ins) :: tl)
            unfold returnedRefs
            rw [List.foldr_cons, List.foldr_cons]
            cases ins with
            | retRef r =>
                show r :: _ = r :: _
                rw [show (List.foldr _ [] (tl.filterMap _) : List Ref) =
                  returnedRefs (tl.filterMap _) from rfl]
                rw [show (List.foldr _ [] tl : List Ref) = returnedRefs tl from rfl]
                rw [ih (fun q hq => hsub q (List.mem_cons_of_mem _ hq))]
            | newArr => exact ih (fun q hq => hsub q (List.mem_cons_of_mem _ hq))
            | fence a => exact ih (fun q hq => hsub q (List.mem_cons_of_mem _ hq))
            | load r idx => exact ih (fun q hq => hsub q (List.mem_cons_of_mem _ hq))
            | vload r idx len => exact ih (fun q hq => hsub q (List.mem_cons_of_mem _ hq))
            | store r idx v => exact ih (fun q hq => hsub q (List.mem_cons_of_mem _ hq))
            | vstore r idx len v => exact ih (fun q hq => hsub q (List.mem_cons_of_mem _ hq))
            | retV v => exact ih (fun q hq => hsub q (List.mem_cons_of_mem _ hq))
            | call args => exact ih (fun q hq => hsub q (List.mem_cons_of_mem _ hq))
  exact hgen p (fun q hq => hq)

/-- A location based on an allocation the sweep deletes. -/
def sweptLoc (p : Program) (loc : Loc) : Prop :=
  ∃ i, loc.ref = Ref.alloc i ∧ removableAlloc p i = true

theorem swept_noalias {p : Program} {l1 l2 : Loc} (hsw : sweptLoc p l1)
    (hns : ¬sweptLoc p l2) : locMayAlias l1 l2 = false := by
  obtain ⟨i, href, hrem⟩ := hsw
  unfold locMayAlias refsMayAlias
  rw [href]
  have hne : Ref.alloc i ≠ l2.ref := by
    intro h
    exact hns ⟨i, h.symm, hrem⟩
  simp [Ref.isParam, hne]

theorem noalias_swept {p : Program} {l1 l2 : Loc} (hns : ¬sweptLoc p l1)
    (hsw : sweptLoc p l2) : locMayAlias l1 l2 = false := by
  obtain ⟨i, href, hrem⟩ := hsw
  unfold locMayAlias refsMayAlias
  rw [href]
  have hne : l1.ref ≠ Ref.alloc i := by
    intro h
    exact hns ⟨i, h, hrem⟩
  simp [Ref.isParam, hne]

theorem applySub_none {σ : Nat → Option Val} (h : ∀ j, σ j = none) (v : Val) :
    applySub σ v = v := by
  cases v with
  | cst k => rfl
  | par n => rfl
  | reg j =>
      simp only [applySub, h j]

/-- A load of an allocation that the engine keeps makes the allocation
non-removable. -/
theorem kept_load_not_removable {p : Program} {id : Nat} {ins : Instr}
    {i : Nat} (hmem : (id, ins) ∈ p) (hload : loadsRef (Ref.alloc i) ins = true)
    (hnotrm : id ∉ (elimState p).removed) : removableAlloc p i = false := by
  cases hra : removableAlloc p i with
  | false => rfl
  | true =>
      exfalso
      unfold removableAlloc at hra
      rw [Bool.and_eq_true] at hra
      have hall := List.all_eq_true.mp hra.2 (id, ins) hmem
      simp only [hload, Bool.not_true, Bool.false_or, decide_eq_true_eq] at hall
      exact hnotrm hall

/-- The substitution recorded for an operand used at `id` is already fixed
by the engine state at `id`'s prefix. -/
theorem applySub_stable {p done rest : Program} {id ℓ : Nat} {ins : Instr}
    {v : Val} (hwf : wfProgram p = true) (hp : p = done ++ (id, ins) :: rest)
    (hok : valOK p id ℓ v = true) :
    applySub (elimSub p) v = applySub (engineAt p done).σ v := by
  obtain ⟨-, hgt⟩ := wf_split hwf hp
  cases v with
  | cst k => rfl
  | par n => rfl
  | reg k =>
      simp only [valOK, Bool.and_eq_true, decide_eq_true_eq] at hok
      have hstab : elimSub p k = (engineAt p done).σ k := by
        apply elimSub_stable hp
        intro q hq
        rcases List.mem_cons.mp hq with h | h
        · have : q.1 = id := by rw [h]
          omega
        · have := hgt q h
          omega
      simp only [applySub]
      rw [hstab]

/-- The lockstep invariant for the second run of the pass: after the
processed prefix, the second engine has removed nothing, substituted
nothing, its table agrees with the first engine's on every surviving
location, and is Unknown on every location of a swept allocation. -/
structure IdemInv (p done : Program) (s2 : EState) : Prop where
  rm : s2.removed = []
  sg : ∀ j, s2.σ j = none
  tbl : ∀ loc, ¬sweptLoc p loc → s2.t loc = (engineAt p done).t loc
  tswept : ∀ loc, sweptLoc p loc → s2.t loc = .unknown

/-- One lockstep step of the idempotence invariant: the second run skips
masked instructions and processes retained ones without eliminating
anything new. -/
theorem idemStep {p done rest : Program} {id : Nat} {ins : Instr}
    (hwf : wfProgram p = true) (hp : p = done ++ (id, ins) :: rest)
    {s2 : EState} (hinv : IdemInv p done s2) :
    IdemInv p (done ++ [(id, ins)])
      (if maskOf p id ins = true then s2
       else estep (escapedRefs p) s2
         (id, mapVals (applySub (elimSub p)) ins)) := by
  obtain ⟨hlt, hgt⟩ := wf_split hwf hp
  have hmemp : (id, ins) ∈ p := by
    rw [hp]
    exact List.mem_append_right _ (List.mem_cons_self _ _)
  have hsnoc : engineAt p (done ++ [(id, ins)]) =
      estep (escapedRefs p) (engineAt p done) (id, ins) := engineAt_snoc p done _
  cases ins with
  | fence a =>
      by_cases hm : maskOf p id (Instr.fence a) = true
      · rw [if_pos hm]
        exact ⟨hinv.rm, hinv.sg,
          fun loc h => by rw [hsnoc]; exact hinv.tbl loc h, hinv.tswept⟩
      · rw [if_neg hm]
        exact ⟨hinv.rm, hinv.sg,
          fun loc h => by rw [hsnoc]; exact hinv.tbl loc h, hinv.tswept⟩
  | retV v =>
      have hm : maskOf p id (Instr.retV v) = false := by
        apply mask_plain_false hwf hmemp
        refine ⟨rfl, ?_, ?_⟩
        · intro h
          cases h
        · intro a h
          cases h
      rw [if_neg (by rw [hm]; exact Bool.false_ne_true)]
      exact ⟨hinv.rm, hinv.sg,
        fun loc h => by rw [hsnoc]; exact hinv.tbl loc h, hinv.tswept⟩
  | retRef r =>
      have hm := retRef_unmasked hwf hmemp
      rw [if_neg (by rw [hm]; exact Bool.false_ne_true)]
      exact ⟨hinv.rm, hinv.sg,
        fun loc h => by rw [hsnoc]; exact hinv.tbl loc h, hinv.tswept⟩
  | call args =>
      have hm := call_unmasked hwf hmemp
      rw [if_neg (by rw [hm]; exact Bool.false_ne_true)]
      refine ⟨hinv.rm, hinv.sg, ?_, ?_⟩
      · intro loc hns
        rw [hsnoc]
        show invalCall (escapedRefs p) s2.t loc =
          invalCall (escapedRefs p) (engineAt p done).t loc
        unfold invalCall
        by_cases hcr : clobberedRef (escapedRefs p) loc.ref = true
        · rw [if_pos hcr, if_pos hcr]
        · rw [if_neg hcr, if_neg hcr]
          exact hinv.tbl loc hns
      · intro loc hsw
        show invalCall (escapedRefs p) s2.t loc = .unknown
        unfold invalCall
        obtain ⟨i, href, hrem⟩ := hsw
        have hcr : clobberedRef (escapedRefs p) loc.ref = false := by
          rw [href]
          unfold clobberedRef
          rw [show (Ref.alloc i).isParam = false from rfl, Bool.false_or]
          exact decide_eq_false (exempt_not_escaped hrem)
        rw [hcr, if_neg Bool.false_ne_true]
        exact hinv.tswept loc ⟨i, href, hrem⟩
  | newArr =>
      have hnotrm : id ∉ (elimState p).removed := by
        intro hcon
        obtain ⟨ins', hins', hacc⟩ := elim_removed_mem hcon
        rw [mem_unique_id (wf_nodup hwf) hins' hmemp] at hacc
        simp [isAccess] at hacc
      have hmv : maskOf p id Instr.newArr = removableAlloc p id := by
        unfold maskOf
        rw [decide_eq_false hnotrm, Bool.false_or]
      cases hra : removableAlloc p id with
      | true =>
          rw [if_pos (hmv.trans hra)]
          refine ⟨hinv.rm, hinv.sg, ?_, hinv.tswept⟩
          intro loc hns
          rw [hsnoc]
          show s2.t loc = allocDflt id (engineAt p done).t loc
          unfold allocDflt
          have hne : loc.ref ≠ Ref.alloc id := by
            intro h
            exact hns ⟨id, h, hra⟩
          rw [if_neg hne]
          exact hinv.tbl loc hns
      | false =>
          rw [if_neg (by rw [hmv.trans hra]; exact Bool.false_ne_true)]
          refine ⟨hinv.rm, hinv.sg, ?_, ?_⟩
          · intro loc hns
            rw [hsnoc]
            show allocDflt id s2.t loc = allocDflt id (engineAt p done).t loc
            unfold allocDflt
            by_cases hl : loc.ref = Ref.alloc id
            · rw [if_pos hl, if_pos hl]
            · rw [if_neg hl, if_neg hl]
              exact hinv.tbl loc hns
          · intro loc hsw
            show allocDflt id s2.t loc = .unknown
            unfold allocDflt
            obtain ⟨i, href, hrem⟩ := hsw
            have hne : loc.ref ≠ Ref.alloc id := by
              intro h
              rw [h] at href
              have hii : id = i := Ref.alloc.inj href
              rw [← hii] at hrem
              rw [hra] at hrem
              cases hrem
            rw [if_neg hne]
            exact hinv.tswept loc ⟨i, href, hrem⟩
  | load r idx =>
      cases ht : (engineAt p done).t ⟨r, idx, 1⟩ with
      | known v =>
          have hrm1 : id ∈ (elimState p).removed := by
            rw [final_removed_iff hwf hp]
            simp [estep, ht]
          have hm : maskOf p id (Instr.load r idx) = true := by
            unfold maskOf
            rw [decide_eq_true hrm1]
            exact Bool.true_or _
          rw [if_pos hm]
          refine ⟨hinv.rm, hinv.sg, ?_, hinv.tswept⟩
          intro loc hns
          rw [hsnoc]
          have hstep_t : (estep (escapedRefs p) (engineAt p done)
              (id, Instr.load r idx)).t = (engineAt p done).t := by
            simp [estep, ht]
          rw [hstep_t]
          exact hinv.tbl loc hns
      | dflt =>
          have hrm1 : id ∈ (elimState p).removed := by
            rw [final_removed_iff hwf hp]
            simp [estep, ht]
          have hm : maskOf p id (Instr.load r idx) = true := by
            unfold maskOf
            rw [decide_eq_true hrm1]
            exact Bool.true_or _
          rw [if_pos hm]
          refine ⟨hinv.rm, hinv.sg, ?_, hinv.tswept⟩
          intro loc hns
          rw [hsnoc]
          have hstep_t : (estep (escapedRefs p) (engineAt p done)
              (id, Instr.load r idx)).t = (engineAt p done).t := by
            simp [estep, ht]
          rw [hstep_t]
          exact hinv.tbl loc hns
      | unknown =>
          have hnotrm : id ∉ (elimState p).removed := by
            intro hcon
            rw [final_removed_iff hwf hp] at hcon
            have hcon' : id ∈ (engineAt p done).removed := by
              simpa [estep, ht] using hcon
            obtain ⟨ins', hins', -⟩ := engineAt_removed_mem hcon'
            have := hlt (id, ins') hins'
            omega
          have hremf : ∀ i, r = Ref.alloc i → removableAlloc p i = false := by
            intro i hri
            apply kept_load_not_removable hmemp ?_ hnotrm
            rw [hri]
            simp [loadsRef]
          have hm : maskOf p id (Instr.load r idx) = false := by
            unfold maskOf
            rw [decide_eq_false hnotrm, Bool.false_or]
            cases r with
            | par n => rfl
            | alloc i => exact hremf i rfl
          rw [if_neg (by rw [hm]; exact Bool.false_ne_true)]
          have hnsloc : ¬sweptLoc p ⟨r, idx, 1⟩ := by
            intro hsw
            obtain ⟨i, href, hrem⟩ := hsw
            rw [hremf i href] at hrem
            cases hrem
          have ht2 : s2.t ⟨r, idx, 1⟩ = TVal.unknown := by
            rw [hinv.tbl _ hnsloc, ht]
          show IdemInv p (done ++ [(id, Instr.load r idx)])
            (estep (escapedRefs p) s2 (id, Instr.load r idx))
          have hstep2 : estep (escapedRefs p) s2 (id, Instr.load r idx) =
              { s2 with t := fun l => if l = ⟨r, idx, 1⟩ then .known (.reg id)
                        else s2.t l } := by
            simp [estep, ht2]
          have hstep1 : estep (escapedRefs p) (engineAt p done)
              (id, Instr.load r idx) =
              { engineAt p done with
                t := fun l => if l = ⟨r, idx, 1⟩ then .known (.reg id)
                     else (engineAt p done).t l } := by
            simp [estep, ht]
          rw [hstep2]
          refine ⟨hinv.rm, hinv.sg, ?_, ?_⟩
          · intro loc hns
            rw [hsnoc, hstep1]
            dsimp only
            by_cases hl : loc = (⟨r, idx, 1⟩ : Loc)
            · rw [if_pos hl, if_pos hl]
            · rw [if_neg hl, if_neg hl]
              exact hinv.tbl loc hns
          · intro loc hsw
            dsimp only
            have hl : loc ≠ (⟨r, idx, 1⟩ : Loc) := by
              intro h
              rw [h] at hsw
              exact hnsloc hsw
            rw [if_neg hl]
            exact hinv.tswept loc hsw
  | vload r idx len =>
      cases ht : (engineAt p done).t ⟨r, idx, len⟩ with
      | known v =>
          have hrm1 : id ∈ (elimState p).removed := by
            rw [final_removed_iff hwf hp]
            simp [estep, ht]
          have hm : maskOf p id (Instr.vload r idx len) = true := by
            unfold maskOf
            rw [decide_eq_true hrm1]
            exact Bool.true_or _
          rw [if_pos hm]
          refine ⟨hinv.rm, hinv.sg, ?_, hinv.tswept⟩
          intro loc hns
          rw [hsnoc]
          have hstep_t : (estep (escapedRefs p) (engineAt p done)
              (id, Instr.vload r idx len)).t = (engineAt p done).t := by
            simp [estep, ht]
          rw [hstep_t]
          exact hinv.tbl loc hns
      | dflt =>
          have hnotrm : id ∉ (elimState p).removed := by
            intro hcon
            rw [final_removed_iff hwf hp] at hcon
            have hcon' : id ∈ (engineAt p done).removed := by
              simpa [estep, ht] using hcon
            obtain ⟨ins', hins', -⟩ := engineAt_removed_mem hcon'
            have := hlt (id, ins') hins'
            omega
          have hremf : ∀ i, r = Ref.alloc i → removableAlloc p i = false := by
            intro i hri
            apply kept_load_not_removable hmemp ?_ hnotrm
            rw [hri]
            simp [loadsRef]
          have hm : maskOf p id (Instr.vload r idx len) = false := by
            unfold maskOf
            rw [decide_eq_false hnotrm, Bool.false_or]
            cases r with
            | par n => rfl
            | alloc i => exact hremf i rfl
          rw [if_neg (by rw [hm]; exact Bool.false_ne_true)]
          have hnsloc : ¬sweptLoc p ⟨r, idx, len⟩ := by
            intro hsw
            obtain ⟨i, href, hrem⟩ := hsw
            rw [hremf i href] at hrem
            cases hrem
          have ht2 : s2.t ⟨r, idx, len⟩ = TVal.dflt := by
            rw [hinv.tbl _ hnsloc, ht]
          show IdemInv p (done ++ [(id, Instr.vload r idx len)])
            (estep (escapedRefs p) s2 (id, Instr.vload r idx len))
          have hstep2 : estep (escapedRefs p) s2 (id, Instr.vload r idx len) =
              { s2 with t := fun l => if l = ⟨r, idx, len⟩ then .known (.reg id)
                        else s2.t l } := by
            simp [estep, ht2]
          have hstep1 : estep (escapedRefs p) (engineAt p done)
              (id, Instr.vload r idx len) =
              { engineAt p done with
                t := fun l => if l = ⟨r, idx, len⟩ then .known (.reg id)
                     else (engineAt p done).t l } := by
            simp [estep, ht]
          rw [hstep2]
          refine ⟨hinv.rm, hinv.sg, ?_, ?_⟩
          · intro loc hns
            rw [hsnoc, hstep1]
            dsimp only
            by_cases hl : loc = (⟨r, idx, len⟩ : Loc)
            · rw [if_pos hl, if_pos hl]
            · rw [if_neg hl, if_neg hl]
              exact hinv.tbl loc hns
          · intro loc hsw
            dsimp only
            have hl : loc ≠ (⟨r, idx, len⟩ : Loc) := by
              intro h
              rw [h] at hsw
              exact hnsloc hsw
            rw [if_neg hl]
            exact hinv.tswept loc hsw
      | unknown =>
          have hnotrm : id ∉ (elimState p).removed := by
            intro hcon
            rw [final_removed_iff hwf hp] at hcon
            have hcon' : id ∈ (engineAt p done).removed := by
              simpa [estep, ht] using hcon
            obtain ⟨ins', hins', -⟩ := engineAt_removed_mem hcon'
            have := hlt (id, ins') hins'
            omega
          have hremf : ∀ i, r = Ref.alloc i → removableAlloc p i = false := by
            intro i hri
            apply kept_load_not_removable hmemp ?_ hnotrm
            rw [hri]
            simp [loadsRef]
          have hm : maskOf p id (Instr.vload r idx len) = false := by
            unfold maskOf
            rw [decide_eq_false hnotrm, Bool.false_or]
            cases r with
            | par n => rfl
            | alloc i => exact hremf i rfl
          rw [if_neg (by rw [hm]; exact Bool.false_ne_true)]
          have hnsloc : ¬sweptLoc p ⟨r, idx, len⟩ := by
            intro hsw
            obtain ⟨i, href, hrem⟩ := hsw
            rw [hremf i href] at hrem
            cases hrem
          have ht2 : s2.t ⟨r, idx, len⟩ = TVal.unknown := by
            rw [hinv.tbl _ hnsloc, ht]
          show IdemInv p (done ++ [(id, Instr.vload r idx len)])
            (estep (escapedRefs p) s2 (id, Instr.vload r idx len))
          have hstep2 : estep (escapedRefs p) s2 (id, Instr.vload r idx len) =
              { s2 with t := fun l => if l = ⟨r, idx, len⟩ then .known (.reg id)
                        else s2.t l } := by
            simp [estep, ht2]
          have hstep1 : estep (escapedRefs p) (engineAt p done)
              (id, Instr.vload r idx len) =
              { engineAt p done with
                t := fun l => if l = ⟨r, idx, len⟩ then .known (.reg id)
                     else (engineAt p done).t l } := by
            simp [estep, ht]
          rw [hstep2]
          refine ⟨hinv.rm, hinv.sg, ?_, ?_⟩
          · intro loc hns
            rw [hsnoc, hstep1]
            dsimp only
            by_cases hl : loc = (⟨r, idx, len⟩ : Loc)
            · rw [if_pos hl, if_pos hl]
            · rw [if_neg hl, if_neg hl]
              exact hinv.tbl loc hns
          · intro loc hsw
            dsimp only
            have hl : loc ≠ (⟨r, idx, len⟩ : Loc) := by
              intro h
              rw [h] at hsw
              exact hnsloc hsw
            rw [if_neg hl]
            exact hinv.tswept loc hsw
  | store r idx v =>
      have hok : valOK p id 1 v = true := wf_instrOK hwf hmemp
      have hsub_eq : applySub (elimSub p) v = applySub (engineAt p done).σ v :=
        applySub_stable hwf hp hok
      by_cases hc : (engineAt p done).t ⟨r, idx, 1⟩ =
            .known (applySub (engineAt p done).σ v) ∨
          ((engineAt p done).t ⟨r, idx, 1⟩ = .dflt ∧
            applySub (engineAt p done).σ v = .cst 0)
      · have hstep1 : estep (escapedRefs p) (engineAt p done)
            (id, Instr.store r idx v) =
            { engineAt p done with
              removed := (engineAt p done).removed ++ [id] } := by
          rw [estep_store_eq, if_pos hc]
        have hrm1 : id ∈ (elimState p).removed := by
          rw [final_removed_iff hwf hp, hstep1]
          simp
        have hm : maskOf p id (Instr.store r idx v) = true := by
          unfold maskOf
          rw [decide_eq_true hrm1]
          exact Bool.true_or _
        rw [if_pos hm]
        refine ⟨hinv.rm, hinv.sg, ?_, hinv.tswept⟩
        intro loc hns
        rw [hsnoc, hstep1]
        exact hinv.tbl loc hns
      · have hstep1 : estep (escapedRefs p) (engineAt p done)
            (id, Instr.store r idx v) =
            { engineAt p done with
              t := invalSet (engineAt p done).t ⟨r, idx, 1⟩
                (applySub (engineAt p done).σ v) } := by
          rw [estep_store_eq, if_neg hc]
        have hnotrm : id ∉ (elimState p).removed := by
          intro hcon
          rw [final_removed_iff hwf hp, hstep1] at hcon
          obtain ⟨ins', hins', -⟩ := engineAt_removed_mem hcon
          have := hlt (id, ins') hins'
          omega
        have hmv : maskOf p id (Instr.store r idx v) = (match r with
            | Ref.alloc i => removableAlloc p i
            | Ref.par _ => false) := by
          unfold maskOf
          rw [decide_eq_false hnotrm, Bool.false_or]
        cases hsw : (match r with
            | Ref.alloc i => removableAlloc p i
            | Ref.par _ => false) with
        | true =>
            rw [if_pos (hmv.trans hsw)]
            have hswloc : sweptLoc p ⟨r, idx, 1⟩ := by
              cases r with
              | par n => exact Bool.noConfusion hsw
              | alloc i => exact ⟨i, rfl, hsw⟩
            refine ⟨hinv.rm, hinv.sg, ?_, hinv.tswept⟩
            intro loc hns
            rw [hsnoc, hstep1]
            show s2.t loc = invalSet (engineAt p done).t ⟨r, idx, 1⟩
              (applySub (engineAt p done).σ v) loc
            unfold invalSet
            have hl : loc ≠ (⟨r, idx, 1⟩ : Loc) := by
              intro h
              exact hns (h ▸ hswloc)
            rw [if_neg hl]
            have hma : locMayAlias loc ⟨r, idx, 1⟩ = false :=
              noalias_swept hns hswloc
            rw [hma, if_neg Bool.false_ne_true]
            exact hinv.tbl loc hns
        | false =>
            rw [if_neg (by rw [hmv.trans hsw]; exact Bool.false_ne_true)]
            have hnsloc : ¬sweptLoc p ⟨r, idx, 1⟩ := by
              intro hsw2
              obtain ⟨i, href, hrem⟩ := hsw2
              have href' : r = Ref.alloc i := href
              rw [href'] at hsw
              have : removableAlloc p i = false := hsw
              rw [this] at hrem
              cases hrem
            have hv2 : applySub s2.σ (applySub (elimSub p) v) =
                applySub (engineAt p done).σ v := by
              rw [applySub_none hinv.sg]
              exact hsub_eq
            have ht2 : s2.t ⟨r, idx, 1⟩ = (engineAt p done).t ⟨r, idx, 1⟩ :=
              hinv.tbl _ hnsloc
            have hc2 : ¬(s2.t ⟨r, idx, 1⟩ =
                  .known (applySub s2.σ (applySub (elimSub p) v)) ∨
                (s2.t ⟨r, idx, 1⟩ = .dflt ∧
                  applySub s2.σ (applySub (elimSub p) v) = .cst 0)) := by
              rw [ht2, hv2]
              exact hc
            show IdemInv p (done ++ [(id, Instr.store r idx v)])
              (estep (escapedRefs p) s2
                (id, Instr.store r idx (applySub (elimSub p) v)))
            rw [estep_store_eq, if_neg hc2]
            refine ⟨hinv.rm, hinv.sg, ?_, ?_⟩
            · intro loc hns
              rw [hsnoc, hstep1]
              show invalSet s2.t ⟨r, idx, 1⟩
                  (applySub s2.σ (applySub (elimSub p) v)) loc =
                invalSet (engineAt p done).t ⟨r, idx, 1⟩
                  (applySub (engineAt p done).σ v) loc
              unfold invalSet
              by_cases hl : loc = (⟨r, idx, 1⟩ : Loc)
              · rw [if_pos hl, if_pos hl, hv2]
              · rw [if_neg hl, if_neg hl]
                by_cases hma : locMayAlias loc ⟨r, idx, 1⟩ = true
                · rw [if_pos hma, if_pos hma]
                · rw [if_neg hma, if_neg hma]
                  exact hinv.tbl loc hns
            · intro loc hsw2
              show invalSet s2.t ⟨r, idx, 1⟩
                  (applySub s2.σ (applySub (elimSub p) v)) loc = .unknown
              unfold invalSet
              have hl : loc ≠ (⟨r, idx, 1⟩ : Loc) := by
                intro h
                exact hnsloc (h ▸ hsw2)
              rw [if_neg hl]
              have hma : locMayAlias loc ⟨r, idx, 1⟩ = false :=
                swept_noalias hsw2 hnsloc
              rw [hma, if_neg Bool.false_ne_true]
              exact hinv.tswept loc hsw2
  | vstore r idx len v =>
      have hok0 := wf_instrOK hwf hmemp
      simp only [instrOK, Bool.and_eq_true] at hok0
      have hok : valOK p id len v = true := hok0.2
      have hsub_eq : applySub (elimSub p) v = applySub (engineAt p done).σ v :=
        applySub_stable hwf hp hok
      by_cases hc : (engineAt p done).t ⟨r, idx, len⟩ =
            .known (applySub (engineAt p done).σ v) ∨
          ((engineAt p done).t ⟨r, idx, len⟩ = .dflt ∧
            applySub (engineAt p done).σ v = .cst 0)
      · have hstep1 : estep (escapedRefs p) (engineAt p done)
            (id, Instr.vstore r idx len v) =
            { engineAt p done with
              removed := (engineAt p done).removed ++ [id] } := by
          rw [estep_vstore_eq, if_pos hc]
        have hrm1 : id ∈ (elimState p).removed := by
          rw [final_removed_iff hwf hp, hstep1]
          simp
        have hm : maskOf p id (Instr.vstore r idx len v) = true := by
          unfold maskOf
          rw [decide_eq_true hrm1]
          exact Bool.true_or _
        rw [if_pos hm]
        refine ⟨hinv.rm, hinv.sg, ?_, hinv.tswept⟩
        intro loc hns
        rw [hsnoc, hstep1]
        exact hinv.tbl loc hns
      · have hstep1 : estep (escapedRefs p) (engineAt p done)
            (id, Instr.vstore r idx len v) =
            { engineAt p done with
              t := invalSet (engineAt p done).t ⟨r, idx, len⟩
                (applySub (engineAt p done).σ v) } := by
          rw [estep_vstore_eq, if_neg hc]
        have hnotrm : id ∉ (elimState p).removed := by
          intro hcon
          rw [final_removed_iff hwf hp, hstep1] at hcon
          obtain ⟨ins', hins', -⟩ := engineAt_removed_mem hcon
          have := hlt (id, ins') hins'
          omega
        have hmv : maskOf p id (Instr.vstore r idx len v) = (match r with
            | Ref.alloc i => removableAlloc p i
            | Ref.par _ => false) := by
          unfold maskOf
          rw [decide_eq_false hnotrm, Bool.false_or]
        cases hsw : (match r with
            | Ref.alloc i => removableAlloc p i
            | Ref.par _ => false) with
        | true =>
            rw [if_pos (hmv.trans hsw)]
            have hswloc : sweptLoc p ⟨r, idx, len⟩ := by
              cases r with
              | par n => exact Bool.noConfusion hsw
              | alloc i => exact ⟨i, rfl, hsw⟩
            refine ⟨hinv.rm, hinv.sg, ?_, hinv.tswept⟩
            intro loc hns
            rw [hsnoc, hstep1]
            show s2.t loc = invalSet (engineAt p done).t ⟨r, idx, len⟩
              (applySub (engineAt p done).σ v) loc
            unfold invalSet
            have hl : loc ≠ (⟨r, idx, len⟩ : Loc) := by
              intro h
              exact hns (h ▸ hswloc)
            rw [if_neg hl]
            have hma : locMayAlias loc ⟨r, idx, len⟩ = false :=
              noalias_swept hns hswloc
            rw [hma, if_neg Bool.false_ne_true]
            exact hinv.tbl loc hns
        | false =>
            rw [if_neg (by rw [hmv.trans hsw]; exact Bool.false_ne_true)]
            have hnsloc : ¬sweptLoc p ⟨r, idx, len⟩ := by
              intro hsw2
              obtain ⟨i, href, hrem⟩ := hsw2
              have href' : r = Ref.alloc i := href
              rw [href'] at hsw
              have : removableAlloc p i = false := hsw
              rw [this] at hrem
              cases hrem
            have hv2 : applySub s2.σ (applySub (elimSub p) v) =
                applySub (engineAt p done).σ v := by
              rw [applySub_none hinv.sg]
              exact hsub_eq
            have ht2 : s2.t ⟨r, idx, len⟩ = (engineAt p done).t ⟨r, idx, len⟩ :=
              hinv.tbl _ hnsloc
            have hc2 : ¬(s2.t ⟨r, idx, len⟩ =
                  .known (applySub s2.σ (applySub (elimSub p) v)) ∨
                (s2.t ⟨r, idx, len⟩ = .dflt ∧
                  applySub s2.σ (applySub (elimSub p) v) = .cst 0)) := by
              rw [ht2, hv2]
              exact hc
            show IdemInv p (done ++ [(id, Instr.vstore r idx len v)])
              (estep (escapedRefs p) s2
                (id, Instr.vstore r idx len (applySub (elimSub p) v)))
            rw [estep_vstore_eq, if_neg hc2]
            refine ⟨hinv.rm, hinv.sg, ?_, ?_⟩
            · intro loc hns
              rw [hsnoc, hstep1]
              show invalSet s2.t ⟨r, idx, len⟩
                  (applySub s2.σ (applySub (elimSub p) v)) loc =
                invalSet (engineAt p done).t ⟨r, idx, len⟩
                  (applySub (engineAt p done).σ v) loc
              unfold invalSet
              by_cases hl : loc = (⟨r, idx, len⟩ : Loc)
              · rw [if_pos hl, if_pos hl, hv2]
              · rw [if_neg hl, if_neg hl]
                by_cases hma : locMayAlias loc ⟨r, idx, len⟩ = true
                · rw [if_pos hma, if_pos hma]
                · rw [if_neg hma, if_neg hma]
                  exact hinv.tbl loc hns
            · intro loc hsw2
              show invalSet s2.t ⟨r, idx, len⟩
                  (applySub s2.σ (applySub (elimSub p) v)) loc = .unknown
              unfold invalSet
              have hl : loc ≠ (⟨r, idx, len⟩ : Loc) := by
                intro h
                exact hnsloc (h ▸ hsw2)
              rw [if_neg hl]
              have hma : locMayAlias loc ⟨r, idx, len⟩ = false :=
                swept_noalias hsw2 hnsloc
              rw [hma, if_neg Bool.false_ne_true]
              exact hinv.tswept loc hsw2

theorem idemInv_fold {p : Program} (hwf : wfProgram p = true) :
    ∀ rest done, p = done ++ rest →
    IdemInv p done ((done.filterMap (fun pr =>
      if maskOf p pr.1 pr.2 then none
      else some (pr.1, mapVals (applySub (elimSub p)) pr.2))).foldl
        (estep (escapedRefs p)) initES) →
    IdemInv p p ((p.filterMap (fun pr =>
      if maskOf p pr.1 pr.2 then none
      else some (pr.1, mapVals (applySub (elimSub p)) pr.2))).foldl
        (estep (escapedRefs p)) initES) := by
  intro rest
  induction rest with
  | nil =>
      intro done hsplit hinv
      rw [List.append_nil] at hsplit
      subst hsplit
      exact hinv
  | cons q tl ih =>
      intro done hsplit hinv
      obtain ⟨id, ins⟩ := q
      have hsplit' : p = (done ++ [(id, ins)]) ++ tl := by
        rw [hsplit, List.append_assoc]
        rfl
      have hstep := idemStep hwf hsplit hinv
      apply ih (done ++ [(id, ins)]) hsplit'
      rw [List.filterMap_append, List.foldl_append]
      cases hm : maskOf p id ins with
      | true =>
          have hf1 : ([(id, ins)] : Program).filterMap (fun pr =>
              if maskOf p pr.1 pr.2 then none
              else some (pr.1, mapVals (applySub (elimSub p)) pr.2)) = [] := by
            rw [List.filterMap_cons]
            dsimp only
            rw [hm, if_pos rfl]
            rfl
          rw [hf1]
          rw [if_pos hm] at hstep
          exact hstep
      | false =>
          have hf1 : ([(id, ins)] : Program).filterMap (fun pr =>
              if maskOf p pr.1 pr.2 then none
              else some (pr.1, mapVals (applySub (elimSub p)) pr.2)) =
              [(id, mapVals (applySub (elimSub p)) ins)] := by
            rw [List.filterMap_cons]
            dsimp only
            rw [hm, if_neg Bool.false_ne_true]
            rfl
          rw [hf1]
          rw [if_neg (by rw [hm]; exact Bool.false_ne_true)] at hstep
          exact hstep

/-- The second engine run eliminates nothing: no removals, no
substitutions. -/
theorem elim_lsePass_empty {p : Program} (hwf : wfProgram p = true) :
    (elimState (lsePass p)).removed = [] ∧
    ∀ j, (elimState (lsePass p)).σ j = none := by
  have hE : escapedRefs (lsePass p) = escapedRefs p := escapedRefs_lsePass hwf
  have hfin : IdemInv p p ((p.filterMap (fun pr =>
      if maskOf p pr.1 pr.2 then none
      else some (pr.1, mapVals (applySub (elimSub p)) pr.2))).foldl
        (estep (escapedRefs p)) initES) := by
    apply idemInv_fold hwf p [] rfl
    exact ⟨rfl, fun j => rfl, fun loc _ => rfl, fun loc _ => rfl⟩
  have heq : elimState (lsePass p) = (p.filterMap (fun pr =>
      if maskOf p pr.1 pr.2 then none
      else some (pr.1, mapVals (applySub (elimSub p)) pr.2))).foldl
        (estep (escapedRefs p)) initES := by
    unfold elimState
    rw [hE]
    rfl
  rw [heq]
  exact ⟨hfin.rm, hfin.sg⟩

/-- No allocation of the pass's output is removable: if it survived, some
retained load of it survived too. -/
theorem removableAlloc_lsePass {p : Program} (hwf : wfProgram p = true)
    (i : Nat) : removableAlloc (lsePass p) i = false := by
  cases h : removableAlloc (lsePass p) i with
  | false => rfl
  | true =>
      exfalso
      unfold removableAlloc at h
      rw [Bool.and_eq_true, Bool.and_eq_true, Bool.and_eq_true] at h
      obtain ⟨⟨⟨h1, h2⟩, h3⟩, h4⟩ := h
      have h1' : (i, Instr.newArr) ∈ lsePass p := of_decide_eq_true h1
      have hmem_p : (i, Instr.newArr) ∈ p ∧ maskOf p i Instr.newArr = false := by
        unfold lsePass at h1'
        rw [List.mem_filterMap] at h1'
        obtain ⟨⟨j, ins0⟩, hj, hfj⟩ := h1'
        by_cases hm : maskOf p j ins0 = true
        · rw [if_pos hm] at hfj
          cases hfj
        · rw [if_neg hm] at hfj
          obtain ⟨hj1, hj2⟩ := (Prod.mk.injEq _ _ _ _).mp (Option.some.inj hfj)
          have hj1' : j = i := hj1
          have hins0 : ins0 = Instr.newArr := by
            cases ins0 with
            | newArr => rfl
            | fence a => exact Instr.noConfusion hj2
            | load r idx => exact Instr.noConfusion hj2
            | vload r idx len => exact Instr.noConfusion hj2
            | store r idx v => exact Instr.noConfusion hj2
            | vstore r idx len v => exact Instr.noConfusion hj2
            | call args => exact Instr.noConfusion hj2
            | retV v => exact Instr.noConfusion hj2
            | retRef r => exact Instr.noConfusion hj2
          rw [hj1', hins0] at hj
          rw [hj1', hins0] at hm
          exact ⟨hj, Bool.eq_false_iff.mpr hm⟩
      obtain ⟨hmemp, hmaskf⟩ := hmem_p
      have hra_p : removableAlloc p i = false := by
        cases hra : removableAlloc p i with
        | false => rfl
        | true =>
            exfalso
            have hmt : maskOf p i Instr.newArr =
                (decide (i ∈ (elimState p).removed) || removableAlloc p i) := rfl
            rw [hmaskf, hra, Bool.or_true] at hmt
            cases hmt
      rw [escapedRefs_lsePass hwf] at h2
      rw [returnedRefs_lsePass hwf] at h3
      have hall : p.all (fun pr => !(loadsRef (Ref.alloc i) pr.2) ||
          decide (pr.1 ∈ (elimState p).removed)) = true := by
        rw [List.all_eq_true]
        intro q hq
        obtain ⟨k, insk⟩ := q
        cases hload : loadsRef (Ref.alloc i) insk with
        | false => simp [hload]
        | true =>
            cases hqrm : decide (k ∈ (elimState p).removed) with
            | true => simp [hqrm]
            | false =>
                exfalso
                have hqnot : k ∉ (elimState p).removed := of_decide_eq_false hqrm
                have hmq : maskOf p k insk = false := by
                  unfold maskOf
                  rw [decide_eq_false hqnot, Bool.false_or]
                  cases insk with
                  | load r idx =>
                      have hri : r = Ref.alloc i := by
                        have : decide (r = Ref.alloc i) = true := hload
                        exact of_decide_eq_true this
                      rw [hri]
                      exact hra_p
                  | vload r idx len =>
                      have hri : r = Ref.alloc i := by
                        have : decide (r = Ref.alloc i) = true := hload
                        exact of_decide_eq_true this
                      rw [hri]
                      exact hra_p
                  | newArr => exact Bool.noConfusion hload
                  | fence a => exact Bool.noConfusion hload
                  | store r idx v => exact Bool.noConfusion hload
                  | vstore r idx len v => exact Bool.noConfusion hload
                  | call args => exact Bool.noConfusion hload
                  | retV v => exact Bool.noConfusion hload
                  | retRef r => exact Bool.noConfusion hload
                have hq2mem : (k, mapVals (applySub (elimSub p)) insk) ∈
                    lsePass p := by
                  unfold lsePass
                  rw [List.mem_filterMap]
                  refine ⟨(k, insk), hq, ?_⟩
                  rw [hmq, if_neg Bool.false_ne_true]
                  rfl
                have hload2 : loadsRef (Ref.alloc i)
                    (mapVals (applySub (elimSub p)) insk) = true := by
                  rw [loadsRef_mapVals]
                  exact hload
                have hfin := List.all_eq_true.mp h4 _ hq2mem
                rw [hload2] at hfin
                simp only [Bool.not_true, Bool.false_or,
                  decide_eq_true_eq] at hfin
                rw [(elim_lsePass_empty hwf).1] at hfin
                exact List.not_mem_nil k hfin
      have hcontr : removableAlloc p i = true := by
        unfold removableAlloc
        rw [Bool.and_eq_true, Bool.and_eq_true, Bool.and_eq_true]
        exact ⟨⟨⟨decide_eq_true hmemp, h2⟩, h3⟩, hall⟩
      rw [hra_p] at hcontr
      cases hcontr

/-- Nothing in (or out of) the pass's output is masked by a second run. -/
theorem maskOf_lsePass {p : Program} (hwf : wfProgram p = true)
    (id : Nat) (ins : Instr) : maskOf (lsePass p) id ins = false := by
  unfold maskOf
  rw [(elim_lsePass_empty hwf).1]
  rw [decide_eq_false (List.not_mem_nil id), Bool.false_or]
  cases ins with
  | newArr => exact removableAlloc_lsePass hwf id
  | fence a => exact removableAlloc_lsePass hwf a
  | load r idx =>
      cases r with
      | par n => rfl
      | alloc i => exact removableAlloc_lsePass hwf i
  | vload r idx len =>
      cases r with
      | par n => rfl
      | alloc i => exact removableAlloc_lsePass hwf i
  | store r idx v =>
      cases r with
      | par n => rfl
      | alloc i => exact removableAlloc_lsePass hwf i
  | vstore r idx len v =>
      cases r with
      | par n => rfl
      | alloc i => exact removableAlloc_lsePass hwf i
  | call args => rfl
  | retV v => rfl
  | retRef r => rfl

theorem mapVals_id_of_none {σ : Nat → Option Val} (h : ∀ j, σ j = none)
    (ins : Instr) : mapVals (applySub σ) ins = ins := by
  cases ins <;> simp [mapVals, applySub_none h]

/-- **C9** (Idempotence, spec §8): on any well-formed method, running the
load-store elimination pass twice in a row yields exactly the output of
running it once — the second run's engine removes nothing, substitutes
nothing, and the second singleton sweep finds nothing to delete. -/
theorem lsePass_idempotent (p : Program) (hwf : wfProgram p = true) :
    lsePass (lsePass p) = lsePass p := by
  have hσ := (elim_lsePass_empty hwf).2
  have hgen : ∀ l : Program, l.filterMap (fun pr =>
      if maskOf (lsePass p) pr.1 pr.2 then none
      else some (pr.1, mapVals (applySub (elimState (lsePass p)).σ) pr.2)) = l := by
    intro l
    induction l with
    | nil => rfl
    | cons q tl ih =>
        obtain ⟨id, ins⟩ := q
        rw [List.filterMap_cons]
        dsimp only
        rw [maskOf_lsePass hwf id ins, if_neg Bool.false_ne_true]
        show (id, mapVals (applySub (elimState (lsePass p)).σ) ins) ::
          (tl.filterMap _) = (id, ins) :: tl
        rw [mapVals_id_of_none hσ, ih]
  exact hgen (lsePass p)

/-- Witness for C9 at the concrete ArrayGetSetElimination block. -/
theorem lsePass_idempotent_witness :
    wfProgram blockC4 = true ∧
    lsePass (lsePass blockC4) = lsePass blockC4 :=
  ⟨wfProgram_of blockC4 (by decide) (by decide),
    lsePass_idempotent blockC4 (wfProgram_of blockC4 (by decide) (by decide))⟩
